import Mathlib

/-!
Verification of the `@zk-kit/smt` sparse Merkle tree (src/dist/index.js).

The embedding models the big-number representation mode: keys, values and
node identifiers are natural numbers, the zero node is `0`, the entry mark
is `1`, and the injected hash function is a parameter `hsh : List ℕ → ℕ`
(the source calls `this.hash` on 2-element and 3-element arrays).  The
JavaScript `Map` backing the node store is modelled as an association list
with `Map.set` / `Map.delete` / `Map.get` semantics.  Fallible code paths
(a dangling node identifier, which crashes the original with a TypeError,
and the sibling-extension loop of `add`, which the original never exits
when the two paths never diverge) are modelled with `Option` results and
explicit error values.
-/

namespace ZkKitSmt

/-- The node store: JavaScript `Map` from node identifier to child-node
array, as an association list (`Map.get` returns the first binding). -/
abbrev NodeMap := List (ℕ × List ℕ)

/-- `Map.get`: the first binding for a key, if any. -/
def lookupN : NodeMap → ℕ → Option (List ℕ)
  | [], _ => none
  | e :: rest, k => if e.1 = k then some e.2 else lookupN rest k

/-- `Map.set`: replace the binding in place if the key is present,
otherwise append a new binding. -/
def mapSet : NodeMap → ℕ → List ℕ → NodeMap
  | [], k, v => [(k, v)]
  | e :: rest, k, v => if e.1 = k then (k, v) :: rest else e :: mapSet rest k v

/-- `Map.delete`: remove the binding for a key. -/
def mapDelete : NodeMap → ℕ → NodeMap
  | [], _ => []
  | e :: rest, k => if e.1 = k then mapDelete rest k else e :: mapDelete rest k

theorem lookupN_mapSet (m : NodeMap) (k : ℕ) (v : List ℕ) (x : ℕ) :
    lookupN (mapSet m k v) x = if x = k then some v else lookupN m x := by
  induction m with
  | nil =>
    by_cases h : x = k
    · simp [mapSet, lookupN, h]
    · simp [mapSet, lookupN, h, Ne.symm h]
  | cons e rest ih =>
    by_cases hek : e.1 = k
    · by_cases hxk : x = k
      · simp [mapSet, lookupN, hek, hxk]
      · have h1 : ¬ k = x := Ne.symm hxk
        have h2 : ¬ e.1 = x := by rw [hek]; exact h1
        simp [mapSet, lookupN, hek, hxk, h1, h2]
    · by_cases hxe : e.1 = x
      · have hxk : ¬ x = k := fun h => hek (hxe.trans h)
        simp [mapSet, lookupN, hek, hxe, hxk]
      · simp [mapSet, lookupN, hek, hxe, ih]

theorem lookupN_mapDelete (m : NodeMap) (k x : ℕ) :
    lookupN (mapDelete m k) x = if x = k then none else lookupN m x := by
  induction m with
  | nil =>
    by_cases h : x = k <;> simp [mapDelete, lookupN, h]
  | cons e rest ih =>
    by_cases hek : e.1 = k
    · by_cases hxk : x = k
      · subst hxk
        simpa [mapDelete, lookupN, hek] using ih
      · have h1 : ¬ k = x := Ne.symm hxk
        have h2 : ¬ e.1 = x := by rw [hek]; exact h1
        simp [mapDelete, lookupN, hek, hxk, h1, h2, ih]
    · by_cases hxe : e.1 = x
      · have hxk : ¬ x = k := fun h => hek (hxe.trans h)
        simp [mapDelete, lookupN, hek, hxe, hxk]
      · simp [mapDelete, lookupN, hek, hxe, ih]

/-! ### Path codec

`keyToPath` in the source:
```js
function keyToPath(key) {
    const bits = typeof key === "bigint" ? key.toString(2) : hexToBin(key);
    return bits.padStart(256, "0").split("").reverse().map(Number);
}
```
Binary strings are modelled as `List Bool` (most-significant bit first, as
in `toString(2)`).  `natToBinAux` is `n.toString(2)` for positive `n`,
written with an explicit structural fuel so it evaluates by `decide`/`rfl`;
`jsBinStr` adds JavaScript's `"0"` for zero. -/

/-- Big-endian binary digits of `n` (empty for `0`); the fuel argument is
only there to make the recursion structural, any `fuel ≥ n` gives the
digits of `n.toString(2)`. -/
def natToBinAux : ℕ → ℕ → List Bool
  | 0, _ => []
  | fuel + 1, n => if n = 0 then [] else natToBinAux fuel (n / 2) ++ [decide (n % 2 = 1)]

/-- Big-endian binary digits of `n`, `[]` for `0`. -/
def natToBin (n : ℕ) : List Bool := natToBinAux n n

/-- JavaScript `n.toString(2)`: the binary digits, with `"0"` for zero. -/
def jsBinStr (n : ℕ) : List Bool := if n = 0 then [false] else natToBin n

/-- JavaScript `String.prototype.padStart(len, "0")` on a binary string. -/
def padStart (l : List Bool) (len : ℕ) : List Bool :=
  List.replicate (len - l.length) false ++ l

/-- `hexToBin` from the source, with the hexadecimal string abstracted as
the list of its digit values (each `< 16` for a well-formed string):
the first digit is converted without padding, every further digit is
padded to four bits. -/
def hexToBin (ds : List ℕ) : List Bool :=
  match ds with
  | [] => []
  | d :: rest => rest.foldl (fun acc di => acc ++ padStart (jsBinStr di) 4) (jsBinStr d)

/-- `checkHex` from the source: the regular expression
`/^[0-9A-Fa-f]{1,64}$/` over the digit-value list. -/
def checkHex (ds : List ℕ) : Bool :=
  decide (1 ≤ ds.length) && decide (ds.length ≤ 64) && ds.all (fun d => decide (d < 16))

/-- `keyToPath` for the big-number representation mode
(`key.toString(2)`, zero-pad to 256, reverse). -/
def keyToPath (key : ℕ) : List Bool :=
  (padStart (jsBinStr key) 256).reverse

/-- `keyToPath` for the hexadecimal representation mode
(`hexToBin(key)`, zero-pad to 256, reverse). -/
def keyToPathHex (ds : List ℕ) : List Bool :=
  (padStart (hexToBin ds) 256).reverse

/-- The value denoted by a hexadecimal digit string. -/
def hexVal (ds : List ℕ) : ℕ := ds.foldl (fun a d => 16 * a + d) 0

/-- Modelled from the spec (§4.1): "decode the key into its binary form,
zero-pad on the most-significant side to exactly 256 bits, then reverse so
index 0 is the least-significant bit"; the reference path of a key value,
used to compare both representation modes against the spec's wording. -/
def specPath (key : ℕ) : List Bool :=
  (padStart (jsBinStr key) 256).reverse

theorem natToBinAux_fuel (fuel n : ℕ) (h : n ≤ fuel) :
    ∀ fuel2, n ≤ fuel2 → natToBinAux fuel n = natToBinAux fuel2 n := by
  induction fuel generalizing n with
  | zero =>
    intro fuel2 _
    interval_cases n
    cases fuel2 <;> simp [natToBinAux]
  | succ f ih =>
    intro fuel2 h2
    by_cases hn : n = 0
    · subst hn; cases fuel2 <;> simp [natToBinAux]
    · obtain ⟨f2, rfl⟩ : ∃ f2, fuel2 = f2 + 1 := by
        cases fuel2 with
        | zero => omega
        | succ f2 => exact ⟨f2, rfl⟩
      have hd : n / 2 ≤ f := by omega
      have hd2 : n / 2 ≤ f2 := by omega
      simp [natToBinAux, hn, ih (n / 2) hd f2 hd2]

theorem natToBin_two_mul_add (m b : ℕ) (hm : 1 ≤ m) (hb : b < 2) :
    natToBin (2 * m + b) = natToBin m ++ [decide (b = 1)] := by
  have h1 : (2 * m + b) % 2 = b := by omega
  have h2 : (2 * m + b) / 2 = m := by omega
  have h3 : ¬ (2 * m + b) = 0 := by omega
  obtain ⟨f, hf⟩ : ∃ f, 2 * m + b = f + 1 := ⟨2 * m + b - 1, by omega⟩
  have : natToBin (2 * m + b) = natToBinAux (f + 1) (2 * m + b) := by
    unfold natToBin; rw [hf]
  rw [this]
  simp only [natToBinAux, h3, if_false, h1, h2]
  congr 1
  exact natToBinAux_fuel f m (by omega) m le_rfl

theorem natToBin_testBit (n : ℕ) :
    ∀ i, (natToBin n).reverse.getD i false = n.testBit i := by
  induction n using Nat.strong_induction_on with
  | _ n ih =>
    intro i
    by_cases hn : n = 0
    · subst hn
      simp [natToBin, natToBinAux, Nat.zero_testBit]
    · obtain ⟨f, hf⟩ : ∃ f, n = f + 1 := ⟨n - 1, by omega⟩
      have hunf : natToBin n = natToBin (n / 2) ++ [decide (n % 2 = 1)] := by
        have hsplit : n = 2 * (n / 2) + n % 2 := by omega
        by_cases h2 : n / 2 = 0
        · have hn1 : n = 1 := by omega
          subst hn1
          simp [natToBin, natToBinAux]
        · calc natToBin n = natToBin (2 * (n / 2) + n % 2) := by rw [← hsplit]
            _ = natToBin (n / 2) ++ [decide (n % 2 = 1)] :=
              natToBin_two_mul_add _ _ (by omega) (by omega)
      rw [hunf]
      cases i with
      | zero =>
        simp [Nat.testBit_zero]
      | succ i =>
        have := ih (n / 2) (by omega) i
        simp only [List.reverse_append, List.reverse_singleton, List.singleton_append,
          List.getD_cons_succ]
        rw [this, Nat.testBit_succ]

theorem natToBin_length_le (n k : ℕ) (h : n < 2 ^ k) : (natToBin n).length ≤ k := by
  induction n using Nat.strong_induction_on generalizing k with
  | _ n ih =>
    by_cases hn : n = 0
    · subst hn; simp [natToBin, natToBinAux]
    · by_cases h2 : n / 2 = 0
      · have hn1 : n = 1 := by omega
        subst hn1
        have hk : 1 ≤ k := by
          by_contra hk
          interval_cases k <;> omega
        simp [natToBin, natToBinAux]
        omega
      · have hk : 1 ≤ k := by
          by_contra hk
          have : k = 0 := by omega
          subst this
          omega
        have hsplit : n = 2 * (n / 2) + n % 2 := by omega
        have : natToBin n = natToBin (n / 2) ++ [decide (n % 2 = 1)] := by
          calc natToBin n = natToBin (2 * (n / 2) + n % 2) := by rw [← hsplit]
            _ = natToBin (n / 2) ++ [decide (n % 2 = 1)] :=
              natToBin_two_mul_add _ _ (by omega) (by omega)
        rw [this]
        simp only [List.length_append, List.length_singleton]
        have hpow : 2 ^ (k - 1) * 2 = 2 ^ k := by
          rw [← Nat.pow_succ]; congr 1; omega
        have hhalf : n / 2 < 2 ^ (k - 1) := by omega
        have := ih (n / 2) (by omega) (k - 1) hhalf
        omega

theorem natToBin_lt (n : ℕ) : n < 2 ^ (natToBin n).length := by
  induction n using Nat.strong_induction_on with
  | _ n ih =>
    by_cases hn : n = 0
    · subst hn; simp [natToBin, natToBinAux]
    · by_cases h2 : n / 2 = 0
      · have hn1 : n = 1 := by omega
        subst hn1
        simp [natToBin, natToBinAux]
      · have hsplit : n = 2 * (n / 2) + n % 2 := by omega
        have hrw : natToBin n = natToBin (n / 2) ++ [decide (n % 2 = 1)] := by
          calc natToBin n = natToBin (2 * (n / 2) + n % 2) := by rw [← hsplit]
            _ = natToBin (n / 2) ++ [decide (n % 2 = 1)] :=
              natToBin_two_mul_add _ _ (by omega) (by omega)
        rw [hrw]
        simp only [List.length_append, List.length_singleton]
        have := ih (n / 2) (by omega)
        have hp : 2 ^ ((natToBin (n / 2)).length + 1) = 2 ^ (natToBin (n / 2)).length * 2 :=
          Nat.pow_succ 2 _
        omega

theorem jsBinStr_testBit (n : ℕ) (i : ℕ) :
    (jsBinStr n).reverse.getD i false = n.testBit i := by
  by_cases hn : n = 0
  · subst hn
    cases i <;> simp [jsBinStr, Nat.zero_testBit]
  · rw [jsBinStr, if_neg hn]
    exact natToBin_testBit n i

theorem jsBinStr_length_le (n k : ℕ) (h : n < 2 ^ k) (hk : 1 ≤ k) :
    (jsBinStr n).length ≤ k := by
  by_cases hn : n = 0
  · subst hn; simpa [jsBinStr] using hk
  · rw [jsBinStr, if_neg hn]
    exact natToBin_length_le n k h

theorem jsBinStr_lt (n : ℕ) : n < 2 ^ (jsBinStr n).length := by
  by_cases hn : n = 0
  · subst hn; simp [jsBinStr]
  · rw [jsBinStr, if_neg hn]
    exact natToBin_lt n

theorem padStart_length (l : List Bool) (len : ℕ) (h : l.length ≤ len) :
    (padStart l len).length = len := by
  simp [padStart]
  omega

theorem keyToPath_length (key : ℕ) (h : key < 2 ^ 256) :
    (keyToPath key).length = 256 := by
  rw [keyToPath, List.length_reverse]
  exact padStart_length _ _ (jsBinStr_length_le key 256 h (by norm_num))

theorem padStart_reverse_getD (l : List Bool) (len i : ℕ) :
    (padStart l len).reverse.getD i false = l.reverse.getD i false := by
  rw [padStart, List.reverse_append, List.reverse_replicate]
  rcases Nat.lt_or_ge i l.length with h | h
  · have h' : i < l.reverse.length := by simpa using h
    rw [List.getD_eq_getElem?_getD, List.getElem?_append_left h', ← List.getD_eq_getElem?_getD]
  · have h1 : l.reverse.length ≤ i := by simpa using h
    have hr : l.reverse.getD i false = false := by
      rw [List.getD_eq_getElem?_getD, List.getElem?_eq_none_iff.mpr h1]; rfl
    rw [hr, List.getD_eq_getElem?_getD, List.getElem?_append_right h1]
    rcases Nat.lt_or_ge (i - l.reverse.length) (len - l.length) with hlt | hge
    · rw [List.getElem?_replicate_of_lt hlt]; rfl
    · rw [List.getElem?_eq_none_iff.mpr (by simpa using hge)]; rfl

theorem keyToPath_getD (key : ℕ) (i : ℕ) :
    (keyToPath key).getD i false = key.testBit i := by
  rw [keyToPath, padStart_reverse_getD]
  exact jsBinStr_testBit key i

/-! ### Small helpers from the source -/

/-- `getIndexOfLastNonZeroElement`: index of the last non-zero element,
`-1` if there is none. -/
def getIndexOfLastNonZeroElement (a : List ℕ) : ℤ :=
  match a.reverse.findIdx? (fun x => decide (x ≠ 0)) with
  | some j => (a.length : ℤ) - 1 - (j : ℤ)
  | none => -1

/-- `getFirstCommonElements`: scan both arrays in parallel and return the
common initial run (the source slices the shorter array at the first index
where the two disagree, which is exactly this recursion). -/
def getFirstCommonElements : List Bool → List Bool → List Bool
  | x :: xs, y :: ys => if x = y then x :: getFirstCommonElements xs ys else []
  | _, _ => []

/-- The sibling-extension loop of `add`
(`for (let i = siblings.length; matchingPath[i] === path[i]; i += 1)`),
as the index of the first disagreement of the two paths at positions
`≥ start`, where out-of-range reads are `undefined` (and
`undefined === undefined` holds, so if the paths never disagree the
original loop never exits; that is the `none` case).  The fuel covers
every position up to the longer length, past which both reads are
`undefined` forever. -/
def firstDivergenceAux (p q : List Bool) : ℕ → ℕ → Option ℕ
  | 0, _ => none
  | fuel + 1, i => if p.get? i = q.get? i then firstDivergenceAux p q fuel (i + 1) else some i

def firstDivergence (p q : List Bool) (start : ℕ) : Option ℕ :=
  firstDivergenceAux p q (max p.length q.length + 1 - start) start

/-! ### The tree -/

/-- The mutable state of an `SMT` object: the node store and the root. -/
structure SMT where
  nodes : NodeMap
  root : ℕ
deriving DecidableEq

/-- Result record of `retrieveEntry`. -/
structure EntryResponse where
  entry : List ℕ
  matchingEntry : Option (List ℕ)
  siblings : List ℕ
deriving DecidableEq

/-- A membership / non-membership proof (`MerkleProof`). -/
structure MerkleProof where
  entry : List ℕ
  matchingEntry : Option (List ℕ)
  siblings : List ℕ
  root : ℕ
  membership : Bool
deriving DecidableEq

/-- The ways a mutation can stop without completing.  The first two are
the `throw new Error(...)` calls of the source; `danglingNode` models the
TypeError the original raises when a node identifier does not resolve (or
when the traversal runs past the end of the path); `nonTermination`
models the sibling-extension loop of `add` never exiting. -/
inductive SMTError where
  | keyAlreadyExists
  | keyNotFound
  | danglingNode
  | nonTermination
deriving DecidableEq

/-- Result of a mutation: the error (if the call threw) and the state the
object is left in.  The source throws before its first write on every
failure path, which the translation makes explicit by returning the state
as of the throw point. -/
structure StepResult where
  err : Option SMTError
  state : SMT
deriving DecidableEq

/-- The traversal loop of `retrieveEntry`, consuming the remaining path.
`none` models the crash of the original on a dangling identifier (and the
undefined-direction chaos past 256 steps, which no well-formed state
reaches). -/
def retrieveEntryAux (key : ℕ) (nodes : NodeMap) :
    List Bool → ℕ → List ℕ → Option EntryResponse
  | path, node, siblings =>
    if node = 0 then some ⟨[key], none, siblings⟩
    else
      match lookupN nodes node with
      | none => none
      | some childNodes =>
        if childNodes.getD 2 0 ≠ 0 then
          if childNodes.getD 0 0 = key then some ⟨childNodes, none, siblings⟩
          else some ⟨[key], some childNodes, siblings⟩
        else
          match path with
          | [] => none
          | d :: rest =>
            retrieveEntryAux key nodes rest (childNodes.getD (if d then 1 else 0) 0)
              (siblings ++ [childNodes.getD (if d then 0 else 1) 0])

/-- One-step unfolding of the traversal loop (the definitional equation,
restated so it can be applied exactly once). -/
theorem retrieveEntryAux_eq (key : ℕ) (nodes : NodeMap) (path : List Bool) (n : ℕ)
    (acc : List ℕ) :
    retrieveEntryAux key nodes path n acc =
      if n = 0 then some ⟨[key], none, acc⟩
      else
        match lookupN nodes n with
        | none => none
        | some childNodes =>
          if childNodes.getD 2 0 ≠ 0 then
            if childNodes.getD 0 0 = key then some ⟨childNodes, none, acc⟩
            else some ⟨[key], some childNodes, acc⟩
          else
            match path with
            | [] => none
            | d :: rest =>
              retrieveEntryAux key nodes rest (childNodes.getD (if d then 1 else 0) 0)
                (acc ++ [childNodes.getD (if d then 0 else 1) 0]) := by
  rw [retrieveEntryAux]

/-- `retrieveEntry`: search for a key from the root. -/
def SMT.retrieveEntry (t : SMT) (key : ℕ) : Option EntryResponse :=
  retrieveEntryAux key t.nodes (keyToPath key) t.root []

/-- The loop of `calculateRoot`, folding the bottom `k` sibling levels
(indices `k - 1` down to `0`) into a node. -/
def calculateRootAux (hsh : List ℕ → ℕ) : ℕ → ℕ → List Bool → List ℕ → ℕ
  | 0, node, _, _ => node
  | k + 1, node, path, siblings =>
    calculateRootAux hsh k
      (hsh (if path.getD k false then [siblings.getD k 0, node] else [node, siblings.getD k 0]))
      path siblings

/-- `calculateRoot`: recompute the root from a start node, a path and a
siblings list, without touching the store. -/
def calculateRoot (hsh : List ℕ → ℕ) (node : ℕ) (path : List Bool) (siblings : List ℕ) : ℕ :=
  calculateRootAux hsh siblings.length node path siblings

/-- The loop of `addNewNodes`, folding levels `k - 1` down to `0` while
storing every freshly hashed node; returns the final node and the store. -/
def addNewNodesAux (hsh : List ℕ → ℕ) :
    ℕ → NodeMap → ℕ → List Bool → List ℕ → ℕ × NodeMap
  | 0, nodes, node, _, _ => (node, nodes)
  | k + 1, nodes, node, path, siblings =>
    let childNodes :=
      if path.getD k false then [siblings.getD k 0, node] else [node, siblings.getD k 0]
    addNewNodesAux hsh k (mapSet nodes (hsh childNodes) childNodes) (hsh childNodes)
      path siblings

/-- `addNewNodes` with its optional start index `i` (the loop runs for
indices `i` down to `0`, so for `i + 1` levels; the default call sites
pass `siblings.length - 1`, `delete` may pass `-1`). -/
def addNewNodes (hsh : List ℕ → ℕ) (nodes : NodeMap) (node : ℕ) (path : List Bool)
    (siblings : List ℕ) (i : ℤ) : ℕ × NodeMap :=
  addNewNodesAux hsh (i + 1).toNat nodes node path siblings

/-- The loop of `deleteOldNodes`, recomputing the hashes along a path and
removing each of them from the store. -/
def deleteOldNodesAux (hsh : List ℕ → ℕ) :
    ℕ → NodeMap → ℕ → List Bool → List ℕ → NodeMap
  | 0, nodes, _, _, _ => nodes
  | k + 1, nodes, node, path, siblings =>
    let childNodes :=
      if path.getD k false then [siblings.getD k 0, node] else [node, siblings.getD k 0]
    deleteOldNodesAux hsh k (mapDelete nodes (hsh childNodes)) (hsh childNodes) path siblings

/-- `deleteOldNodes`: remove all nodes of a path from the store. -/
def deleteOldNodes (hsh : List ℕ → ℕ) (nodes : NodeMap) (node : ℕ) (path : List Bool)
    (siblings : List ℕ) : NodeMap :=
  deleteOldNodesAux hsh siblings.length nodes node path siblings

/-- The sequence of `(identifier, content)` pairs that `addNewNodesAux`
creates and `deleteOldNodesAux` removes (both loops hash the same
levels), deepest level first. -/
def foldChain (hsh : List ℕ → ℕ) : ℕ → ℕ → List Bool → List ℕ → List (ℕ × List ℕ)
  | 0, _, _, _ => []
  | k + 1, node, path, siblings =>
    let childNodes :=
      if path.getD k false then [siblings.getD k 0, node] else [node, siblings.getD k 0]
    (hsh childNodes, childNodes) :: foldChain hsh k (hsh childNodes) path siblings

/-- `isLeaf`: a stored node whose third slot is set. -/
def isLeaf (nodes : NodeMap) (node : ℕ) : Bool :=
  match lookupN nodes node with
  | some childNodes => decide (childNodes.getD 2 0 ≠ 0)
  | none => false

/-- `get`: the value stored under a key (`none` for an absent key,
matching the `undefined` the source returns; the outer `Option` is the
crash case of the traversal). -/
def SMT.get (t : SMT) (key : ℕ) : Option (Option ℕ) :=
  (t.retrieveEntry key).map (fun r => r.entry.get? 1)

/-- `add`: insert a new entry.  Follows the source line by line: find the
entry, reject a present key, delete the old nodes of the path, extend the
siblings over a matching entry, store the new leaf, rebuild the path
bottom-up. -/
def SMT.add (hsh : List ℕ → ℕ) (t : SMT) (key value : ℕ) : StepResult :=
  match t.retrieveEntry key with
  | none => ⟨some .danglingNode, t⟩
  | some r =>
    if 2 ≤ r.entry.length then ⟨some .keyAlreadyExists, t⟩
    else
      let path := keyToPath key
      let node := match r.matchingEntry with
        | some me => hsh me
        | none => 0
      let nodes1 :=
        if 0 < r.siblings.length then deleteOldNodes hsh t.nodes node path r.siblings
        else t.nodes
      match r.matchingEntry with
      | some me =>
        match firstDivergence path (keyToPath (me.getD 0 0)) r.siblings.length with
        | none => ⟨some .nonTermination, t⟩
        | some j =>
          let siblings1 := r.siblings ++ List.replicate (j - r.siblings.length) 0 ++ [node]
          let newNode := hsh [key, value, 1]
          let nodes2 := mapSet nodes1 newNode [key, value, 1]
          let res := addNewNodes hsh nodes2 newNode path siblings1 ((siblings1.length : ℤ) - 1)
          ⟨none, ⟨res.2, res.1⟩⟩
      | none =>
        let newNode := hsh [key, value, 1]
        let nodes2 := mapSet nodes1 newNode [key, value, 1]
        let res := addNewNodes hsh nodes2 newNode path r.siblings ((r.siblings.length : ℤ) - 1)
        ⟨none, ⟨res.2, res.1⟩⟩

/-- `update`: replace the value of an existing entry. -/
def SMT.update (hsh : List ℕ → ℕ) (t : SMT) (key value : ℕ) : StepResult :=
  match t.retrieveEntry key with
  | none => ⟨some .danglingNode, t⟩
  | some r =>
    if r.entry.length < 2 then ⟨some .keyNotFound, t⟩
    else
      let path := keyToPath key
      let oldNode := hsh r.entry
      let nodes1 := mapDelete t.nodes oldNode
      let nodes2 := deleteOldNodes hsh nodes1 oldNode path r.siblings
      let newNode := hsh [key, value, 1]
      let nodes3 := mapSet nodes2 newNode [key, value, 1]
      let res := addNewNodes hsh nodes3 newNode path r.siblings ((r.siblings.length : ℤ) - 1)
      ⟨none, ⟨res.2, res.1⟩⟩

/-- `delete`: remove an entry, collapsing a singleton subtree when the
deepest sibling is itself a leaf. -/
def SMT.delete (hsh : List ℕ → ℕ) (t : SMT) (key : ℕ) : StepResult :=
  match t.retrieveEntry key with
  | none => ⟨some .danglingNode, t⟩
  | some r =>
    if r.entry.length < 2 then ⟨some .keyNotFound, t⟩
    else
      let path := keyToPath key
      let node := hsh r.entry
      let nodes1 := mapDelete t.nodes node
      if 0 < r.siblings.length then
        let nodes2 := deleteOldNodes hsh nodes1 node path r.siblings
        if isLeaf nodes2 (r.siblings.getLastD 0) = false then
          let res := addNewNodes hsh nodes2 0 path r.siblings ((r.siblings.length : ℤ) - 1)
          ⟨none, ⟨res.2, res.1⟩⟩
        else
          let firstSibling := r.siblings.getLastD 0
          let siblings2 := r.siblings.dropLast
          let i := getIndexOfLastNonZeroElement siblings2
          let res := addNewNodes hsh nodes2 firstSibling path siblings2 i
          ⟨none, ⟨res.2, res.1⟩⟩
      else ⟨none, ⟨nodes1, 0⟩⟩

/-- `createProof`: package the locator's result with the current root;
`membership` is the JavaScript truthiness `!!entry[1]` (for big numbers,
`!!0n` is `false`). -/
def SMT.createProof (t : SMT) (key : ℕ) : Option MerkleProof :=
  (t.retrieveEntry key).map (fun r =>
    ⟨r.entry, r.matchingEntry, r.siblings, t.root, decide (r.entry.getD 1 0 ≠ 0)⟩)

/-- `verifyProof`: recompute a candidate root and compare; with a matching
entry, additionally require that the shared path-bit run of the two keys
is at least as long as the siblings list. -/
def verifyProof (hsh : List ℕ → ℕ) (p : MerkleProof) : Bool :=
  match p.matchingEntry with
  | none =>
    let path := keyToPath (p.entry.getD 0 0)
    let node := if 2 ≤ p.entry.length then hsh p.entry else 0
    decide (calculateRoot hsh node path p.siblings = p.root)
  | some me =>
    let matchingPath := keyToPath (me.getD 0 0)
    let node := hsh me
    if calculateRoot hsh node matchingPath p.siblings = p.root then
      let path := keyToPath (p.entry.getD 0 0)
      let firstMatchingBits := getFirstCommonElements path matchingPath
      decide (p.siblings.length ≤ firstMatchingBits.length)
    else false

/-! ### A concrete injective hash

The source takes the hash function as a constructor argument and assumes
it is collision-free and never returns the zero sentinel (§6 of the
spec).  `hashC` is a computable witness of such a function. -/

/-- An injective encoding of lists of naturals. -/
def encList : List ℕ → ℕ
  | [] => 0
  | x :: xs => Nat.pair x (encList xs) + 1

/-- A concrete collision-free hash that never returns the zero node. -/
def hashC (l : List ℕ) : ℕ := encList l + 1

theorem encList_injective : Function.Injective encList := by
  intro a b h
  induction a generalizing b with
  | nil =>
    cases b with
    | nil => rfl
    | cons y ys => simp [encList] at h
  | cons x xs ih =>
    cases b with
    | nil => simp [encList] at h
    | cons y ys =>
      simp only [encList, Nat.add_right_cancel_iff] at h
      obtain ⟨h1, h2⟩ := Nat.pair_eq_pair.mp h
      rw [h1, ih h2]

theorem hashC_injective : Function.Injective hashC := by
  intro a b h
  exact encList_injective (Nat.add_right_cancel h)

theorem hashC_ne_zero : ∀ l, hashC l ≠ 0 := by
  intro l
  simp [hashC]

/-! ### Store-tracking lemmas -/

/-- `Pres m1 m2`: every hash-consistent binding of `m1` is still visible
in `m2`.  The operations only ever store a node under its own hash, so
this is the stability notion the traversal proofs need. -/
def Pres (hsh : List ℕ → ℕ) (m1 m2 : NodeMap) : Prop :=
  ∀ q c, q = hsh c → lookupN m1 q = some c → lookupN m2 q = some c

theorem pres_refl (hsh : List ℕ → ℕ) (m : NodeMap) : Pres hsh m m :=
  fun _ _ _ h => h

theorem pres_trans {hsh : List ℕ → ℕ} {m1 m2 m3 : NodeMap}
    (h12 : Pres hsh m1 m2) (h23 : Pres hsh m2 m3) : Pres hsh m1 m3 :=
  fun q c hq hl => h23 q c hq (h12 q c hq hl)

theorem pres_mapSet {hsh : List ℕ → ℕ} (hinj : Function.Injective hsh)
    (m : NodeMap) (c0 : List ℕ) : Pres hsh m (mapSet m (hsh c0) c0) := by
  intro q c hq hl
  rw [lookupN_mapSet]
  by_cases h : q = hsh c0
  · rw [if_pos h]
    have : c = c0 := hinj (hq.symm.trans h)
    rw [this]
  · rw [if_neg h]; exact hl

theorem range_map_getD (l : List ℕ) :
    (List.range l.length).map (fun i => l.getD i 0) = l := by
  apply List.ext_getElem
  · simp
  · intro i h1 h2
    simp only [List.getElem_map, List.getElem_range]
    rw [List.getD_eq_getElem?_getD, List.getElem?_eq_getElem (by simpa using h2)]
    rfl

/-- The node `addNewNodesAux` returns is the pure fold of
`calculateRootAux`; the store plays no role in the returned value. -/
theorem addNewNodesAux_fst (hsh : List ℕ → ℕ) :
    ∀ (k : ℕ) (m : NodeMap) (node : ℕ) (path : List Bool) (sibs : List ℕ),
      (addNewNodesAux hsh k m node path sibs).1 = calculateRootAux hsh k node path sibs := by
  intro k
  induction k with
  | zero => intro m node path sibs; rfl
  | succ k ih =>
    intro m node path sibs
    simp only [addNewNodesAux, calculateRootAux]
    exact ih _ _ _ _

/-- `calculateRootAux` only reads the bottom `k` positions of the path
and the siblings. -/
theorem calculateRootAux_congr (hsh : List ℕ → ℕ) :
    ∀ (k : ℕ) (node : ℕ) (p1 p2 : List Bool) (s1 s2 : List ℕ),
      (∀ j, j < k → p1.getD j false = p2.getD j false) →
      (∀ j, j < k → s1.getD j 0 = s2.getD j 0) →
      calculateRootAux hsh k node p1 s1 = calculateRootAux hsh k node p2 s2 := by
  intro k
  induction k with
  | zero => intro node p1 p2 s1 s2 _ _; rfl
  | succ k ih =>
    intro node p1 p2 s1 s2 hp hs
    simp only [calculateRootAux]
    rw [hp k (by omega), hs k (by omega)]
    exact ih _ _ _ _ _ (fun j hj => hp j (by omega)) (fun j hj => hs j (by omega))

theorem foldChain_shape (hsh : List ℕ → ℕ) :
    ∀ (k : ℕ) (node : ℕ) (path : List Bool) (sibs : List ℕ) (e : ℕ × List ℕ),
      e ∈ foldChain hsh k node path sibs → e.1 = hsh e.2 ∧ e.2.length = 2 := by
  intro k
  induction k with
  | zero => intro node path sibs e h; simp [foldChain] at h
  | succ k ih =>
    intro node path sibs e h
    have h2 : e = (hsh (if path.getD k false then [sibs.getD k 0, node]
          else [node, sibs.getD k 0]), (if path.getD k false then [sibs.getD k 0, node]
          else [node, sibs.getD k 0])) ∨
        e ∈ foldChain hsh k (hsh (if path.getD k false then [sibs.getD k 0, node]
          else [node, sibs.getD k 0])) path sibs := List.mem_cons.mp h
    rcases h2 with h2 | h2
    · subst h2
      refine ⟨rfl, ?_⟩
      split <;> rfl
    · exact ih _ _ _ _ h2

/-- A fold that stores its chain leaves every other binding alone. -/
theorem lookupN_addNewNodesAux (hsh : List ℕ → ℕ) :
    ∀ (k : ℕ) (m : NodeMap) (node : ℕ) (path : List Bool) (sibs : List ℕ) (q : ℕ),
      (∀ e ∈ foldChain hsh k node path sibs, e.1 ≠ q) →
      lookupN (addNewNodesAux hsh k m node path sibs).2 q = lookupN m q := by
  intro k
  induction k with
  | zero => intro m node path sibs q _; rfl
  | succ k ih =>
    intro m node path sibs q hq
    have hq1 : ∀ e ∈ foldChain hsh k (hsh (if path.getD k false then [sibs.getD k 0, node]
        else [node, sibs.getD k 0])) path sibs, e.1 ≠ q := by
      intro e he
      exact hq e (List.mem_cons_of_mem _ he)
    have hq0 : hsh (if path.getD k false then [sibs.getD k 0, node]
        else [node, sibs.getD k 0]) ≠ q :=
      hq _ (List.mem_cons_self _ _)
    have step1 : lookupN (addNewNodesAux hsh (k + 1) m node path sibs).2 q
        = lookupN (mapSet m (hsh (if path.getD k false then [sibs.getD k 0, node]
            else [node, sibs.getD k 0])) (if path.getD k false then [sibs.getD k 0, node]
            else [node, sibs.getD k 0])) q := ih _ _ _ _ _ hq1
    rw [step1, lookupN_mapSet, if_neg (fun hc => hq0 hc.symm)]

/-- A fold that deletes its chain leaves every other binding alone. -/
theorem lookupN_deleteOldNodesAux (hsh : List ℕ → ℕ) :
    ∀ (k : ℕ) (m : NodeMap) (node : ℕ) (path : List Bool) (sibs : List ℕ) (q : ℕ),
      (∀ e ∈ foldChain hsh k node path sibs, e.1 ≠ q) →
      lookupN (deleteOldNodesAux hsh k m node path sibs) q = lookupN m q := by
  intro k
  induction k with
  | zero => intro m node path sibs q _; rfl
  | succ k ih =>
    intro m node path sibs q hq
    have hq1 : ∀ e ∈ foldChain hsh k (hsh (if path.getD k false then [sibs.getD k 0, node]
        else [node, sibs.getD k 0])) path sibs, e.1 ≠ q := by
      intro e he
      exact hq e (List.mem_cons_of_mem _ he)
    have hq0 : hsh (if path.getD k false then [sibs.getD k 0, node]
        else [node, sibs.getD k 0]) ≠ q :=
      hq _ (List.mem_cons_self _ _)
    have step1 : lookupN (deleteOldNodesAux hsh (k + 1) m node path sibs) q
        = lookupN (mapDelete m (hsh (if path.getD k false then [sibs.getD k 0, node]
            else [node, sibs.getD k 0]))) q := ih _ _ _ _ _ hq1
    rw [step1, lookupN_mapDelete, if_neg (fun hc => hq0 hc.symm)]

theorem lookupN_deleteOldNodesAux_none (hsh : List ℕ → ℕ) :
    ∀ (k : ℕ) (m : NodeMap) (node : ℕ) (path : List Bool) (sibs : List ℕ) (q : ℕ),
      lookupN m q = none →
      lookupN (deleteOldNodesAux hsh k m node path sibs) q = none := by
  intro k
  induction k with
  | zero => intro m node path sibs q h; exact h
  | succ k ih =>
    intro m node path sibs q h
    simp only [deleteOldNodesAux]
    apply ih
    rw [lookupN_mapDelete]
    by_cases hq : q = hsh (if path.getD k false then [sibs.getD k 0, node] else [node, sibs.getD k 0])
    · rw [if_pos hq]
    · rw [if_neg hq]; exact h

/-- Deleting a chain removes every identifier on it. -/
theorem lookupN_deleteOldNodesAux_mem (hsh : List ℕ → ℕ) :
    ∀ (k : ℕ) (m : NodeMap) (node : ℕ) (path : List Bool) (sibs : List ℕ) (q : ℕ),
      (∃ e ∈ foldChain hsh k node path sibs, e.1 = q) →
      lookupN (deleteOldNodesAux hsh k m node path sibs) q = none := by
  intro k
  induction k with
  | zero => intro m node path sibs q h; simp [foldChain] at h
  | succ k ih =>
    intro m node path sibs q h
    obtain ⟨e, he, heq⟩ := h
    have hstep : lookupN (deleteOldNodesAux hsh (k + 1) m node path sibs) q
        = lookupN (deleteOldNodesAux hsh k
            (mapDelete m (hsh (if path.getD k false then [sibs.getD k 0, node]
              else [node, sibs.getD k 0])))
            (hsh (if path.getD k false then [sibs.getD k 0, node]
              else [node, sibs.getD k 0])) path sibs) q := rfl
    rw [hstep]
    have he2 : e = (hsh (if path.getD k false then [sibs.getD k 0, node]
          else [node, sibs.getD k 0]), (if path.getD k false then [sibs.getD k 0, node]
          else [node, sibs.getD k 0])) ∨
        e ∈ foldChain hsh k (hsh (if path.getD k false then [sibs.getD k 0, node]
          else [node, sibs.getD k 0])) path sibs := List.mem_cons.mp he
    rcases he2 with he2 | he2
    · subst he2
      by_cases hq : ∃ e2 ∈ foldChain hsh k (hsh (if path.getD k false
          then [sibs.getD k 0, node] else [node, sibs.getD k 0])) path sibs, e2.1 = q
      · exact ih _ _ _ _ _ hq
      · push_neg at hq
        rw [lookupN_deleteOldNodesAux hsh k _ _ _ _ q hq]
        rw [lookupN_mapDelete, if_pos heq.symm]
    · exact ih _ _ _ _ _ ⟨e, he2, heq⟩

/-- Termination bound of the traversal: at most one sibling per path
step. -/
theorem retrieveEntryAux_sibs_le (key : ℕ) (nodes : NodeMap) :
    ∀ (path : List Bool) (n : ℕ) (acc : List ℕ) (R : EntryResponse),
      retrieveEntryAux key nodes path n acc = some R →
      R.siblings.length ≤ acc.length + path.length := by
  intro path
  induction path with
  | nil =>
    intro n acc R h
    rw [retrieveEntryAux_eq] at h
    split at h
    · cases h; simp
    · split at h
      · exact absurd h (by simp)
      · split at h
        · split at h
          · cases h; simp
          · cases h; simp
        · exact absurd h (by simp)
  | cons d rest ih =>
    intro n acc R h
    rw [retrieveEntryAux_eq] at h
    split at h
    · cases h; simp
    · split at h
      · exact absurd h (by simp)
      · split at h
        · split at h
          · cases h; simp
          · cases h; simp
        · have := ih _ _ _ h
          simp only [List.length_append, List.length_cons, List.length_nil] at this ⊢
          omega

/-- A matching entry always comes out of the store, marked as a leaf. -/
theorem retrieveEntryAux_matching_mem (key : ℕ) (nodes : NodeMap) :
    ∀ (path : List Bool) (n : ℕ) (acc : List ℕ) (R : EntryResponse) (me : List ℕ),
      retrieveEntryAux key nodes path n acc = some R →
      R.matchingEntry = some me →
      ∃ q, lookupN nodes q = some me ∧ me.getD 2 0 ≠ 0 := by
  intro path
  induction path with
  | nil =>
    intro n acc R me h hme
    rw [retrieveEntryAux_eq] at h
    split at h
    · cases h; simp at hme
    · rename_i hn
      split at h
      · exact absurd h (by simp)
      · rename_i c hl
        split at h
        · rename_i hc
          split at h
          · cases h; simp at hme
          · cases h
            simp only [Option.some.injEq] at hme
            exact ⟨n, hme ▸ hl, hme ▸ hc⟩
        · exact absurd h (by simp)
  | cons d rest ih =>
    intro n acc R me h hme
    rw [retrieveEntryAux_eq] at h
    split at h
    · cases h; simp at hme
    · rename_i hn
      split at h
      · exact absurd h (by simp)
      · rename_i c hl
        split at h
        · rename_i hc
          split at h
          · cases h; simp at hme
          · cases h
            simp only [Option.some.injEq] at hme
            exact ⟨n, hme ▸ hl, hme ▸ hc⟩
        · exact ih _ _ _ _ h hme

/-! ### Step lemmas for the traversal -/

theorem retrieveEntryAux_zero (key : ℕ) (nodes : NodeMap) (path : List Bool) (acc : List ℕ) :
    retrieveEntryAux key nodes path 0 acc = some ⟨[key], none, acc⟩ := by
  rw [retrieveEntryAux_eq]
  rw [if_pos rfl]

theorem retrieveEntryAux_leaf_found (key : ℕ) (nodes : NodeMap) (path : List Bool)
    (n : ℕ) (acc : List ℕ) (c : List ℕ) (hn : n ≠ 0) (hl : lookupN nodes n = some c)
    (hm : c.getD 2 0 ≠ 0) (hk : c.getD 0 0 = key) :
    retrieveEntryAux key nodes path n acc = some ⟨c, none, acc⟩ := by
  rw [retrieveEntryAux_eq, if_neg hn, hl]
  show (if c.getD 2 0 ≠ 0 then
      (if c.getD 0 0 = key then some (⟨c, none, acc⟩ : EntryResponse)
        else some ⟨[key], some c, acc⟩)
    else
      match path with
      | [] => none
      | d :: rest =>
        retrieveEntryAux key nodes rest (c.getD (if d then 1 else 0) 0)
          (acc ++ [c.getD (if d then 0 else 1) 0])) = some ⟨c, none, acc⟩
  rw [if_pos hm, if_pos hk]

theorem retrieveEntryAux_leaf_matching (key : ℕ) (nodes : NodeMap) (path : List Bool)
    (n : ℕ) (acc : List ℕ) (c : List ℕ) (hn : n ≠ 0) (hl : lookupN nodes n = some c)
    (hm : c.getD 2 0 ≠ 0) (hk : c.getD 0 0 ≠ key) :
    retrieveEntryAux key nodes path n acc = some ⟨[key], some c, acc⟩ := by
  rw [retrieveEntryAux_eq, if_neg hn, hl]
  show (if c.getD 2 0 ≠ 0 then
      (if c.getD 0 0 = key then some (⟨c, none, acc⟩ : EntryResponse)
        else some ⟨[key], some c, acc⟩)
    else
      match path with
      | [] => none
      | d :: rest =>
        retrieveEntryAux key nodes rest (c.getD (if d then 1 else 0) 0)
          (acc ++ [c.getD (if d then 0 else 1) 0])) = some ⟨[key], some c, acc⟩
  rw [if_pos hm, if_neg hk]

theorem retrieveEntryAux_internal (key : ℕ) (nodes : NodeMap) (d : Bool) (rest : List Bool)
    (n : ℕ) (acc : List ℕ) (c : List ℕ) (hn : n ≠ 0) (hl : lookupN nodes n = some c)
    (hm : c.getD 2 0 = 0) :
    retrieveEntryAux key nodes (d :: rest) n acc
      = retrieveEntryAux key nodes rest (c.getD (if d then 1 else 0) 0)
          (acc ++ [c.getD (if d then 0 else 1) 0]) := by
  rw [retrieveEntryAux_eq, if_neg hn, hl]
  show (if c.getD 2 0 ≠ 0 then
      (if c.getD 0 0 = key then some (⟨c, none, acc⟩ : EntryResponse)
        else some ⟨[key], some c, acc⟩)
    else
      retrieveEntryAux key nodes rest (c.getD (if d then 1 else 0) 0)
        (acc ++ [c.getD (if d then 0 else 1) 0]))
    = retrieveEntryAux key nodes rest (c.getD (if d then 1 else 0) 0)
        (acc ++ [c.getD (if d then 0 else 1) 0])
  rw [if_neg (not_not_intro hm)]

/-- After `addNewNodes` rebuilds a path, the traversal walks down the
fresh chain: it reaches whatever the start node's subtree gives, with the
chain's siblings collected along the way.  The continuation hypothesis
describes the traversal from the start node in any store that still has
the hash-consistent bindings of `nodes`. -/
theorem addNewNodes_traverse (hsh : List ℕ → ℕ) (hinj : Function.Injective hsh)
    (hnz : ∀ l, hsh l ≠ 0) (key : ℕ) (pth : List Bool) (sibs : List ℕ)
    (E : List ℕ) (M : Option (List ℕ)) :
    ∀ (L : ℕ) (T : List ℕ) (nodes : NodeMap) (n : ℕ) (acc : List ℕ),
      L ≤ pth.length →
      (∀ ns acc2, Pres hsh nodes ns →
        retrieveEntryAux key ns (pth.drop L) n acc2 = some ⟨E, M, acc2 ++ T⟩) →
      retrieveEntryAux key (addNewNodesAux hsh L nodes n pth sibs).2 pth
          (addNewNodesAux hsh L nodes n pth sibs).1 acc
        = some ⟨E, M, acc ++ ((List.range L).map (fun i => sibs.getD i 0) ++ T)⟩ ∧
      Pres hsh nodes (addNewNodesAux hsh L nodes n pth sibs).2 := by
  intro L
  induction L with
  | zero =>
    intro T nodes n acc _ H
    refine ⟨?_, pres_refl hsh nodes⟩
    have := H nodes acc (pres_refl hsh nodes)
    simpa using this
  | succ L ih =>
    intro T nodes n acc hL H
    have hLlt : L < pth.length := by omega
    have key_eq : addNewNodesAux hsh (L + 1) nodes n pth sibs
        = addNewNodesAux hsh L
            (mapSet nodes (hsh (if pth.getD L false then [sibs.getD L 0, n]
              else [n, sibs.getD L 0])) (if pth.getD L false then [sibs.getD L 0, n]
              else [n, sibs.getD L 0]))
            (hsh (if pth.getD L false then [sibs.getD L 0, n] else [n, sibs.getD L 0]))
            pth sibs := rfl
    rw [key_eq]
    have hdrop : pth.drop L = pth.getD L false :: pth.drop (L + 1) := by
      rw [List.drop_eq_getElem_cons hLlt]
      congr 1
      rw [List.getD_eq_getElem?_getD, List.getElem?_eq_getElem hLlt]
      rfl
    have H2 : ∀ ns acc2,
        Pres hsh (mapSet nodes (hsh (if pth.getD L false then [sibs.getD L 0, n]
          else [n, sibs.getD L 0])) (if pth.getD L false then [sibs.getD L 0, n]
          else [n, sibs.getD L 0])) ns →
        retrieveEntryAux key ns (pth.drop L)
            (hsh (if pth.getD L false then [sibs.getD L 0, n] else [n, sibs.getD L 0])) acc2
          = some ⟨E, M, acc2 ++ (sibs.getD L 0 :: T)⟩ := by
      intro ns acc2 hpres
      have hlook : lookupN ns (hsh (if pth.getD L false then [sibs.getD L 0, n]
          else [n, sibs.getD L 0])) = some (if pth.getD L false then [sibs.getD L 0, n]
          else [n, sibs.getD L 0]) := by
        apply hpres _ _ rfl
        rw [lookupN_mapSet, if_pos rfl]
      have hpres0 : Pres hsh nodes ns :=
        pres_trans (pres_mapSet hinj nodes _) hpres
      rw [hdrop]
      have hint : (if pth.getD L false then [sibs.getD L 0, n]
          else [n, sibs.getD L 0]).getD 2 0 = 0 := by
        by_cases hb : pth.getD L false
        · rw [if_pos hb]; rfl
        · rw [if_neg hb]; rfl
      rw [retrieveEntryAux_internal key ns _ _ _ _ _ (hnz _) hlook hint]
      have htaken : (if pth.getD L false then [sibs.getD L 0, n]
          else [n, sibs.getD L 0]).getD (if pth.getD L false then 1 else 0) 0 = n := by
        by_cases hb : pth.getD L false
        · rw [if_pos hb, if_pos hb]; rfl
        · rw [if_neg hb, if_neg hb]; rfl
      have hpushed : (if pth.getD L false then [sibs.getD L 0, n]
          else [n, sibs.getD L 0]).getD (if pth.getD L false then 0 else 1) 0
            = sibs.getD L 0 := by
        by_cases hb : pth.getD L false
        · rw [if_pos hb, if_pos hb]; rfl
        · rw [if_neg hb, if_neg hb]; rfl
      rw [htaken, hpushed]
      have := H ns (acc2 ++ [sibs.getD L 0]) hpres0
      rw [this]
      simp
    have hmain := ih (sibs.getD L 0 :: T)
      (mapSet nodes (hsh (if pth.getD L false then [sibs.getD L 0, n]
        else [n, sibs.getD L 0])) (if pth.getD L false then [sibs.getD L 0, n]
        else [n, sibs.getD L 0]))
      (hsh (if pth.getD L false then [sibs.getD L 0, n] else [n, sibs.getD L 0]))
      acc (by omega) H2
    refine ⟨?_, pres_trans (pres_mapSet hinj nodes _) hmain.2⟩
    rw [hmain.1]
    congr 2
    rw [List.range_succ]
    simp

/-! ### The tree invariant

Formalisation of the spec's §3 invariants for a stored subtree at
position `p` (the direction word from the root): every identifier
reachable from the subtree root resolves (and is the hash of its
content), leaves carry a non-zero mark and a mode-valid key placed on
its own path, internal nodes sit above depth 256, and the sibling of an
empty (zero) child is never a leaf (a leaf whose sibling subtree is
empty would have been collapsed upward by `delete`). -/

inductive SubOk (hsh : List ℕ → ℕ) (nodes : NodeMap) : ℕ → List Bool → Prop where
  | zero (p : List Bool) : SubOk hsh nodes 0 p
  | leaf (p : List Bool) (k v m : ℕ) :
      lookupN nodes (hsh [k, v, m]) = some [k, v, m] →
      m ≠ 0 → k < 2 ^ 256 →
      (keyToPath k).take p.length = p →
      SubOk hsh nodes (hsh [k, v, m]) p
  | internal (p : List Bool) (a b : ℕ) :
      lookupN nodes (hsh [a, b]) = some [a, b] →
      p.length < 256 →
      SubOk hsh nodes a (p ++ [false]) →
      SubOk hsh nodes b (p ++ [true]) →
      (a = 0 → ∀ c, lookupN nodes b = some c → c.getD 2 0 = 0) →
      (b = 0 → ∀ c, lookupN nodes a = some c → c.getD 2 0 = 0) →
      SubOk hsh nodes (hsh [a, b]) p

/-- The node `verifyProof` starts its fold from, given a locator
result: the matching leaf's hash, the found leaf's hash, or the zero
node. -/
def termNode (hsh : List ℕ → ℕ) (R : EntryResponse) : ℕ :=
  match R.matchingEntry with
  | some me => hsh me
  | none => if 2 ≤ R.entry.length then hsh R.entry else 0

theorem getD_append_self (l1 : List ℕ) (x : ℕ) (l2 : List ℕ) :
    (l1 ++ x :: l2).getD l1.length 0 = x := by
  induction l1 with
  | nil => rfl
  | cons e rest ih => simpa using ih

/-- Master lemma about the Entry Locator on a well-formed subtree: the
traversal terminates within the path bound, its collected siblings
extend the accumulator, folding the terminal node back up recomputes
the subtree root, and the outcome (found entry, matching entry or empty
slot) carries the facts each claim needs. -/
theorem retrieve_main (hsh : List ℕ → ℕ) (hinj : Function.Injective hsh)
    (hnz : ∀ l, hsh l ≠ 0) (nodes : NodeMap) (key : ℕ) (hkey : key < 2 ^ 256) :
    ∀ (n : ℕ) (p : List Bool), SubOk hsh nodes n p →
    ∀ (acc : List ℕ),
      p = (keyToPath key).take acc.length → acc.length ≤ 256 →
      ∃ R : EntryResponse,
        retrieveEntryAux key nodes ((keyToPath key).drop acc.length) n acc = some R ∧
        (∃ tail, R.siblings = acc ++ tail) ∧
        R.siblings.length ≤ 256 ∧
        calculateRootAux hsh R.siblings.length (termNode hsh R) (keyToPath key) R.siblings
          = calculateRootAux hsh acc.length n (keyToPath key) R.siblings ∧
        (R.matchingEntry = none →
          (R.entry = [key] ∧
            (R.siblings = acc ∧ n = 0 ∨
             ∃ x, R.siblings.getLast? = some x ∧
               ∀ c, lookupN nodes x = some c → c.getD 2 0 = 0)) ∨
          (∃ v m, R.entry = [key, v, m] ∧ m ≠ 0 ∧
            lookupN nodes (hsh R.entry) = some R.entry)) ∧
        (∀ me, R.matchingEntry = some me →
          R.entry = [key] ∧
          (∃ k0 v m, me = [k0, v, m] ∧ m ≠ 0 ∧ k0 < 2 ^ 256 ∧ k0 ≠ key) ∧
          lookupN nodes (hsh me) = some me ∧
          (keyToPath (me.getD 0 0)).take R.siblings.length
            = (keyToPath key).take R.siblings.length ∧
          (R.siblings = acc ∧ n = hsh me ∨
           ∃ x, R.siblings.getLast? = some x ∧ x ≠ 0)) := by
  have hlen : (keyToPath key).length = 256 := keyToPath_length key hkey
  intro n p hsub
  induction hsub with
  | zero p =>
    intro acc hp hd
    refine ⟨⟨[key], none, acc⟩, retrieveEntryAux_zero key nodes _ acc, ⟨[], by simp⟩,
      by simpa using hd, rfl, ?_, ?_⟩
    · intro _
      exact Or.inl ⟨rfl, Or.inl ⟨rfl, rfl⟩⟩
    · intro me hme
      exact absurd hme (by simp)
  | leaf p k v m hlook hm hk256 hplace =>
    intro acc hp hd
    have hplen : p.length = acc.length := by
      rw [hp, List.length_take, hlen]
      omega
    by_cases hk : k = key
    · refine ⟨⟨[k, v, m], none, acc⟩,
        retrieveEntryAux_leaf_found key nodes _ _ acc [k, v, m] (hnz _) hlook
          (by simpa using hm) (by simpa using hk), ⟨[], by simp⟩,
        by simpa using hd, ?_, ?_, ?_⟩
      · have : termNode hsh ⟨[k, v, m], none, acc⟩ = hsh [k, v, m] := by
          simp [termNode]
        rw [this]
      · intro _
        refine Or.inr ⟨v, m, by rw [hk], hm, ?_⟩
        simpa [hk] using hlook
      · intro me hme
        exact absurd hme (by simp)
    · refine ⟨⟨[key], some [k, v, m], acc⟩,
        retrieveEntryAux_leaf_matching key nodes _ _ acc [k, v, m] (hnz _) hlook
          (by simpa using hm) (by simpa using hk), ⟨[], by simp⟩,
        by simpa using hd, ?_, ?_, ?_⟩
      · have : termNode hsh ⟨[key], some [k, v, m], acc⟩ = hsh [k, v, m] := by
          simp [termNode]
        rw [this]
      · intro hcontra
        exact absurd hcontra (by simp)
      · intro me hme
        have hme2 : me = [k, v, m] := by simpa using hme.symm
        subst hme2
        refine ⟨rfl, ⟨k, v, m, rfl, hm, hk256, hk⟩, hlook, ?_, Or.inl ⟨rfl, rfl⟩⟩
        show (keyToPath k).take acc.length = (keyToPath key).take acc.length
        have h1 : (keyToPath k).take acc.length = (keyToPath k).take p.length := by
          rw [hplen]
        rw [h1, hplace, hp]
  | internal p a b hlook hp256 suba subb za zb iha ihb =>
    intro acc hp hd
    have hplen : p.length = acc.length := by
      rw [hp, List.length_take, hlen]
      omega
    have hdlt : acc.length < 256 := by omega
    have hdrop : (keyToPath key).drop acc.length
        = (keyToPath key).getD acc.length false :: (keyToPath key).drop (acc.length + 1) := by
      rw [List.drop_eq_getElem_cons (by omega)]
      congr 1
      rw [List.getD_eq_getElem?_getD, List.getElem?_eq_getElem (by omega)]
      rfl
    have hstep : retrieveEntryAux key nodes ((keyToPath key).drop acc.length) (hsh [a, b]) acc
        = retrieveEntryAux key nodes ((keyToPath key).drop (acc.length + 1))
            (if (keyToPath key).getD acc.length false then b else a)
            (acc ++ [if (keyToPath key).getD acc.length false then a else b]) := by
      rw [hdrop]
      rw [retrieveEntryAux_internal key nodes _ _ _ _ [a, b] (hnz _) hlook rfl]
      by_cases hdir : (keyToPath key).getD acc.length false
      · rw [if_pos hdir, if_pos hdir, if_pos hdir, if_pos hdir]; rfl
      · rw [if_neg hdir, if_neg hdir, if_neg hdir, if_neg hdir]; rfl
    have htake : p ++ [(keyToPath key).getD acc.length false]
        = (keyToPath key).take (acc.length + 1) := by
      rw [hp]
      have h1 := List.take_concat_get' (keyToPath key) acc.length (by omega)
      rw [← h1]
      congr 1
      rw [List.getD_eq_getElem?_getD, List.getElem?_eq_getElem (by omega)]
      rfl
    by_cases hdir : (keyToPath key).getD acc.length false
    · -- direction 1: descend into `b`, push `a`
      obtain ⟨R, hret, ⟨tail, htail⟩, hlen2, hfold, hnone, hmatch⟩ :=
        ihb (acc ++ [a])
          (by simp only [List.length_append, List.length_singleton]; rw [← htake, hdir])
          (by simp only [List.length_append, List.length_singleton]; omega)
      have hgetD : R.siblings.getD acc.length 0 = a := by
        rw [htail, List.append_assoc]
        exact getD_append_self acc a tail
      refine ⟨R, ?_, ⟨a :: tail, by simpa using htail⟩, hlen2, ?_, ?_, ?_⟩
      · rw [hstep, if_pos hdir, if_pos hdir]
        simpa using hret
      · rw [hfold]
        have hpair : (if (keyToPath key).getD acc.length false
            then [R.siblings.getD acc.length 0, b] else [b, R.siblings.getD acc.length 0])
            = [a, b] := by
          rw [if_pos hdir, hgetD]
        have hcalc : calculateRootAux hsh (acc.length + 1) b (keyToPath key) R.siblings
            = calculateRootAux hsh acc.length (hsh [a, b]) (keyToPath key) R.siblings := by
          rw [calculateRootAux, hpair]
        simpa using hcalc
      · intro hme
        rcases hnone hme with ⟨hentry, hdisj⟩ | hfound
        · refine Or.inl ⟨hentry, Or.inr ?_⟩
          rcases hdisj with ⟨hsibs, hb0⟩ | ⟨x, hx, hxfact⟩
          · refine ⟨a, ?_, zb hb0⟩
            rw [hsibs]
            exact List.getLast?_concat acc
          · exact ⟨x, hx, hxfact⟩
        · exact Or.inr hfound
      · intro me hme
        obtain ⟨hentry, hshape, hlookme, hplace2, hdisj⟩ := hmatch me hme
        refine ⟨hentry, hshape, hlookme, hplace2, Or.inr ?_⟩
        rcases hdisj with ⟨hsibs, hbme⟩ | ⟨x, hx, hxne⟩
        · refine ⟨a, ?_, ?_⟩
          · rw [hsibs]
            exact List.getLast?_concat acc
          · intro ha0
            obtain ⟨k0, v0, m0, hme0, hm0, _, _⟩ := hshape
            have hlookb : lookupN nodes b = some me := by rw [hbme]; exact hlookme
            have := za ha0 me hlookb
            rw [hme0] at this
            simp only [List.getD_cons_succ, List.getD_cons_zero] at this
            exact hm0 this
        · exact ⟨x, hx, hxne⟩
    · -- direction 0: descend into `a`, push `b`
      have hdir2 : (keyToPath key).getD acc.length false = false := by
        simpa using hdir
      obtain ⟨R, hret, ⟨tail, htail⟩, hlen2, hfold, hnone, hmatch⟩ :=
        iha (acc ++ [b])
          (by simp only [List.length_append, List.length_singleton]; rw [← htake, hdir2])
          (by simp only [List.length_append, List.length_singleton]; omega)
      have hgetD : R.siblings.getD acc.length 0 = b := by
        rw [htail, List.append_assoc]
        exact getD_append_self acc b tail
      refine ⟨R, ?_, ⟨b :: tail, by simpa using htail⟩, hlen2, ?_, ?_, ?_⟩
      · rw [hstep, if_neg hdir, if_neg hdir]
        simpa using hret
      · rw [hfold]
        have hpair : (if (keyToPath key).getD acc.length false
            then [R.siblings.getD acc.length 0, a] else [a, R.siblings.getD acc.length 0])
            = [a, b] := by
          rw [if_neg hdir, hgetD]
        have hcalc : calculateRootAux hsh (acc.length + 1) a (keyToPath key) R.siblings
            = calculateRootAux hsh acc.length (hsh [a, b]) (keyToPath key) R.siblings := by
          rw [calculateRootAux, hpair]
        simpa using hcalc
      · intro hme
        rcases hnone hme with ⟨hentry, hdisj⟩ | hfound
        · refine Or.inl ⟨hentry, Or.inr ?_⟩
          rcases hdisj with ⟨hsibs, ha0⟩ | ⟨x, hx, hxfact⟩
          · refine ⟨b, ?_, za ha0⟩
            rw [hsibs]
            exact List.getLast?_concat acc
          · exact ⟨x, hx, hxfact⟩
        · exact Or.inr hfound
      · intro me hme
        obtain ⟨hentry, hshape, hlookme, hplace2, hdisj⟩ := hmatch me hme
        refine ⟨hentry, hshape, hlookme, hplace2, Or.inr ?_⟩
        rcases hdisj with ⟨hsibs, hame⟩ | ⟨x, hx, hxne⟩
        · refine ⟨b, ?_, ?_⟩
          · rw [hsibs]
            exact List.getLast?_concat acc
          · intro hb0
            obtain ⟨k0, v0, m0, hme0, hm0, _, _⟩ := hshape
            have hlooka : lookupN nodes a = some me := by rw [hame]; exact hlookme
            have := zb hb0 me hlooka
            rw [hme0] at this
            simp only [List.getD_cons_succ, List.getD_cons_zero] at this
            exact hm0 this
        · exact ⟨x, hx, hxne⟩

/-! ### Facts about the sibling-extension loop -/

theorem firstDivergenceAux_some (p q : List Bool) :
    ∀ (fuel i j : ℕ), firstDivergenceAux p q fuel i = some j →
      i ≤ j ∧ p.get? j ≠ q.get? j := by
  intro fuel
  induction fuel with
  | zero => intro i j h; simp [firstDivergenceAux] at h
  | succ f ih =>
    intro i j h
    simp only [firstDivergenceAux] at h
    split at h
    · obtain ⟨h1, h2⟩ := ih (i + 1) j h
      exact ⟨by omega, h2⟩
    · cases h
      rename_i hne
      exact ⟨le_rfl, hne⟩

theorem firstDivergence_some (p q : List Bool) (s j : ℕ)
    (h : firstDivergence p q s = some j) : s ≤ j ∧ p.get? j ≠ q.get? j :=
  firstDivergenceAux_some p q _ s j h

theorem firstDivergenceAux_isSome (p q : List Bool) :
    ∀ (fuel i i0 : ℕ), i ≤ i0 → i0 < i + fuel → p.get? i0 ≠ q.get? i0 →
      (firstDivergenceAux p q fuel i).isSome := by
  intro fuel
  induction fuel with
  | zero => intro i i0 h1 h2 _; omega
  | succ f ih =>
    intro i i0 h1 h2 hne
    simp only [firstDivergenceAux]
    by_cases heq : p.get? i = q.get? i
    · rw [if_pos heq]
      by_cases hi : i = i0
      · exact absurd (hi ▸ heq) hne
      · exact ih (i + 1) i0 (by omega) (by omega) hne
    · rw [if_neg heq]
      rfl

theorem firstDivergence_isSome (p q : List Bool) (s i0 : ℕ) (h1 : s ≤ i0)
    (hne : p.get? i0 ≠ q.get? i0) : (firstDivergence p q s).isSome := by
  have hi0 : i0 < max p.length q.length := by
    by_contra hcon
    push_neg at hcon
    have hp : p.get? i0 = none := List.get?_eq_none.mpr (by omega)
    have hq : q.get? i0 = none := List.get?_eq_none.mpr (by omega)
    exact hne (hp.trans hq.symm)
  exact firstDivergenceAux_isSome p q _ s i0 h1 (by omega) hne

/-- `addNewNodes` at the default start index is the full fold. -/
theorem addNewNodes_toAux (hsh : List ℕ → ℕ) (nodes : NodeMap) (node : ℕ)
    (path : List Bool) (sibs : List ℕ) :
    addNewNodes hsh nodes node path sibs ((sibs.length : ℤ) - 1)
      = addNewNodesAux hsh sibs.length nodes node path sibs := by
  unfold addNewNodes
  congr 1
  omega

/-- The leaf keys stored in a tree lie below `2 ^ 256` — in
hexadecimal-string mode this is forced by `checkHex`, in big-number mode
it is the spec's §3 validity condition on keys. -/
def KeysBounded (nodes : NodeMap) : Prop :=
  ∀ q c, lookupN nodes q = some c → c.getD 2 0 ≠ 0 → c.getD 0 0 < 2 ^ 256

/-! ### Claim theorems -/

/-- C10: `verifyProof` never reads the proof's `membership` field: for
every proof and every boolean, replacing the field leaves the verdict
unchanged — validity is decided only by `entry`, `matchingEntry`,
`siblings` and `root`. -/
theorem C10_verifyProof_ignores_membership (hsh : List ℕ → ℕ) (p : MerkleProof) (b : Bool) :
    verifyProof hsh ⟨p.entry, p.matchingEntry, p.siblings, p.root, b⟩ = verifyProof hsh p := by
  cases p
  rfl

/-- C4: for every proof carrying a matching entry, `verifyProof` accepts
iff (1) folding the matching leaf's hash through the siblings along the
matching entry's own path yields the proof's root, and (2) the shared
leading path-bit run of the target key and the matching key is at least
`siblings.length`. -/
theorem C4_verifyProof_matching_iff (hsh : List ℕ → ℕ) (p : MerkleProof) (me : List ℕ)
    (hme : p.matchingEntry = some me) :
    verifyProof hsh p = true ↔
      (calculateRoot hsh (hsh me) (keyToPath (me.getD 0 0)) p.siblings = p.root ∧
       p.siblings.length ≤ (getFirstCommonElements (keyToPath (p.entry.getD 0 0))
         (keyToPath (me.getD 0 0))).length) := by
  by_cases hroot : calculateRoot hsh (hsh me) (keyToPath (me.getD 0 0)) p.siblings = p.root
  · simp [verifyProof, hme, hroot]
  · simp [verifyProof, hme, hroot]

/-- Witness for C4 at a concrete proof: a single-leaf tree with root
`hashC [2, 5, 1]` and a non-membership proof for key 1. -/
theorem C4_witness :
    verifyProof hashC ⟨[1], some [2, 5, 1], [], hashC [2, 5, 1], false⟩ = true ↔
      (calculateRoot hashC (hashC [2, 5, 1]) (keyToPath 2) [] = hashC [2, 5, 1] ∧
       ([] : List ℕ).length ≤ (getFirstCommonElements (keyToPath 1)
         (keyToPath 2)).length) :=
  C4_verifyProof_matching_iff hashC ⟨[1], some [2, 5, 1], [], hashC [2, 5, 1], false⟩
    [2, 5, 1] rfl

/-- C7: whenever a mutation fails (`add` on a present key, `update` or
`delete` on an absent key, or a crash on a dangling node), the root and
the node store are exactly as they were before the call: every failing
branch of the source throws before its first write. -/
theorem C7_failed_mutations_leave_state (hsh : List ℕ → ℕ) (t : SMT) (key value : ℕ) :
    (∀ e, (SMT.add hsh t key value).err = some e → (SMT.add hsh t key value).state = t) ∧
    (∀ e, (SMT.update hsh t key value).err = some e → (SMT.update hsh t key value).state = t) ∧
    (∀ e, (SMT.delete hsh t key).err = some e → (SMT.delete hsh t key).state = t) := by
  refine ⟨?_, ?_, ?_⟩
  · intro e he
    rcases hre : t.retrieveEntry key with _ | r
    · simp [SMT.add, hre]
    · rcases hmat : r.matchingEntry with _ | me
      · by_cases hlen : 2 ≤ r.entry.length
        · simp [SMT.add, hre, hmat, hlen]
        · simp [SMT.add, hre, hmat, hlen] at he
      · by_cases hlen : 2 ≤ r.entry.length
        · simp [SMT.add, hre, hmat, hlen]
        · rcases hdiv : firstDivergence (keyToPath key) (keyToPath (me.getD 0 0))
            r.siblings.length with _ | j
          · simp [SMT.add, hre, hmat, hlen, hdiv, -List.getD_eq_getElem?_getD]
          · simp [SMT.add, hre, hmat, hlen, hdiv, -List.getD_eq_getElem?_getD] at he
  · intro e he
    rcases hre : t.retrieveEntry key with _ | r
    · simp [SMT.update, hre]
    · by_cases hlen : r.entry.length < 2
      · simp [SMT.update, hre, hlen]
      · simp [SMT.update, hre, hlen] at he
  · intro e he
    rcases hre : t.retrieveEntry key with _ | r
    · simp [SMT.delete, hre]
    · by_cases hlen : r.entry.length < 2
      · simp [SMT.delete, hre, hlen]
      · by_cases hsibs : 0 < r.siblings.length
        · by_cases hleaf : isLeaf (deleteOldNodes hsh (mapDelete t.nodes (hsh r.entry))
            (hsh r.entry) (keyToPath key) r.siblings) (r.siblings.getLastD 0) = false
          · simp [SMT.delete, hre, hlen, hsibs, hleaf, -List.getD_eq_getElem?_getD,
              -List.getLastD_eq_getLast?] at he
          · simp [SMT.delete, hre, hlen, hsibs, hleaf, -List.getD_eq_getElem?_getD,
              -List.getLastD_eq_getLast?] at he
        · simp [SMT.delete, hre, hlen, hsibs] at he

/-- Witness for C7: on the empty tree, `update` of the absent key 1
fails and leaves the state unchanged, and likewise for `delete`. -/
theorem C7_witness :
    (SMT.update hashC ⟨[], 0⟩ 1 2).state = ⟨[], 0⟩ ∧
    (SMT.delete hashC ⟨[], 0⟩ 1).state = ⟨[], 0⟩ :=
  ⟨(C7_failed_mutations_leave_state hashC ⟨[], 0⟩ 1 2).2.1 .keyNotFound (by decide),
   (C7_failed_mutations_leave_state hashC ⟨[], 0⟩ 1 2).2.2 .keyNotFound (by decide)⟩

/-- C9: on a well-formed tree (the reachability premise of the claim,
formalised as the `SubOk` invariant at the root), the Entry Locator
terminates for every mode-valid key and descends at most 256 steps (one
collected sibling per step). -/
theorem C9_retrieveEntry_terminates (hsh : List ℕ → ℕ) (hinj : Function.Injective hsh)
    (hnz : ∀ l, hsh l ≠ 0) (t : SMT) (key : ℕ) (hkey : key < 2 ^ 256)
    (hsub : SubOk hsh t.nodes t.root []) :
    ∃ R, t.retrieveEntry key = some R ∧ R.siblings.length ≤ 256 := by
  obtain ⟨R, hret, _, hlen, _⟩ :=
    retrieve_main hsh hinj hnz t.nodes key hkey t.root [] hsub [] (by simp) (by simp)
  refine ⟨R, ?_, hlen⟩
  rw [SMT.retrieveEntry]
  simpa using hret

/-- The continuation fact for the post-`add` traversal: once the fresh
leaf is in the store, reaching it ends the search at the new entry. -/
theorem add_leaf_continuation (hsh : List ℕ → ℕ) (hinj : Function.Injective hsh)
    (hnz : ∀ l, hsh l ≠ 0) (key value : ℕ) (nodes1 : NodeMap) (rest : List Bool) :
    ∀ ns acc2, Pres hsh (mapSet nodes1 (hsh [key, value, 1]) [key, value, 1]) ns →
      retrieveEntryAux key ns rest (hsh [key, value, 1]) acc2
        = some ⟨[key, value, 1], none, acc2 ++ []⟩ := by
  intro ns acc2 hpres
  have hlk : lookupN ns (hsh [key, value, 1]) = some [key, value, 1] :=
    hpres _ _ rfl (by rw [lookupN_mapSet, if_pos rfl])
  rw [retrieveEntryAux_leaf_found key ns rest _ acc2 [key, value, 1] (hnz _) hlk
    (by simp) (by simp)]
  simp

/-- C1: in any state whose stored leaf keys are mode-valid, after a
successful `add(key, value)` with a valid key, `get(key)` returns
`value`. -/
theorem C1_add_then_get (hsh : List ℕ → ℕ) (hinj : Function.Injective hsh)
    (hnz : ∀ l, hsh l ≠ 0) (t : SMT) (key value : ℕ) (hkey : key < 2 ^ 256)
    (hkb : KeysBounded t.nodes) (t2 : SMT)
    (hadd : SMT.add hsh t key value = ⟨none, t2⟩) :
    t2.get key = some (some value) := by
  have hplen : (keyToPath key).length = 256 := keyToPath_length key hkey
  rcases hre : t.retrieveEntry key with _ | r
  · simp [SMT.add, hre] at hadd
  · have hsle : r.siblings.length ≤ 256 := by
      have := retrieveEntryAux_sibs_le key t.nodes (keyToPath key) t.root [] r
        (by rw [← SMT.retrieveEntry]; exact hre)
      simpa [hplen] using this
    by_cases hlen : 2 ≤ r.entry.length
    · simp [SMT.add, hre, hlen] at hadd
    · rcases hmat : r.matchingEntry with _ | me
      · -- empty-slot case: the siblings are rebuilt unchanged
        have hadd2 : t2 = ⟨(addNewNodes hsh
            (mapSet (if 0 < r.siblings.length
              then deleteOldNodes hsh t.nodes 0 (keyToPath key) r.siblings else t.nodes)
              (hsh [key, value, 1]) [key, value, 1])
            (hsh [key, value, 1]) (keyToPath key) r.siblings
            ((r.siblings.length : ℤ) - 1)).2,
          (addNewNodes hsh
            (mapSet (if 0 < r.siblings.length
              then deleteOldNodes hsh t.nodes 0 (keyToPath key) r.siblings else t.nodes)
              (hsh [key, value, 1]) [key, value, 1])
            (hsh [key, value, 1]) (keyToPath key) r.siblings
            ((r.siblings.length : ℤ) - 1)).1⟩ := by
          simp [SMT.add, hre, hlen, hmat, -List.getD_eq_getElem?_getD] at hadd
          exact hadd.symm
        have htrav := addNewNodes_traverse hsh hinj hnz key (keyToPath key) r.siblings
          [key, value, 1] none r.siblings.length []
          (mapSet (if 0 < r.siblings.length
            then deleteOldNodes hsh t.nodes 0 (keyToPath key) r.siblings else t.nodes)
            (hsh [key, value, 1]) [key, value, 1])
          (hsh [key, value, 1]) []
          (by omega)
          (add_leaf_continuation hsh hinj hnz key value _ _)
        rw [addNewNodes_toAux] at hadd2
        rw [SMT.get, SMT.retrieveEntry, hadd2]
        simp only []
        rw [htrav.1]
        rfl
      · -- matching-entry case: the siblings are extended before the fold
        have hme256 : me.getD 0 0 < 2 ^ 256 := by
          obtain ⟨q, hq, hmark⟩ := retrieveEntryAux_matching_mem key t.nodes (keyToPath key)
            t.root [] r me (by rw [← SMT.retrieveEntry]; exact hre) hmat
          exact hkb q me hq hmark
        have hmlen : (keyToPath (me.getD 0 0)).length = 256 := keyToPath_length _ hme256
        rcases hdiv : firstDivergence (keyToPath key) (keyToPath (me.getD 0 0))
            r.siblings.length with _ | j
        · simp [SMT.add, hre, hlen, hmat, hdiv, -List.getD_eq_getElem?_getD] at hadd
        · obtain ⟨hjge, hjne⟩ := firstDivergence_some _ _ _ _ hdiv
          have hjlt : j < 256 := by
            by_contra hcon
            push_neg at hcon
            have hp : (keyToPath key).get? j = none := List.get?_eq_none.mpr (by omega)
            have hq : (keyToPath (me.getD 0 0)).get? j = none :=
              List.get?_eq_none.mpr (by omega)
            exact hjne (hp.trans hq.symm)
          have hslen : (r.siblings ++ (List.replicate (j - r.siblings.length) 0
              ++ [hsh me])).length = j + 1 := by
            simp
            omega
          have hadd2 : t2 = ⟨(addNewNodes hsh
              (mapSet (if 0 < r.siblings.length
                then deleteOldNodes hsh t.nodes (hsh me) (keyToPath key) r.siblings
                else t.nodes)
                (hsh [key, value, 1]) [key, value, 1])
              (hsh [key, value, 1]) (keyToPath key)
              (r.siblings ++ (List.replicate (j - r.siblings.length) 0 ++ [hsh me]))
              (((r.siblings ++ (List.replicate (j - r.siblings.length) 0
                ++ [hsh me])).length : ℤ) - 1)).2,
            (addNewNodes hsh
              (mapSet (if 0 < r.siblings.length
                then deleteOldNodes hsh t.nodes (hsh me) (keyToPath key) r.siblings
                else t.nodes)
                (hsh [key, value, 1]) [key, value, 1])
              (hsh [key, value, 1]) (keyToPath key)
              (r.siblings ++ (List.replicate (j - r.siblings.length) 0 ++ [hsh me]))
              (((r.siblings ++ (List.replicate (j - r.siblings.length) 0
                ++ [hsh me])).length : ℤ) - 1)).1⟩ := by
            simp [SMT.add, hre, hlen, hmat, hdiv, -List.getD_eq_getElem?_getD] at hadd
            rw [← hadd]
            have harith : ((r.siblings.length : ℤ) + ((j - r.siblings.length : ℕ) + 1) - 1)
                = (((r.siblings ++ (List.replicate (j - r.siblings.length) 0
                  ++ [hsh me])).length : ℤ) - 1) := by
              simp
            rw [← harith]
          have htrav := addNewNodes_traverse hsh hinj hnz key (keyToPath key)
            (r.siblings ++ (List.replicate (j - r.siblings.length) 0 ++ [hsh me]))
            [key, value, 1] none
            (r.siblings ++ (List.replicate (j - r.siblings.length) 0 ++ [hsh me])).length []
            (mapSet (if 0 < r.siblings.length
              then deleteOldNodes hsh t.nodes (hsh me) (keyToPath key) r.siblings
              else t.nodes)
              (hsh [key, value, 1]) [key, value, 1])
            (hsh [key, value, 1]) []
            (by rw [hslen, hplen]; omega)
            (add_leaf_continuation hsh hinj hnz key value _ _)
          rw [addNewNodes_toAux] at hadd2
          rw [SMT.get, SMT.retrieveEntry, hadd2]
          simp only []
          rw [htrav.1]
          rfl

/-- Witness for C1: adding key 1 with value 2 to the empty tree, then
reading it back. -/
theorem C1_witness :
    (SMT.add hashC (⟨[], 0⟩ : SMT) 1 2).state.get 1 = some (some 2) := by
  have h := C1_add_then_get hashC hashC_injective hashC_ne_zero ⟨[], 0⟩ 1 2
    (by norm_num) (by intro q c hq hc; cases hq)
    (SMT.add hashC (⟨[], 0⟩ : SMT) 1 2).state (by rfl)
  exact h

theorem getD_take (l : List Bool) (d j : ℕ) (hj : j < d) :
    (l.take d).getD j false = l.getD j false := by
  rw [List.getD_eq_getElem?_getD, List.getD_eq_getElem?_getD, List.getElem?_take_of_lt hj]

theorem getFirstCommonElements_length_ge :
    ∀ (d : ℕ) (p q : List Bool), p.take d = q.take d → d ≤ p.length →
      d ≤ (getFirstCommonElements p q).length := by
  intro d
  induction d with
  | zero => intro p q _ _; omega
  | succ d ih =>
    intro p q htake hlen
    cases p with
    | nil => simp at hlen
    | cons x xs =>
      cases q with
      | nil => simp at htake
      | cons y ys =>
        simp only [List.take_succ_cons, List.cons.injEq] at htake
        obtain ⟨hxy, hrest⟩ := htake
        rw [getFirstCommonElements, if_pos hxy]
        have := ih xs ys hrest (by simpa using hlen)
        simp only [List.length_cons]
        omega

/-- C2 (amended): for every key present in a well-formed tree,
`createProof(key)` yields a proof that `verifyProof` accepts against the
current root, and whose `membership` field is the JavaScript truthiness
of the stored value — `true` exactly when the value is nonzero (in
big-number mode a stored value of `0` yields `membership = false`). -/
theorem C2_createProof_member (hsh : List ℕ → ℕ) (hinj : Function.Injective hsh)
    (hnz : ∀ l, hsh l ≠ 0) (t : SMT) (key : ℕ) (hkey : key < 2 ^ 256)
    (hsub : SubOk hsh t.nodes t.root []) (v : ℕ) (hget : t.get key = some (some v)) :
    ∃ p, t.createProof key = some p ∧ verifyProof hsh p = true ∧
      p.membership = decide (v ≠ 0) := by
  obtain ⟨R, hret, ⟨tail, htail⟩, hlen, hfold, hnone, hmatch⟩ :=
    retrieve_main hsh hinj hnz t.nodes key hkey t.root [] hsub [] (by simp) (by simp)
  have hret2 : t.retrieveEntry key = some R := by
    rw [SMT.retrieveEntry]
    simpa using hret
  rw [SMT.get, hret2] at hget
  simp only [Option.map_some', Option.some.injEq] at hget
  rcases hmat : R.matchingEntry with _ | me
  · rcases hnone hmat with ⟨hentry, _⟩ | ⟨v2, m, hentry, hm, _⟩
    · rw [hentry] at hget
      simp at hget
    · rw [hentry] at hget
      simp only [List.get?] at hget
      cases hget
      refine ⟨⟨R.entry, R.matchingEntry, R.siblings, t.root,
        decide (R.entry.getD 1 0 ≠ 0)⟩, ?_, ?_, ?_⟩
      · rw [SMT.createProof, hret2]
        rfl
      · have hterm : termNode hsh R = hsh R.entry := by
          rw [termNode, hmat, if_pos (by rw [hentry]; simp)]
        have hroot : calculateRoot hsh (hsh R.entry) (keyToPath key) R.siblings
            = t.root := by
          rw [calculateRoot, ← hterm]
          exact hfold
        have hnode : 2 ≤ R.entry.length := by rw [hentry]; simp
        have hkey0 : R.entry.getD 0 0 = key := by rw [hentry]; rfl
        simp only [verifyProof, hmat]
        rw [hkey0, if_pos hnode, hroot]
        simp
      · rw [hentry]
        rfl
  · obtain ⟨hentry, _, _, _, _⟩ := hmatch me hmat
    rw [hentry] at hget
    simp at hget

/-- C3: for every mode-valid key that is absent from a well-formed
tree, `createProof(key)` yields a proof with `membership = false` that
`verifyProof` accepts against the current root; and when the locator
returned a matching entry, the proof's siblings count is at most the
number of leading path bits the key shares with the matching entry's
key. -/
theorem C3_createProof_nonmember (hsh : List ℕ → ℕ) (hinj : Function.Injective hsh)
    (hnz : ∀ l, hsh l ≠ 0) (t : SMT) (key : ℕ) (hkey : key < 2 ^ 256)
    (hsub : SubOk hsh t.nodes t.root []) (hget : t.get key = some none) :
    ∃ p, t.createProof key = some p ∧ p.membership = false ∧ verifyProof hsh p = true ∧
      (∀ me, p.matchingEntry = some me →
        p.siblings.length ≤ (getFirstCommonElements (keyToPath key)
          (keyToPath (me.getD 0 0))).length) := by
  obtain ⟨R, hret, ⟨tail, htail⟩, hlen, hfold, hnone, hmatch⟩ :=
    retrieve_main hsh hinj hnz t.nodes key hkey t.root [] hsub [] (by simp) (by simp)
  have hret2 : t.retrieveEntry key = some R := by
    rw [SMT.retrieveEntry]
    simpa using hret
  rw [SMT.get, hret2] at hget
  simp only [Option.map_some', Option.some.injEq] at hget
  refine ⟨⟨R.entry, R.matchingEntry, R.siblings, t.root,
    decide (R.entry.getD 1 0 ≠ 0)⟩, by rw [SMT.createProof, hret2]; rfl, ?_, ?_, ?_⟩
  all_goals rcases hmat : R.matchingEntry with _ | me
  · rcases hnone hmat with ⟨hentry, _⟩ | ⟨v2, m, hentry, hm, _⟩
    · rw [hentry]; rfl
    · rw [hentry] at hget; simp at hget
  · obtain ⟨hentry, _, _, _, _⟩ := hmatch me hmat
    rw [hentry]; rfl
  · rcases hnone hmat with ⟨hentry, _⟩ | ⟨v2, m, hentry, hm, _⟩
    · have hterm : termNode hsh R = 0 := by
        rw [termNode, hmat, if_neg (by rw [hentry]; simp)]
      have hroot : calculateRoot hsh 0 (keyToPath key) R.siblings = t.root := by
        rw [calculateRoot, ← hterm]
        exact hfold
      have hnode : ¬ (2 ≤ R.entry.length) := by rw [hentry]; simp
      have hkey0 : R.entry.getD 0 0 = key := by rw [hentry]; rfl
      simp only [verifyProof, hmat]
      rw [hkey0, if_neg hnode, hroot]
      simp
    · rw [hentry] at hget; simp at hget
  · obtain ⟨hentry, ⟨k0, v0, m0, hme0, hm0, hk0256, hk0ne⟩, hlookme, hplace, hdisj⟩ :=
      hmatch me hmat
    have hmelen : (keyToPath (me.getD 0 0)).length = 256 := keyToPath_length _ (by
      rw [hme0]; simpa using hk0256)
    have hplen : (keyToPath key).length = 256 := keyToPath_length key hkey
    have hcong : calculateRootAux hsh R.siblings.length (hsh me)
        (keyToPath (me.getD 0 0)) R.siblings
        = calculateRootAux hsh R.siblings.length (hsh me) (keyToPath key) R.siblings := by
      apply calculateRootAux_congr
      · intro i hi
        rw [← getD_take (keyToPath (me.getD 0 0)) R.siblings.length i hi,
          ← getD_take (keyToPath key) R.siblings.length i hi, hplace]
      · intro i _
        rfl
    have hterm : termNode hsh R = hsh me := by
      rw [termNode, hmat]
    have hroot : calculateRoot hsh (hsh me) (keyToPath (me.getD 0 0)) R.siblings
        = t.root := by
      rw [calculateRoot, hcong, ← hterm]
      exact hfold
    have hcommon : R.siblings.length ≤ (getFirstCommonElements
        (keyToPath key) (keyToPath (me.getD 0 0))).length :=
      getFirstCommonElements_length_ge R.siblings.length _ _ hplace.symm (by omega)
    have hkey0 : R.entry.getD 0 0 = key := by rw [hentry]; rfl
    simp only [verifyProof, hmat]
    rw [hkey0, if_pos hroot]
    simpa using hcommon
  · rcases hnone hmat with ⟨hentry, _⟩ | ⟨v2, m, hentry, hm, _⟩
    · intro me2 hme2
      simp only [hmat] at hme2
      cases hme2
    · rw [hentry] at hget; simp at hget
  · intro me2 hme2
    simp only [hmat, Option.some.injEq] at hme2
    obtain ⟨hentry, ⟨k0, v0, m0, hme0, hm0, hk0256, hk0ne⟩, hlookme, hplace, hdisj⟩ :=
      hmatch me hmat
    rw [← hme2]
    exact getFirstCommonElements_length_ge R.siblings.length _ _ hplace.symm
      (by have := keyToPath_length key hkey; omega)

/-- Witness for C2: a single-leaf tree with entry `(1, 2)`. -/
theorem C2_witness :
    ∃ p, (⟨[(hashC [1, 2, 1], [1, 2, 1])], hashC [1, 2, 1]⟩ : SMT).createProof 1 = some p ∧
      verifyProof hashC p = true ∧ p.membership = decide ((2 : ℕ) ≠ 0) :=
  C2_createProof_member hashC hashC_injective hashC_ne_zero
    ⟨[(hashC [1, 2, 1], [1, 2, 1])], hashC [1, 2, 1]⟩ 1 (by norm_num)
    (SubOk.leaf [] 1 2 1 (by simp [lookupN]) (by decide) (by norm_num) rfl) 2 (by decide)

/-- Counterexample to C2 as stated: in big-number mode, adding key 1
with the valid value 0 succeeds and the key is present (`get` returns
the value 0), yet the proof `createProof` returns carries
`membership = false`, because the source computes the field as the
JavaScript truthiness `!!entry[1]` and `!!0n` is `false`. -/
theorem C2_counterexample :
    (SMT.add hashC (⟨[], 0⟩ : SMT) 1 0).err = none ∧
    (SMT.add hashC (⟨[], 0⟩ : SMT) 1 0).state.get 1 = some (some 0) ∧
    ((SMT.add hashC (⟨[], 0⟩ : SMT) 1 0).state.createProof 1).map MerkleProof.membership
      = some false := by
  refine ⟨rfl, ?_, ?_⟩ <;> decide

/-- Witness for C3: the single-leaf tree with entry `(1, 2)` and the
never-added key 2. -/
theorem C3_witness :
    ∃ p, (⟨[(hashC [1, 2, 1], [1, 2, 1])], hashC [1, 2, 1]⟩ : SMT).createProof 2 = some p ∧
      p.membership = false ∧ verifyProof hashC p = true ∧
      (∀ me, p.matchingEntry = some me →
        p.siblings.length ≤ (getFirstCommonElements (keyToPath 2)
          (keyToPath (me.getD 0 0))).length) :=
  C3_createProof_nonmember hashC hashC_injective hashC_ne_zero
    ⟨[(hashC [1, 2, 1], [1, 2, 1])], hashC [1, 2, 1]⟩ 2 (by norm_num)
    (SubOk.leaf [] 1 2 1 (by simp [lookupN]) (by decide) (by norm_num) rfl) (by decide)

theorem findIdx?_replicate_zero_append (m : ℕ) (l : List ℕ) :
    (List.replicate m 0 ++ l).findIdx? (fun x => decide (x ≠ 0))
      = (l.findIdx? (fun x => decide (x ≠ 0))).map (fun j => j + m) := by
  induction m with
  | zero =>
    simp only [List.replicate_zero, List.nil_append]
    cases l.findIdx? (fun x => decide (x ≠ 0)) <;> simp
  | succ m ih =>
    rw [List.replicate_succ, List.cons_append, List.findIdx?_cons]
    rw [if_neg (by simp)]
    rw [List.findIdx?_succ, ih]
    cases l.findIdx? (fun x => decide (x ≠ 0)) with
    | none => rfl
    | some j =>
      simp only [Option.map_some', Option.some.injEq]
      omega

theorem getIndexOfLastNonZeroElement_append_zeros (s : List ℕ) (m : ℕ) :
    getIndexOfLastNonZeroElement (s ++ List.replicate m 0)
      = getIndexOfLastNonZeroElement s := by
  unfold getIndexOfLastNonZeroElement
  rw [List.reverse_append, List.reverse_replicate, findIdx?_replicate_zero_append]
  cases hf : s.reverse.findIdx? (fun x => decide (x ≠ 0)) with
  | none => rfl
  | some j =>
    simp only [Option.map_some', List.length_append, List.length_replicate]
    push_cast
    ring

theorem getIndexOfLastNonZeroElement_last_ne (s : List ℕ) (x : ℕ)
    (hx : s.getLast? = some x) (hxne : x ≠ 0) :
    getIndexOfLastNonZeroElement s = (s.length : ℤ) - 1 := by
  unfold getIndexOfLastNonZeroElement
  rw [List.getLast?_eq_head?_reverse] at hx
  cases hr : s.reverse with
  | nil => rw [hr] at hx; cases hx
  | cons y ys =>
    rw [hr] at hx
    simp only [List.head?_cons, Option.some.injEq] at hx
    rw [List.findIdx?_cons, if_pos (by rw [hx]; simp [hxne])]
    simp

theorem isLeaf_eq_false_of_lookup (nodes : NodeMap) (x : ℕ)
    (h : ∀ c, lookupN nodes x = some c → c.getD 2 0 = 0) : isLeaf nodes x = false := by
  rw [isLeaf]
  cases hl : lookupN nodes x with
  | none => rfl
  | some c =>
    show decide (c.getD 2 0 ≠ 0) = false
    simp only [decide_eq_false_iff_not, Decidable.not_not]
    exact h c hl

theorem isLeaf_eq_true_of_lookup (nodes : NodeMap) (x : ℕ) (c : List ℕ)
    (hl : lookupN nodes x = some c) (hm : c.getD 2 0 ≠ 0) : isLeaf nodes x = true := by
  rw [isLeaf, hl]
  show decide (c.getD 2 0 ≠ 0) = true
  simp only [decide_eq_true_eq]
  exact hm

/-- No identifier on a rebuild/removal chain (all internal pairs) can be
the hash of a three-element leaf, for an injective hash. -/
theorem chain_ne_of_len3 (hsh : List ℕ → ℕ) (hinj : Function.Injective hsh)
    (L : ℕ) (node : ℕ) (pth : List Bool) (sibs : List ℕ) (me : List ℕ)
    (hlen : me.length = 3) :
    ∀ e ∈ foldChain hsh L node pth sibs, e.1 ≠ hsh me := by
  intro e he hcontra
  obtain ⟨h1, h2⟩ := foldChain_shape hsh L node pth sibs e he
  have : e.2 = me := hinj (h1 ▸ hcontra)
  rw [this] at h2
  omega

/-- Looking up an identifier that is neither the fresh leaf nor on the
rebuilt chain, after `add` built the chain and `delete` tore it down
again, sees exactly what the pre-`add` store (after the old-path
removal) saw. -/
theorem lookup_after_add_delete (hsh : List ℕ → ℕ) (nodes1 : NodeMap)
    (key value x : ℕ) (pth : List Bool) (sibs1 : List ℕ)
    (hc1 : ∀ e ∈ foldChain hsh sibs1.length (hsh [key, value, 1]) pth sibs1, e.1 ≠ x)
    (hxn : x ≠ hsh [key, value, 1]) :
    lookupN (deleteOldNodesAux hsh sibs1.length
        (mapDelete (addNewNodesAux hsh sibs1.length
            (mapSet nodes1 (hsh [key, value, 1]) [key, value, 1])
            (hsh [key, value, 1]) pth sibs1).2
          (hsh [key, value, 1]))
        (hsh [key, value, 1]) pth sibs1) x
      = lookupN nodes1 x := by
  rw [lookupN_deleteOldNodesAux hsh _ _ _ _ _ x hc1, lookupN_mapDelete, if_neg hxn,
    lookupN_addNewNodesAux hsh _ _ _ _ _ x hc1, lookupN_mapSet, if_neg hxn]

theorem get?_eq_some_getD (l : List Bool) (i : ℕ) (h : i < l.length) :
    l.get? i = some (l.getD i false) := by
  rw [List.get?_eq_getElem?, List.getElem?_eq_getElem h, List.getD_eq_getElem?_getD,
    List.getElem?_eq_getElem h]
  rfl

/-- `addNewNodes` at start index `k - 1` folds exactly `k` levels. -/
theorem addNewNodes_toAux2 (hsh : List ℕ → ℕ) (nodes : NodeMap) (node : ℕ)
    (path : List Bool) (sibs : List ℕ) (k : ℕ) :
    addNewNodes hsh nodes node path sibs ((k : ℤ) - 1)
      = addNewNodesAux hsh k nodes node path sibs := by
  unfold addNewNodes
  congr 1
  omega

/-- `add` with no matching entry, then `delete` of the same key, puts
the root back: the locator finds the fresh leaf with the original
siblings, the deepest sibling is not a leaf (invariant fact), so
`delete` rebuilds the path from the zero node, which refolds to the old
root. -/
theorem add_delete_nomatch (hsh : List ℕ → ℕ) (hinj : Function.Injective hsh)
    (hnz : ∀ l, hsh l ≠ 0) (t : SMT) (key value : ℕ) (hkey : key < 2 ^ 256)
    (R : EntryResponse) (hret2 : t.retrieveEntry key = some R)
    (hentry : R.entry = [key]) (hmat : R.matchingEntry = none)
    (hslen256 : R.siblings.length ≤ 256)
    (hfold : calculateRootAux hsh R.siblings.length (termNode hsh R) (keyToPath key)
      R.siblings = calculateRootAux hsh 0 t.root (keyToPath key) R.siblings)
    (hdisj : R.siblings = [] ∧ t.root = 0 ∨
      ∃ x, R.siblings.getLast? = some x ∧
        ∀ c, lookupN t.nodes x = some c → c.getD 2 0 = 0) :
    (SMT.add hsh t key value).err = none ∧
    (SMT.delete hsh (SMT.add hsh t key value).state key).err = none ∧
    (SMT.delete hsh (SMT.add hsh t key value).state key).state.root = t.root := by
  have hplen : (keyToPath key).length = 256 := keyToPath_length key hkey
  have hlen2 : ¬ 2 ≤ R.entry.length := by rw [hentry]; simp
  have herr : (SMT.add hsh t key value).err = none := by
    simp [SMT.add, hret2, hlen2, hmat, -List.getD_eq_getElem?_getD]
  obtain ⟨t2, hadd⟩ : ∃ t2, SMT.add hsh t key value = ⟨none, t2⟩ :=
    ⟨(SMT.add hsh t key value).state, by
      have heta : SMT.add hsh t key value
          = ⟨(SMT.add hsh t key value).err, (SMT.add hsh t key value).state⟩ := rfl
      rw [heta, herr]⟩
  have hadd2 : t2 = ⟨(addNewNodes hsh
      (mapSet (if 0 < R.siblings.length
        then deleteOldNodes hsh t.nodes 0 (keyToPath key) R.siblings else t.nodes)
        (hsh [key, value, 1]) [key, value, 1])
      (hsh [key, value, 1]) (keyToPath key) R.siblings
      ((R.siblings.length : ℤ) - 1)).2,
    (addNewNodes hsh
      (mapSet (if 0 < R.siblings.length
        then deleteOldNodes hsh t.nodes 0 (keyToPath key) R.siblings else t.nodes)
        (hsh [key, value, 1]) [key, value, 1])
      (hsh [key, value, 1]) (keyToPath key) R.siblings
      ((R.siblings.length : ℤ) - 1)).1⟩ := by
    simp [SMT.add, hret2, hlen2, hmat, -List.getD_eq_getElem?_getD] at hadd
    exact hadd.symm
  rw [addNewNodes_toAux] at hadd2
  have htrav := addNewNodes_traverse hsh hinj hnz key (keyToPath key) R.siblings
    [key, value, 1] none R.siblings.length []
    (mapSet (if 0 < R.siblings.length
      then deleteOldNodes hsh t.nodes 0 (keyToPath key) R.siblings else t.nodes)
      (hsh [key, value, 1]) [key, value, 1])
    (hsh [key, value, 1]) [] (by omega)
    (add_leaf_continuation hsh hinj hnz key value _ _)
  have hret3 : t2.retrieveEntry key = some ⟨[key, value, 1], none, R.siblings⟩ := by
    rw [SMT.retrieveEntry, hadd2]
    simp only []
    rw [htrav.1, List.nil_append, List.append_nil, range_map_getD]
  rw [hadd]
  refine ⟨rfl, ?_⟩
  by_cases hse : R.siblings = []
  · have hroot0 : t.root = 0 := by
      rcases hdisj with ⟨_, h0⟩ | ⟨x, hx, _⟩
      · exact h0
      · rw [hse] at hx; cases hx
    have hdel : SMT.delete hsh t2 key
        = ⟨none, ⟨mapDelete t2.nodes (hsh [key, value, 1]), 0⟩⟩ := by
      simp [SMT.delete, hret3, hse, -List.getD_eq_getElem?_getD,
        -List.getLastD_eq_getLast?]
    constructor
    · show (SMT.delete hsh t2 key).err = none
      rw [hdel]
    · show (SMT.delete hsh t2 key).state.root = t.root
      rw [hdel, hroot0]
  · obtain ⟨x, hxlast, hxfact⟩ : ∃ x, R.siblings.getLast? = some x ∧
        ∀ c, lookupN t.nodes x = some c → c.getD 2 0 = 0 := by
      rcases hdisj with ⟨hnil, _⟩ | hx
      · exact absurd hnil hse
      · exact hx
    have hpos : 0 < R.siblings.length := List.length_pos.mpr hse
    have hgld : R.siblings.getLastD 0 = x := by
      rw [List.getLastD_eq_getLast?, hxlast]
      rfl
    have hterm : termNode hsh R = 0 := by
      rw [termNode, hmat, if_neg hlen2]
    have hleaf : isLeaf (deleteOldNodes hsh (mapDelete t2.nodes (hsh [key, value, 1]))
        (hsh [key, value, 1]) (keyToPath key) R.siblings) (R.siblings.getLastD 0)
        = false := by
      rw [hgld]
      apply isLeaf_eq_false_of_lookup
      intro c hcl
      rw [deleteOldNodes] at hcl
      by_cases hc1 : ∃ e ∈ foldChain hsh R.siblings.length (hsh [key, value, 1])
          (keyToPath key) R.siblings, e.1 = x
      · rw [lookupN_deleteOldNodesAux_mem hsh _ _ _ _ _ x hc1] at hcl
        cases hcl
      · push_neg at hc1
        by_cases hxn : x = hsh [key, value, 1]
        · rw [lookupN_deleteOldNodesAux hsh _ _ _ _ _ x hc1, lookupN_mapDelete,
            if_pos hxn] at hcl
          cases hcl
        · rw [lookupN_deleteOldNodesAux hsh _ _ _ _ _ x hc1, lookupN_mapDelete,
            if_neg hxn] at hcl
          simp only [hadd2] at hcl
          rw [lookupN_addNewNodesAux hsh _ _ _ _ _ x hc1, lookupN_mapSet,
            if_neg hxn, if_pos hpos, deleteOldNodes] at hcl
          by_cases hc0 : ∃ e ∈ foldChain hsh R.siblings.length 0 (keyToPath key)
              R.siblings, e.1 = x
          · rw [lookupN_deleteOldNodesAux_mem hsh _ _ _ _ _ x hc0] at hcl
            cases hcl
          · push_neg at hc0
            rw [lookupN_deleteOldNodesAux hsh _ _ _ _ _ x hc0] at hcl
            exact hxfact c hcl
    have hdel : SMT.delete hsh t2 key = ⟨none, ⟨(addNewNodes hsh
        (deleteOldNodes hsh (mapDelete t2.nodes (hsh [key, value, 1]))
          (hsh [key, value, 1]) (keyToPath key) R.siblings) 0 (keyToPath key)
        R.siblings ((R.siblings.length : ℤ) - 1)).2,
      (addNewNodes hsh
        (deleteOldNodes hsh (mapDelete t2.nodes (hsh [key, value, 1]))
          (hsh [key, value, 1]) (keyToPath key) R.siblings) 0 (keyToPath key)
        R.siblings ((R.siblings.length : ℤ) - 1)).1⟩⟩ := by
      simp [SMT.delete, hret3, hpos, hleaf, -List.getD_eq_getElem?_getD,
        -List.getLastD_eq_getLast?]
    constructor
    · show (SMT.delete hsh t2 key).err = none
      rw [hdel]
    · show (SMT.delete hsh t2 key).state.root = t.root
      rw [hdel, addNewNodes_toAux, addNewNodesAux_fst]
      show calculateRootAux hsh R.siblings.length 0 (keyToPath key) R.siblings = t.root
      rw [← hterm]
      exact hfold

/-- `add` over a matching entry, then `delete` of the added key, puts the
root back: `add` pushed the matching leaf down an extended path of zero
siblings, `delete` finds it as the deepest sibling (a leaf), and the
collapse branch lifts it back to its old position, refolding to the old
root. -/
theorem add_delete_match (hsh : List ℕ → ℕ) (hinj : Function.Injective hsh)
    (hnz : ∀ l, hsh l ≠ 0) (t : SMT) (key value : ℕ) (hkey : key < 2 ^ 256)
    (R : EntryResponse) (me : List ℕ) (k0 v0 m0 : ℕ)
    (hret2 : t.retrieveEntry key = some R)
    (hentry : R.entry = [key]) (hmat : R.matchingEntry = some me)
    (hme0 : me = [k0, v0, m0]) (hm0 : m0 ≠ 0) (hk0256 : k0 < 2 ^ 256)
    (hk0ne : k0 ≠ key) (hlookme : lookupN t.nodes (hsh me) = some me)
    (hplace : (keyToPath (me.getD 0 0)).take R.siblings.length
      = (keyToPath key).take R.siblings.length)
    (hslen256 : R.siblings.length ≤ 256)
    (hfold : calculateRootAux hsh R.siblings.length (termNode hsh R) (keyToPath key)
      R.siblings = calculateRootAux hsh 0 t.root (keyToPath key) R.siblings)
    (hdisj : R.siblings = [] ∧ t.root = hsh me ∨
      ∃ x, R.siblings.getLast? = some x ∧ x ≠ 0) :
    (SMT.add hsh t key value).err = none ∧
    (SMT.delete hsh (SMT.add hsh t key value).state key).err = none ∧
    (SMT.delete hsh (SMT.add hsh t key value).state key).state.root = t.root := by
  have hplen : (keyToPath key).length = 256 := keyToPath_length key hkey
  have hk0g : me.getD 0 0 = k0 := by rw [hme0]; rfl
  have hmlen : (keyToPath (me.getD 0 0)).length = 256 := by
    rw [hk0g]; exact keyToPath_length _ hk0256
  have hlen2 : ¬ 2 ≤ R.entry.length := by rw [hentry]; simp
  obtain ⟨i0, hi0⟩ : ∃ i, k0.testBit i ≠ key.testBit i := by
    by_contra hcon
    push_neg at hcon
    exact hk0ne (Nat.eq_of_testBit_eq hcon)
  have hi0lt : i0 < 256 := by
    by_contra hcon
    push_neg at hcon
    have hb : 2 ^ 256 ≤ 2 ^ i0 := Nat.pow_le_pow_right (by norm_num) hcon
    have h1 : k0.testBit i0 = false :=
      Nat.testBit_eq_false_of_lt (lt_of_lt_of_le hk0256 hb)
    have h2 : key.testBit i0 = false :=
      Nat.testBit_eq_false_of_lt (lt_of_lt_of_le hkey hb)
    exact hi0 (h1.trans h2.symm)
  have hgetne : (keyToPath key).get? i0 ≠ (keyToPath (me.getD 0 0)).get? i0 := by
    rw [get?_eq_some_getD _ i0 (by omega), get?_eq_some_getD _ i0 (by omega),
      keyToPath_getD, keyToPath_getD, hk0g]
    intro hcon
    simp only [Option.some.injEq] at hcon
    exact hi0 hcon.symm
  have hi0ge : R.siblings.length ≤ i0 := by
    by_contra hcon
    push_neg at hcon
    have h1 : (keyToPath (me.getD 0 0)).getD i0 false
        = (keyToPath key).getD i0 false := by
      rw [← getD_take _ R.siblings.length i0 hcon,
        ← getD_take (keyToPath key) R.siblings.length i0 hcon, hplace]
    rw [keyToPath_getD, keyToPath_getD, hk0g] at h1
    exact hi0 h1
  have hsome := firstDivergence_isSome (keyToPath key) (keyToPath (me.getD 0 0))
    R.siblings.length i0 hi0ge hgetne
  rcases hdiv : firstDivergence (keyToPath key) (keyToPath (me.getD 0 0))
      R.siblings.length with _ | j
  · rw [hdiv] at hsome; cases hsome
  obtain ⟨hjge, hjne⟩ := firstDivergence_some _ _ _ _ hdiv
  have hjlt : j < 256 := by
    by_contra hcon
    push_neg at hcon
    have hp : (keyToPath key).get? j = none := List.get?_eq_none.mpr (by omega)
    have hq : (keyToPath (me.getD 0 0)).get? j = none := List.get?_eq_none.mpr (by omega)
    exact hjne (hp.trans hq.symm)
  have herr : (SMT.add hsh t key value).err = none := by
    simp [SMT.add, hret2, hlen2, hmat, hdiv, -List.getD_eq_getElem?_getD]
  obtain ⟨t2, hadd⟩ : ∃ t2, SMT.add hsh t key value = ⟨none, t2⟩ :=
    ⟨(SMT.add hsh t key value).state, by
      have heta : SMT.add hsh t key value
          = ⟨(SMT.add hsh t key value).err, (SMT.add hsh t key value).state⟩ := rfl
      rw [heta, herr]⟩
  have hslen1 : (R.siblings ++ (List.replicate (j - R.siblings.length) 0
      ++ [hsh me])).length = j + 1 := by
    simp
    omega
  have hadd2 : t2 = ⟨(addNewNodes hsh
      (mapSet (if 0 < R.siblings.length
        then deleteOldNodes hsh t.nodes (hsh me) (keyToPath key) R.siblings
        else t.nodes)
        (hsh [key, value, 1]) [key, value, 1])
      (hsh [key, value, 1]) (keyToPath key)
      (R.siblings ++ (List.replicate (j - R.siblings.length) 0 ++ [hsh me]))
      (((R.siblings ++ (List.replicate (j - R.siblings.length) 0
        ++ [hsh me])).length : ℤ) - 1)).2,
    (addNewNodes hsh
      (mapSet (if 0 < R.siblings.length
        then deleteOldNodes hsh t.nodes (hsh me) (keyToPath key) R.siblings
        else t.nodes)
        (hsh [key, value, 1]) [key, value, 1])
      (hsh [key, value, 1]) (keyToPath key)
      (R.siblings ++ (List.replicate (j - R.siblings.length) 0 ++ [hsh me]))
      (((R.siblings ++ (List.replicate (j - R.siblings.length) 0
        ++ [hsh me])).length : ℤ) - 1)).1⟩ := by
    simp [SMT.add, hret2, hlen2, hmat, hdiv, -List.getD_eq_getElem?_getD] at hadd
    rw [← hadd]
    have harith : ((R.siblings.length : ℤ) + ((j - R.siblings.length : ℕ) + 1) - 1)
        = (((R.siblings ++ (List.replicate (j - R.siblings.length) 0
          ++ [hsh me])).length : ℤ) - 1) := by
      simp
    rw [← harith]
  have htrav := addNewNodes_traverse hsh hinj hnz key (keyToPath key)
    (R.siblings ++ (List.replicate (j - R.siblings.length) 0 ++ [hsh me]))
    [key, value, 1] none
    (R.siblings ++ (List.replicate (j - R.siblings.length) 0 ++ [hsh me])).length []
    (mapSet (if 0 < R.siblings.length
      then deleteOldNodes hsh t.nodes (hsh me) (keyToPath key) R.siblings
      else t.nodes)
      (hsh [key, value, 1]) [key, value, 1])
    (hsh [key, value, 1]) []
    (by rw [hslen1, hplen]; omega)
    (add_leaf_continuation hsh hinj hnz key value _ _)
  rw [addNewNodes_toAux] at hadd2
  have hret3 : t2.retrieveEntry key = some ⟨[key, value, 1], none,
      R.siblings ++ (List.replicate (j - R.siblings.length) 0 ++ [hsh me])⟩ := by
    rw [SMT.retrieveEntry, hadd2]
    simp only []
    rw [htrav.1, List.nil_append, List.append_nil, range_map_getD]
  rw [hadd]
  refine ⟨rfl, ?_⟩
  have hpos1 : 0 < (R.siblings ++ (List.replicate (j - R.siblings.length) 0
      ++ [hsh me])).length := by simp
  have hgld1 : (R.siblings ++ (List.replicate (j - R.siblings.length) 0
      ++ [hsh me])).getLastD 0 = hsh me := by
    rw [← List.append_assoc, List.getLastD_concat]
  have hmelen3 : me.length = 3 := by rw [hme0]; rfl
  have hxn : hsh me ≠ hsh [key, value, 1] := by
    intro hcon
    have h2 := hinj hcon
    rw [hme0] at h2
    injection h2 with h3 _
    exact hk0ne h3
  have hc1 := chain_ne_of_len3 hsh hinj
    (R.siblings ++ (List.replicate (j - R.siblings.length) 0 ++ [hsh me])).length
    (hsh [key, value, 1]) (keyToPath key)
    (R.siblings ++ (List.replicate (j - R.siblings.length) 0 ++ [hsh me])) me hmelen3
  have hlook5 : lookupN (deleteOldNodes hsh (mapDelete t2.nodes (hsh [key, value, 1]))
      (hsh [key, value, 1]) (keyToPath key)
      (R.siblings ++ (List.replicate (j - R.siblings.length) 0 ++ [hsh me])))
      (hsh me) = some me := by
    rw [deleteOldNodes]
    simp only [hadd2]
    rw [lookup_after_add_delete hsh _ key value _ _ _ hc1 hxn]
    by_cases hsp : 0 < R.siblings.length
    · rw [if_pos hsp, deleteOldNodes]
      have hc0 := chain_ne_of_len3 hsh hinj R.siblings.length (hsh me) (keyToPath key)
        R.siblings me hmelen3
      rw [lookupN_deleteOldNodesAux hsh _ _ _ _ _ _ hc0]
      exact hlookme
    · rw [if_neg hsp]
      exact hlookme
  have hleafT : isLeaf (deleteOldNodes hsh (mapDelete t2.nodes (hsh [key, value, 1]))
      (hsh [key, value, 1]) (keyToPath key)
      (R.siblings ++ (List.replicate (j - R.siblings.length) 0 ++ [hsh me])))
      ((R.siblings ++ (List.replicate (j - R.siblings.length) 0
        ++ [hsh me])).getLastD 0) = true := by
    rw [hgld1]
    refine isLeaf_eq_true_of_lookup _ _ me hlook5 ?_
    rw [hme0]
    show m0 ≠ 0
    exact hm0
  have hdel : SMT.delete hsh t2 key = ⟨none, ⟨(addNewNodes hsh
      (deleteOldNodes hsh (mapDelete t2.nodes (hsh [key, value, 1]))
        (hsh [key, value, 1]) (keyToPath key)
        (R.siblings ++ (List.replicate (j - R.siblings.length) 0 ++ [hsh me])))
      ((R.siblings ++ (List.replicate (j - R.siblings.length) 0
        ++ [hsh me])).getLastD 0)
      (keyToPath key)
      (R.siblings ++ (List.replicate (j - R.siblings.length) 0 ++ [hsh me])).dropLast
      (getIndexOfLastNonZeroElement
        (R.siblings ++ (List.replicate (j - R.siblings.length) 0
          ++ [hsh me])).dropLast)).2,
    (addNewNodes hsh
      (deleteOldNodes hsh (mapDelete t2.nodes (hsh [key, value, 1]))
        (hsh [key, value, 1]) (keyToPath key)
        (R.siblings ++ (List.replicate (j - R.siblings.length) 0 ++ [hsh me])))
      ((R.siblings ++ (List.replicate (j - R.siblings.length) 0
        ++ [hsh me])).getLastD 0)
      (keyToPath key)
      (R.siblings ++ (List.replicate (j - R.siblings.length) 0 ++ [hsh me])).dropLast
      (getIndexOfLastNonZeroElement
        (R.siblings ++ (List.replicate (j - R.siblings.length) 0
          ++ [hsh me])).dropLast)).1⟩⟩ := by
    simp [SMT.delete, hret3, hpos1, hleafT, -List.getD_eq_getElem?_getD,
      -List.getLastD_eq_getLast?]
  constructor
  · show (SMT.delete hsh t2 key).err = none
    rw [hdel]
  · show (SMT.delete hsh t2 key).state.root = t.root
    rw [hdel]
    have hdrop : (R.siblings ++ (List.replicate (j - R.siblings.length) 0
        ++ [hsh me])).dropLast
        = R.siblings ++ List.replicate (j - R.siblings.length) 0 := by
      rw [← List.append_assoc, List.dropLast_concat]
    rw [hdrop, hgld1]
    rcases hdisj with ⟨hse, hrme⟩ | ⟨x, hxlast, hxne⟩
    · have hidx : getIndexOfLastNonZeroElement
          (R.siblings ++ List.replicate (j - R.siblings.length) 0) = -1 := by
        rw [getIndexOfLastNonZeroElement_append_zeros, hse]
        decide
      rw [hidx, (by decide : (-1 : ℤ) = ((0 : ℕ) : ℤ) - 1), addNewNodes_toAux2,
        addNewNodesAux_fst, hrme]
      rfl
    · have hidx : getIndexOfLastNonZeroElement
          (R.siblings ++ List.replicate (j - R.siblings.length) 0)
          = (R.siblings.length : ℤ) - 1 := by
        rw [getIndexOfLastNonZeroElement_append_zeros]
        exact getIndexOfLastNonZeroElement_last_ne R.siblings x hxlast hxne
      rw [hidx, addNewNodes_toAux2, addNewNodesAux_fst]
      have hterm2 : termNode hsh R = hsh me := by rw [termNode, hmat]
      have hcongr : calculateRootAux hsh R.siblings.length (hsh me) (keyToPath key)
          (R.siblings ++ List.replicate (j - R.siblings.length) 0)
          = calculateRootAux hsh R.siblings.length (hsh me) (keyToPath key)
          R.siblings := by
        apply calculateRootAux_congr
        · intro j2 _; rfl
        · intro j2 hj2
          exact List.getD_append _ _ _ _ hj2
      rw [hcongr, ← hterm2]
      exact hfold

/-- C5: for every well-formed prior tree state (spec section 3 invariant,
collision-free non-zero hash) and every mode-valid key not present in it,
`add(k, v)` succeeds, the following `delete(k)` succeeds, and the root is
restored to exactly its value before the `add` call. -/
theorem C5_add_delete_restores_root (hsh : List ℕ → ℕ)
    (hinj : Function.Injective hsh) (hnz : ∀ l, hsh l ≠ 0) (t : SMT)
    (key value : ℕ) (hkey : key < 2 ^ 256)
    (hsub : SubOk hsh t.nodes t.root []) (hget : t.get key = some none) :
    (SMT.add hsh t key value).err = none ∧
    (SMT.delete hsh (SMT.add hsh t key value).state key).err = none ∧
    (SMT.delete hsh (SMT.add hsh t key value).state key).state.root = t.root := by
  obtain ⟨R, hret, ⟨tail, htail⟩, hslen256, hfold, hnone, hmatch⟩ :=
    retrieve_main hsh hinj hnz t.nodes key hkey t.root [] hsub [] (by simp) (by simp)
  have hret2 : t.retrieveEntry key = some R := by
    rw [SMT.retrieveEntry]
    simpa using hret
  rw [SMT.get, hret2] at hget
  simp only [Option.map_some', Option.some.injEq] at hget
  rcases hmat : R.matchingEntry with _ | me
  · rcases hnone hmat with ⟨hentry, hdisj⟩ | ⟨v2, m, hentry, hm, _⟩
    · exact add_delete_nomatch hsh hinj hnz t key value hkey R hret2 hentry hmat
        hslen256 hfold hdisj
    · rw [hentry] at hget; simp at hget
  · obtain ⟨hentry, ⟨k0, v0, m0, hme0, hm0, hk0256, hk0ne⟩, hlookme, hplace, hdisj⟩ :=
      hmatch me hmat
    exact add_delete_match hsh hinj hnz t key value hkey R me k0 v0 m0 hret2 hentry
      hmat hme0 hm0 hk0256 hk0ne hlookme hplace hslen256 hfold hdisj

/-- Witness for C5: adding key 1 with value 2 to the empty tree and then
deleting it brings the root back to 0. -/
theorem C5_witness :
    (SMT.add hashC (⟨[], 0⟩ : SMT) 1 2).err = none ∧
    (SMT.delete hashC (SMT.add hashC (⟨[], 0⟩ : SMT) 1 2).state 1).err = none ∧
    (SMT.delete hashC (SMT.add hashC (⟨[], 0⟩ : SMT) 1 2).state 1).state.root = 0 :=
  C5_add_delete_restores_root hashC hashC_injective hashC_ne_zero ⟨[], 0⟩ 1 2
    (by norm_num) (SubOk.zero []) (by decide)

/-- Witness for C9: the empty tree and key 3. -/
theorem C9_witness :
    ∃ R, (⟨[], 0⟩ : SMT).retrieveEntry 3 = some R ∧ R.siblings.length ≤ 256 :=
  C9_retrieveEntry_terminates hashC hashC_injective hashC_ne_zero ⟨[], 0⟩ 3
    (by norm_num) (SubOk.zero [])

theorem padStart_replicate_append (m : ℕ) (l : List Bool) (L : ℕ)
    (h : m + l.length ≤ L) :
    padStart (List.replicate m false ++ l) L = padStart l L := by
  unfold padStart
  rw [List.length_append, List.length_replicate, ← List.append_assoc,
    ← List.replicate_add]
  congr 2
  omega

theorem padStart_append_right (a c : List Bool) (L : ℕ) (ha : a.length ≤ L) :
    padStart (a ++ c) (L + c.length) = padStart a L ++ c := by
  unfold padStart
  rw [List.length_append]
  have h2 : L + c.length - (a.length + c.length) = L - a.length := by omega
  rw [h2, List.append_assoc]

theorem padStart_grow (x : List Bool) (M L : ℕ) (h : x.length ≤ L) :
    padStart x (M + L) = List.replicate M false ++ padStart x L := by
  unfold padStart
  rw [← List.append_assoc, ← List.replicate_add]
  congr 2
  omega

theorem hexToBin_append (l : List ℕ) (hl : l ≠ []) (d : ℕ) :
    hexToBin (l ++ [d]) = hexToBin l ++ padStart (jsBinStr d) 4 := by
  cases l with
  | nil => exact absurd rfl hl
  | cons d0 rest =>
    show hexToBin (d0 :: (rest ++ [d])) = _
    simp [hexToBin, List.foldl_append]

theorem hexToBin_length_le (ds : List ℕ) (hdig : ∀ d ∈ ds, d < 16) :
    (hexToBin ds).length ≤ 4 * ds.length := by
  induction ds using List.reverseRecOn with
  | nil => simp [hexToBin]
  | append_singleton l d ih =>
    have hd16 : d < 16 := hdig d (by simp)
    have hjd4 : (jsBinStr d).length ≤ 4 := jsBinStr_length_le d 4 (by omega) (by omega)
    by_cases hl : l = []
    · subst hl
      show (jsBinStr d).length ≤ 4 * 1
      omega
    · rw [hexToBin_append l hl d, List.length_append,
        padStart_length _ _ hjd4, List.length_append]
      have := ih (fun x hx => hdig x (by simp [hx]))
      simp
      omega

theorem hexVal_lt (ds : List ℕ) (hdig : ∀ d ∈ ds, d < 16) :
    hexVal ds < 16 ^ ds.length := by
  induction ds using List.reverseRecOn with
  | nil => simp [hexVal]
  | append_singleton l d ih =>
    have hd16 : d < 16 := hdig d (by simp)
    have hv : hexVal (l ++ [d]) = 16 * hexVal l + d := by
      simp [hexVal, List.foldl_append]
    rw [hv, List.length_append]
    have h1 := ih (fun x hx => hdig x (by simp [hx]))
    have h2 : 16 ^ (l.length + [d].length) = 16 ^ l.length * 16 := by
      rw [List.length_singleton, Nat.pow_succ]
    omega

/-- The binary digits of `16 * v + d` are those of `v` followed by the four
bits of the digit `d`. -/
theorem natToBin_sixteen_mul_add (v d : ℕ) (hv : 1 ≤ v) (hd : d < 16) :
    natToBin (16 * v + d) = natToBin v
      ++ [decide (d / 8 = 1), decide (d / 4 % 2 = 1),
          decide (d / 2 % 2 = 1), decide (d % 2 = 1)] := by
  have e1 : 16 * v + d = 2 * (8 * v + d / 2) + d % 2 := by omega
  have e2 : 8 * v + d / 2 = 2 * (4 * v + d / 4) + d / 2 % 2 := by omega
  have e3 : 4 * v + d / 4 = 2 * (2 * v + d / 8) + d / 4 % 2 := by omega
  rw [e1, natToBin_two_mul_add (8 * v + d / 2) (d % 2) (by omega) (by omega)]
  rw [e2, natToBin_two_mul_add (4 * v + d / 4) (d / 2 % 2) (by omega) (by omega)]
  rw [e3, natToBin_two_mul_add (2 * v + d / 8) (d / 4 % 2) (by omega) (by omega)]
  rw [natToBin_two_mul_add v (d / 8) hv (by omega)]
  simp [List.append_assoc]

theorem padStart_jsBinStr_four (d : ℕ) (hd : d < 16) :
    padStart (jsBinStr d) 4 = [decide (d / 8 = 1), decide (d / 4 % 2 = 1),
      decide (d / 2 % 2 = 1), decide (d % 2 = 1)] := by
  interval_cases d <;> rfl

/-- `toString(2)` turns a shift-in of one hexadecimal digit into an append
of its four bits. -/
theorem jsBinStr_sixteen (v d : ℕ) (hv : 1 ≤ v) (hd : d < 16) :
    jsBinStr (16 * v + d) = jsBinStr v ++ padStart (jsBinStr d) 4 := by
  rw [jsBinStr, if_neg (by omega : ¬ 16 * v + d = 0), jsBinStr,
    if_neg (by omega : ¬ v = 0), natToBin_sixteen_mul_add v d hv hd,
    padStart_jsBinStr_four d hd]

/-- The digit-by-digit conversion of `hexToBin` agrees, after the 256-bit
zero-padding, with the binary form of the value the digits denote. -/
theorem hexToBin_correct (ds : List ℕ) :
    ds ≠ [] → (∀ d ∈ ds, d < 16) → ds.length ≤ 64 →
    padStart (hexToBin ds) 256 = padStart (jsBinStr (hexVal ds)) 256 := by
  induction ds using List.reverseRecOn with
  | nil => intro h; exact absurd rfl h
  | append_singleton l d ih =>
    intro _ hdig hlen
    have hd16 : d < 16 := hdig d (by simp)
    have hdl : ∀ x ∈ l, x < 16 := fun x hx => hdig x (by simp [hx])
    have hjd4 : (jsBinStr d).length ≤ 4 := jsBinStr_length_le d 4 (by omega) (by omega)
    have hp4 : (padStart (jsBinStr d) 4).length = 4 := padStart_length _ _ hjd4
    by_cases hl : l = []
    · subst hl
      rw [List.nil_append,
        show hexToBin [d] = jsBinStr d from rfl,
        show hexVal [d] = d by simp [hexVal]]
    · have hlen3 : l.length ≤ 63 := by
        rw [List.length_append, List.length_singleton] at hlen
        omega
      have hIH := ih hl hdl (by omega)
      have hhl : hexToBin (l ++ [d]) = hexToBin l ++ padStart (jsBinStr d) 4 :=
        hexToBin_append l hl d
      have hhv : hexVal (l ++ [d]) = 16 * hexVal l + d := by
        simp [hexVal, List.foldl_append]
      have hla252 : (hexToBin l).length ≤ 252 := by
        have := hexToBin_length_le l hdl
        omega
      have hvlt : hexVal l < 16 ^ l.length := hexVal_lt l hdl
      rw [hhl, hhv]
      by_cases hv0 : hexVal l = 0
      · rw [hv0] at hIH ⊢
        have h2 : padStart (jsBinStr 0) 256 = List.replicate 256 false := by
          show padStart [false] 256 = _
          unfold padStart
          rw [show [false] = List.replicate 1 (false : Bool) from rfl,
            ← List.replicate_add]
          simp
        rw [h2] at hIH
        have h3 : hexToBin l = (List.replicate 256 (false : Bool)).drop
            (256 - (hexToBin l).length) := by
          rw [← hIH]
          unfold padStart
          rw [List.drop_left' (by simp)]
        rw [List.drop_replicate] at h3
        have h4 : 256 - (256 - (hexToBin l).length) = (hexToBin l).length := by omega
        rw [h4] at h3
        rw [h3, padStart_replicate_append _ _ _ (by omega),
          show padStart (jsBinStr d) 4
            = List.replicate (4 - (jsBinStr d).length) false ++ jsBinStr d from rfl,
          padStart_replicate_append _ _ _ (by omega),
          show 16 * 0 + d = d by omega]
      · have hv1 : 1 ≤ hexVal l := by omega
        rw [jsBinStr_sixteen (hexVal l) d hv1 hd16]
        have hlb252 : (jsBinStr (hexVal l)).length ≤ 252 := by
          apply jsBinStr_length_le _ 252 _ (by omega)
          calc hexVal l < 16 ^ l.length := hvlt
            _ ≤ 16 ^ 63 := Nat.pow_le_pow_right (by omega) hlen3
            _ ≤ 2 ^ 252 := by norm_num
        have h260a := padStart_append_right (hexToBin l) (padStart (jsBinStr d) 4)
          256 (by omega)
        have h260b := padStart_append_right (jsBinStr (hexVal l))
          (padStart (jsBinStr d) 4) 256 (by omega)
        rw [hp4] at h260a h260b
        have hcomb : padStart (hexToBin l ++ padStart (jsBinStr d) 4) (256 + 4)
            = padStart (jsBinStr (hexVal l) ++ padStart (jsBinStr d) 4) (256 + 4) := by
          rw [h260a, h260b, hIH]
        rw [show (256 + 4 : ℕ) = 4 + 256 by norm_num] at hcomb
        rw [padStart_grow _ 4 256 (by rw [List.length_append, hp4]; omega),
          padStart_grow _ 4 256 (by rw [List.length_append, hp4]; omega)] at hcomb
        exact List.append_cancel_left hcomb

/-- C8: in big-number mode `keyToPath` of a key below `2 ^ 256` is exactly
the spec's path (binary form, zero-padded at the most-significant side to
256 bits, reversed) — 256 directions with index `i` holding bit `i` of the
key; and in hexadecimal mode, for every digit string `checkHex` accepts,
`keyToPathHex` computes the same 256-direction path of the denoted value. -/
theorem C8_keyToPath_correct :
    (∀ key : ℕ, key < 2 ^ 256 →
      keyToPath key = specPath key ∧ (keyToPath key).length = 256 ∧
      ∀ i, (keyToPath key).getD i false = key.testBit i) ∧
    (∀ ds : List ℕ, checkHex ds = true →
      keyToPathHex ds = specPath (hexVal ds) ∧ (keyToPathHex ds).length = 256) := by
  constructor
  · intro key hkey
    exact ⟨rfl, keyToPath_length key hkey, fun i => keyToPath_getD key i⟩
  · intro ds hds
    have hprops : 1 ≤ ds.length ∧ ds.length ≤ 64 ∧ ∀ d ∈ ds, d < 16 := by
      rw [checkHex] at hds
      simp only [Bool.and_eq_true, decide_eq_true_eq, List.all_eq_true] at hds
      exact ⟨hds.1.1, hds.1.2, fun d hd => by simpa using hds.2 d hd⟩
    obtain ⟨h1, h2, h3⟩ := hprops
    have hne : ds ≠ [] := by
      intro hcon
      rw [hcon] at h1
      simp at h1
    have hmain := hexToBin_correct ds hne h3 h2
    constructor
    · rw [keyToPathHex, specPath, hmain]
    · rw [keyToPathHex, List.length_reverse]
      apply padStart_length
      have := hexToBin_length_le ds h3
      omega

/-- Witness for C8: the key 5 in big-number mode and the digit string
`"1a"` (value 26) in hexadecimal mode. -/
theorem C8_witness :
    keyToPath 5 = specPath 5 ∧ (keyToPath 5).length = 256 ∧
    keyToPathHex [1, 10] = specPath (hexVal [1, 10]) ∧
    (keyToPathHex [1, 10]).length = 256 :=
  ⟨(C8_keyToPath_correct.1 5 (by norm_num)).1,
   (C8_keyToPath_correct.1 5 (by norm_num)).2.1,
   (C8_keyToPath_correct.2 [1, 10] (by decide)).1,
   (C8_keyToPath_correct.2 [1, 10] (by decide)).2⟩

/-! ### The logical shape of a stored tree, for insertion-order independence -/

/-- The shape of a (compressed) sparse-Merkle subtree: empty, a single
entry, or an internal node. -/
inductive Tr where
  | empty : Tr
  | leaf (k v : ℕ) : Tr
  | node (l r : Tr) : Tr
deriving DecidableEq

/-- The identifier (hash) of a subtree, as the source computes it: `0`
for the zero node, `hash(key, value, 1)` for an entry, `hash(left, right)`
for an internal node. -/
def encodeT (hsh : List ℕ → ℕ) : Tr → ℕ
  | .empty => 0
  | .leaf k v => hsh [k, v, 1]
  | .node l r => hsh [encodeT hsh l, encodeT hsh r]

/-- The stored child-array of a non-empty subtree. -/
def contentT (hsh : List ℕ → ℕ) : Tr → List ℕ
  | .empty => []
  | .leaf k v => [k, v, 1]
  | .node l r => [encodeT hsh l, encodeT hsh r]

def isNodeB : Tr → Bool
  | .node _ _ => true
  | _ => false

/-- Whether a key occurs in a shape. -/
def keyInT (key : ℕ) : Tr → Bool
  | .empty => false
  | .leaf k _ => decide (k = key)
  | .node l r => keyInT key l || keyInT key r

/-- Well-formedness of a shape at a position: entries lie on their own
path, internal nodes sit above depth 256, and a zero child's sibling is
always an internal node (the compression invariant of spec section 3). -/
inductive WfT : Tr → List Bool → Prop
  | empty (p : List Bool) : WfT .empty p
  | leaf (p : List Bool) (k v : ℕ) : k < 2 ^ 256 → p.length ≤ 256 →
      (∀ i, i < p.length → k.testBit i = p.getD i false) → WfT (.leaf k v) p
  | node (p : List Bool) (l r : Tr) : p.length < 256 →
      WfT l (p ++ [false]) → WfT r (p ++ [true]) →
      (l = .empty → isNodeB r = true) → (r = .empty → isNodeB l = true) →
      WfT (.node l r) p

/-- All bindings a shape needs from the node store. -/
def contentsOf (hsh : List ℕ → ℕ) : Tr → List (List ℕ)
  | .empty => []
  | .leaf k v => [[k, v, 1]]
  | .node l r => [encodeT hsh l, encodeT hsh r] :: (contentsOf hsh l ++ contentsOf hsh r)

/-- A shape is stored when every binding it needs is present. -/
def StoredT (hsh : List ℕ → ℕ) (nodes : NodeMap) (T : Tr) : Prop :=
  ∀ c ∈ contentsOf hsh T, lookupN nodes (hsh c) = some c

def subtreeAt : Tr → List Bool → Option Tr
  | T, [] => some T
  | .node l r, b :: p => subtreeAt (if b then r else l) p
  | .empty, _ :: _ => none
  | .leaf _ _, _ :: _ => none

def sizeT : Tr → ℕ
  | .empty => 1
  | .leaf _ _ => 1
  | .node l r => sizeT l + sizeT r + 1

/-- The subtree at which the locator stops for a key: descend by the
key's bits until the current subtree is empty or an entry. -/
def trStop (key : ℕ) : Tr → ℕ → Tr
  | .node l r, d => if key.testBit d then trStop key r (d + 1) else trStop key l (d + 1)
  | .empty, _ => .empty
  | .leaf k v, _ => .leaf k v

/-- The sibling identifiers collected while descending by the key's bits
(shallowest first, matching `retrieveEntry`). -/
def trSibs (hsh : List ℕ → ℕ) (key : ℕ) : Tr → ℕ → List ℕ
  | .node l r, d =>
      if key.testBit d then encodeT hsh l :: trSibs hsh key r (d + 1)
      else encodeT hsh r :: trSibs hsh key l (d + 1)
  | .empty, _ => []
  | .leaf _ _, _ => []

/-- The entry the locator reports for a key. -/
def trEntry (key : ℕ) (T : Tr) (d : ℕ) : List ℕ :=
  match trStop key T d with
  | .leaf k v => if k = key then [k, v, 1] else [key]
  | _ => [key]

/-- The matching entry the locator reports for a key. -/
def trMatch (key : ℕ) (T : Tr) (d : ℕ) : Option (List ℕ) :=
  match trStop key T d with
  | .leaf k v => if k = key then none else some [k, v, 1]
  | _ => none

/-- The `(identifier, content)` pairs of the internal nodes along the
key's path, deepest first — the chain `deleteOldNodes` recomputes and
removes, and `addNewNodes` rebuilds. -/
def trSpine (hsh : List ℕ → ℕ) (key : ℕ) : Tr → ℕ → List (ℕ × List ℕ)
  | .node l r, d =>
      (if key.testBit d then trSpine hsh key r (d + 1) else trSpine hsh key l (d + 1))
      ++ [(encodeT hsh (.node l r), [encodeT hsh l, encodeT hsh r])]
  | .empty, _ => []
  | .leaf _ _, _ => []

/-- The index of the lowest set bit (`fuel`-bounded). -/
def lowBitAux : ℕ → ℕ → ℕ
  | 0, _ => 0
  | fuel + 1, n => if n % 2 = 1 then 0 else lowBitAux fuel (n / 2) + 1

/-- The first bit position at which two keys differ. -/
def firstDiv (a b : ℕ) : ℕ := lowBitAux (a ^^^ b) (a ^^^ b)

/-- The chain of internal nodes `add` builds when it pushes a colliding
entry down to the first divergence level `j`: from depth `d` (`fuel`
= `j - d`) each level continues along the new key's path with a zero
sibling, and level `j` holds the two entries side by side. -/
def pushT (key value k0 v0 : ℕ) (j : ℕ) : ℕ → ℕ → Tr
  | _, 0 =>
      if key.testBit j then Tr.node (Tr.leaf k0 v0) (Tr.leaf key value)
      else Tr.node (Tr.leaf key value) (Tr.leaf k0 v0)
  | d, fuel + 1 =>
      if key.testBit d then Tr.node Tr.empty (pushT key value k0 v0 j (d + 1) fuel)
      else Tr.node (pushT key value k0 v0 j (d + 1) fuel) Tr.empty

/-- Shape-level insertion, mirroring `add`: replace the empty slot, push
a colliding entry down to the first divergence, or descend. -/
def insertT (key value : ℕ) : Tr → ℕ → Tr
  | .empty, _ => .leaf key value
  | .leaf k0 v0, d =>
      if k0 = key then .leaf key value
      else pushT key value k0 v0 (firstDiv key k0) d (firstDiv key k0 - d)
  | .node l r, d =>
      if key.testBit d then .node l (insertT key value r (d + 1))
      else .node (insertT key value l (d + 1)) r

theorem lowBitAux_spec : ∀ (fuel n : ℕ), n ≠ 0 → n ≤ fuel →
    n.testBit (lowBitAux fuel n) = true ∧
      ∀ i, i < lowBitAux fuel n → n.testBit i = false := by
  intro fuel
  induction fuel with
  | zero => intro n h1 h2; omega
  | succ f ih =>
    intro n h1 h2
    by_cases hodd : n % 2 = 1
    · rw [lowBitAux, if_pos hodd]
      constructor
      · rw [Nat.testBit_zero]
        simp [hodd]
      · intro i hi
        omega
    · rw [lowBitAux, if_neg hodd]
      have hhalf : n / 2 ≠ 0 := by omega
      have hle : n / 2 ≤ f := by omega
      obtain ⟨ih1, ih2⟩ := ih (n / 2) hhalf hle
      constructor
      · rw [Nat.testBit_succ]
        exact ih1
      · intro i hi
        cases i with
        | zero =>
          rw [Nat.testBit_zero]
          simp
          omega
        | succ i =>
          rw [Nat.testBit_succ]
          exact ih2 i (by omega)

theorem firstDiv_spec (a b : ℕ) (h : a ≠ b) :
    a.testBit (firstDiv a b) ≠ b.testBit (firstDiv a b) ∧
      ∀ i, i < firstDiv a b → a.testBit i = b.testBit i := by
  have hx : a ^^^ b ≠ 0 := fun hcon => h (Nat.xor_eq_zero.mp hcon)
  obtain ⟨h1, h2⟩ := lowBitAux_spec (a ^^^ b) (a ^^^ b) hx le_rfl
  rw [firstDiv]
  constructor
  · intro hcon
    rw [Nat.testBit_xor, hcon] at h1
    simp at h1
  · intro i hi
    have h3 := h2 i hi
    rw [Nat.testBit_xor] at h3
    revert h3
    cases ha : a.testBit i <;> cases hb : b.testBit i <;> simp

theorem firstDiv_comm (a b : ℕ) : firstDiv a b = firstDiv b a := by
  rw [firstDiv, firstDiv, Nat.xor_comm]

theorem firstDiv_lt (a b : ℕ) (ha : a < 2 ^ 256) (hb : b < 2 ^ 256) (h : a ≠ b) :
    firstDiv a b < 256 := by
  by_contra hcon
  push_neg at hcon
  have hp : 2 ^ 256 ≤ 2 ^ firstDiv a b := Nat.pow_le_pow_right (by norm_num) hcon
  have h1 : a.testBit (firstDiv a b) = false :=
    Nat.testBit_eq_false_of_lt (lt_of_lt_of_le ha hp)
  have h2 : b.testBit (firstDiv a b) = false :=
    Nat.testBit_eq_false_of_lt (lt_of_lt_of_le hb hp)
  exact (firstDiv_spec a b h).1 (h1.trans h2.symm)

theorem encodeT_ne_zero (hsh : List ℕ → ℕ) (hnz : ∀ l, hsh l ≠ 0) (T : Tr)
    (h : T ≠ .empty) : encodeT hsh T ≠ 0 := by
  cases T with
  | empty => exact absurd rfl h
  | leaf k v => exact hnz _
  | node l r => exact hnz _

theorem encodeT_inj (hsh : List ℕ → ℕ) (hinj : Function.Injective hsh)
    (hnz : ∀ l, hsh l ≠ 0) : ∀ T1 T2 : Tr, encodeT hsh T1 = encodeT hsh T2 → T1 = T2 := by
  intro T1
  induction T1 with
  | empty =>
    intro T2 h
    cases T2 with
    | empty => rfl
    | leaf k v => exact absurd h.symm (hnz _)
    | node l r => exact absurd h.symm (hnz _)
  | leaf k v =>
    intro T2 h
    cases T2 with
    | empty => exact absurd h (hnz _)
    | leaf k2 v2 =>
      have h2 := hinj h
      injection h2 with e1 h3
      injection h3 with e2 _
      rw [e1, e2]
    | node l r =>
      have h2 := hinj h
      have h3 := congrArg List.length h2
      simp at h3
  | node l r ihl ihr =>
    intro T2 h
    cases T2 with
    | empty => exact absurd h (hnz _)
    | leaf k v =>
      have h2 := hinj h
      have h3 := congrArg List.length h2
      simp at h3
    | node l2 r2 =>
      have h2 := hinj h
      injection h2 with e1 h3
      injection h3 with e2 _
      rw [ihl l2 e1, ihr r2 e2]

theorem isNodeB_pushT (key value k0 v0 j : ℕ) :
    ∀ fuel d, isNodeB (pushT key value k0 v0 j d fuel) = true := by
  intro fuel d
  cases fuel with
  | zero => rw [pushT]; split <;> rfl
  | succ f => rw [pushT]; split <;> rfl

theorem pushT_ne_empty (key value k0 v0 j fuel d : ℕ) :
    pushT key value k0 v0 j d fuel ≠ .empty := by
  intro h
  have := isNodeB_pushT key value k0 v0 j fuel d
  rw [h] at this
  cases this

theorem insertT_ne_empty (key value : ℕ) :
    ∀ (T : Tr) (d : ℕ), insertT key value T d ≠ .empty := by
  intro T d
  cases T with
  | empty => intro h; cases h
  | leaf k0 v0 =>
    rw [insertT]
    split
    · intro h; cases h
    · exact pushT_ne_empty _ _ _ _ _ _ _
  | node l r =>
    rw [insertT]
    split <;> intro h <;> cases h

theorem isNodeB_insertT_node (key value : ℕ) (l r : Tr) (d : ℕ) :
    isNodeB (insertT key value (.node l r) d) = true := by
  rw [insertT]
  split <;> rfl

theorem keyInT_pushT (q key value k0 v0 j : ℕ) :
    ∀ fuel d, keyInT q (pushT key value k0 v0 j d fuel)
      = (decide (key = q) || decide (k0 = q)) := by
  intro fuel
  induction fuel with
  | zero =>
    intro d
    rw [pushT]
    split <;> simp [keyInT, Bool.or_comm]
  | succ f ih =>
    intro d
    rw [pushT]
    split <;> simp [keyInT, ih]

theorem keyInT_insertT (q key value : ℕ) :
    ∀ (T : Tr) (d : ℕ), keyInT q (insertT key value T d)
      = (decide (key = q) || keyInT q T) := by
  intro T
  induction T with
  | empty => intro d; simp [insertT, keyInT]
  | leaf k0 v0 =>
    intro d
    rw [insertT]
    split
    · rename_i he
      subst he
      simp [keyInT]
    · rw [keyInT_pushT]
      rfl
  | node l r ihl ihr =>
    intro d
    rw [insertT]
    split
    · simp [keyInT, ihr]
      cases decide (key = q) <;> cases keyInT q l <;> cases keyInT q r <;> rfl
    · simp [keyInT, ihl]
      cases decide (key = q) <;> cases keyInT q l <;> cases keyInT q r <;> rfl

theorem getD_concat_length (p : List Bool) (b : Bool) :
    (p ++ [b]).getD p.length false = b := by
  rw [List.getD_eq_getElem?_getD, List.getElem?_append_right le_rfl]
  simp

theorem getD_concat_lt (p : List Bool) (b : Bool) (i : ℕ) (h : i < p.length) :
    (p ++ [b]).getD i false = p.getD i false :=
  List.getD_append _ _ _ _ h

theorem WfT_pushT (key value k0 v0 : ℕ) (hkey : key < 2 ^ 256)
    (hk0 : k0 < 2 ^ 256) (hne : k0 ≠ key) :
    ∀ (fuel d : ℕ) (p : List Bool), d + fuel = firstDiv key k0 → p.length = d →
      (∀ i, i < d → p.getD i false = key.testBit i) →
      WfT (pushT key value k0 v0 (firstDiv key k0) d fuel) p := by
  have hne2 : key ≠ k0 := fun h => hne h.symm
  have hj : firstDiv key k0 < 256 := firstDiv_lt key k0 hkey hk0 hne2
  have hdiff : key.testBit (firstDiv key k0) ≠ k0.testBit (firstDiv key k0) :=
    (firstDiv_spec key k0 hne2).1
  have hagree : ∀ i, i < firstDiv key k0 → key.testBit i = k0.testBit i :=
    (firstDiv_spec key k0 hne2).2
  intro fuel
  induction fuel with
  | zero =>
    intro d p hdj hlen hbits
    have hd : d = firstDiv key k0 := by omega
    rw [pushT, ← hd]
    rw [← hd] at hdiff hagree
    by_cases hb : key.testBit d = true
    · rw [if_pos hb]
      have hk0b : k0.testBit d = false := by
        cases h0 : k0.testBit d
        · rfl
        · rw [hb, h0] at hdiff; exact absurd rfl hdiff
      refine WfT.node p _ _ (by omega) ?_ ?_ (by intro h; cases h) (by intro h; cases h)
      · refine WfT.leaf _ _ _ hk0 (by simp; omega) ?_
        intro i hi
        simp at hi
        rcases Nat.lt_or_ge i d with h2 | h2
        · rw [getD_concat_lt _ _ _ (by omega), hbits i h2]
          exact (hagree i h2).symm
        · have : i = d := by omega
          subst this
          rw [← hlen, getD_concat_length]
          rw [hlen]
          exact hk0b
      · refine WfT.leaf _ _ _ hkey (by simp; omega) ?_
        intro i hi
        simp at hi
        rcases Nat.lt_or_ge i d with h2 | h2
        · rw [getD_concat_lt _ _ _ (by omega), hbits i h2]
        · have : i = d := by omega
          subst this
          rw [← hlen, getD_concat_length, hlen]
          exact hb
    · have hb2 : key.testBit d = false := by
        cases h0 : key.testBit d
        · rfl
        · exact absurd h0 hb
      rw [if_neg hb]
      have hk0b : k0.testBit d = true := by
        cases h0 : k0.testBit d
        · rw [hb2, h0] at hdiff; exact absurd rfl hdiff
        · rfl
      refine WfT.node p _ _ (by omega) ?_ ?_ (by intro h; cases h) (by intro h; cases h)
      · refine WfT.leaf _ _ _ hkey (by simp; omega) ?_
        intro i hi
        simp at hi
        rcases Nat.lt_or_ge i d with h2 | h2
        · rw [getD_concat_lt _ _ _ (by omega), hbits i h2]
        · have : i = d := by omega
          subst this
          rw [← hlen, getD_concat_length, hlen]
          exact hb2
      · refine WfT.leaf _ _ _ hk0 (by simp; omega) ?_
        intro i hi
        simp at hi
        rcases Nat.lt_or_ge i d with h2 | h2
        · rw [getD_concat_lt _ _ _ (by omega), hbits i h2]
          exact (hagree i h2).symm
        · have : i = d := by omega
          subst this
          rw [← hlen, getD_concat_length, hlen]
          exact hk0b
  | succ f ih =>
    intro d p hdj hlen hbits
    rw [pushT]
    have hstep : ∀ b : Bool, key.testBit d = b →
        WfT (pushT key value k0 v0 (firstDiv key k0) (d + 1) f) (p ++ [b]) := by
      intro b hb
      apply ih (d + 1) (p ++ [b]) (by omega) (by simp; omega)
      intro i hi
      rcases Nat.lt_or_ge i d with h2 | h2
      · rw [getD_concat_lt _ _ _ (by omega)]
        exact hbits i h2
      · have : i = d := by omega
        subst this
        rw [← hlen, getD_concat_length, hlen, hb]
    by_cases hb : key.testBit d = true
    · rw [if_pos hb]
      refine WfT.node p _ _ (by omega) (WfT.empty _) (hstep true hb) ?_ ?_
      · intro _; exact isNodeB_pushT _ _ _ _ _ _ _
      · intro h; exact absurd h (pushT_ne_empty _ _ _ _ _ _ _)
    · have hb2 : key.testBit d = false := by
        cases h0 : key.testBit d
        · rfl
        · exact absurd h0 hb
      rw [if_neg hb]
      refine WfT.node p _ _ (by omega) (hstep false hb2) (WfT.empty _) ?_ ?_
      · intro h; exact absurd h (pushT_ne_empty _ _ _ _ _ _ _)
      · intro _; exact isNodeB_pushT _ _ _ _ _ _ _

theorem WfT_insertT (key value : ℕ) (hkey : key < 2 ^ 256) :
    ∀ (T : Tr) (p : List Bool), WfT T p → p.length ≤ 256 →
      (∀ i, i < p.length → p.getD i false = key.testBit i) →
      keyInT key T = false → WfT (insertT key value T p.length) p := by
  intro T
  induction T with
  | empty =>
    intro p _ hlen hbits _
    exact WfT.leaf p key value hkey hlen (fun i hi => (hbits i hi).symm)
  | leaf k0 v0 =>
    intro p hwf hlen hbits habs
    have hk0 : k0 ≠ key := by
      rw [keyInT] at habs
      simpa using habs
    cases hwf with
    | leaf _ _ _ hk256 _ hplace =>
      rw [insertT, if_neg hk0]
      have hdle : p.length ≤ firstDiv key k0 := by
        by_contra hcon
        push_neg at hcon
        have h1 := (firstDiv_spec key k0 (fun h => hk0 h.symm)).1
        have h2 := hplace (firstDiv key k0) hcon
        have h3 := hbits (firstDiv key k0) hcon
        rw [h3] at h2
        exact h1 h2.symm
      exact WfT_pushT key value k0 v0 hkey hk256 hk0 _ _ p (by omega) rfl hbits
  | node l r ihl ihr =>
    intro p hwf hlen hbits habs
    have habsl : keyInT key l = false := by
      rw [keyInT] at habs
      exact (Bool.or_eq_false_iff.mp habs).1
    have habsr : keyInT key r = false := by
      rw [keyInT] at habs
      exact (Bool.or_eq_false_iff.mp habs).2
    cases hwf with
    | node _ _ _ hdep hwl hwr hc1 hc2 =>
      rw [insertT]
      have hbext : ∀ b : Bool, key.testBit p.length = b →
          ∀ i, i < (p ++ [b]).length → (p ++ [b]).getD i false = key.testBit i := by
        intro b hb i hi
        simp at hi
        rcases Nat.lt_or_ge i p.length with h2 | h2
        · rw [getD_concat_lt _ _ _ h2]
          exact hbits i h2
        · have : i = p.length := by omega
          subst this
          rw [getD_concat_length, hb]
      by_cases hb : key.testBit p.length = true
      · rw [if_pos hb]
        have hwr2 : WfT (insertT key value r (p.length + 1)) (p ++ [true]) := by
          have := ihr (p ++ [true]) hwr (by simp; omega) (hbext true hb) habsr
          simpa using this
        refine WfT.node p _ _ hdep hwl hwr2 ?_ ?_
        · intro he
          have hrn := hc1 he
          cases r with
          | empty => simp [isNodeB] at hrn
          | leaf k2 v2 => simp [isNodeB] at hrn
          | node l2 r2 => exact isNodeB_insertT_node _ _ _ _ _
        · intro he
          exact absurd he (insertT_ne_empty _ _ _ _)
      · have hb2 : key.testBit p.length = false := by
          cases h0 : key.testBit p.length
          · rfl
          · exact absurd h0 hb
        rw [if_neg hb]
        have hwl2 : WfT (insertT key value l (p.length + 1)) (p ++ [false]) := by
          have := ihl (p ++ [false]) hwl (by simp; omega) (hbext false hb2) habsl
          simpa using this
        refine WfT.node p _ _ hdep hwl2 hwr ?_ ?_
        · intro he
          exact absurd he (insertT_ne_empty _ _ _ _)
        · intro he
          have hln := hc2 he
          cases l with
          | empty => simp [isNodeB] at hln
          | leaf k2 v2 => simp [isNodeB] at hln
          | node l2 r2 => exact isNodeB_insertT_node _ _ _ _ _

theorem le_firstDiv_of_agree (x y d : ℕ) (hxy : x ≠ y)
    (h : ∀ i, i < d → x.testBit i = y.testBit i) : d ≤ firstDiv x y := by
  by_contra hcon
  push_neg at hcon
  exact (firstDiv_spec x y hxy).1 (h _ hcon)

theorem testBit_opp (x y : ℕ) (i : ℕ) (h : x.testBit i ≠ y.testBit i) :
    x.testBit i = !y.testBit i := by
  cases hx : x.testBit i <;> cases hy : y.testBit i <;> simp_all

/-- Two entries pushed down to their first divergence form the same chain
whichever of them arrived second. -/
theorem pushT_swap (a av b bv j : ℕ) (hdiff : a.testBit j ≠ b.testBit j) :
    ∀ fuel d, d + fuel = j → (∀ i, i < j → a.testBit i = b.testBit i) →
      pushT b bv a av j d fuel = pushT a av b bv j d fuel := by
  intro fuel
  induction fuel with
  | zero =>
    intro d hd hagree
    rw [pushT, pushT]
    by_cases hb : b.testBit j = true
    · rw [if_pos hb]
      have ha : a.testBit j = false := by
        rw [testBit_opp a b j hdiff, hb]
        rfl
      rw [if_neg (by rw [ha]; exact Bool.false_ne_true)]
    · have hb2 : b.testBit j = false := by
        cases h0 : b.testBit j
        · rfl
        · exact absurd h0 hb
      rw [if_neg hb]
      have ha : a.testBit j = true := by
        rw [testBit_opp a b j hdiff, hb2]
        rfl
      rw [if_pos ha]
  | succ f ih =>
    intro d hd hagree
    rw [pushT, pushT]
    have hbit : b.testBit d = a.testBit d := (hagree d (by omega)).symm
    rw [hbit]
    rw [ih (d + 1) (by omega) hagree]

/-- Inserting `b` after `a` when `a` diverges from the occupying entry
`k0` strictly earlier than `b` does: `b` follows `k0` through `a`'s chain
and pushes `k0` further down, landing in the same tree as the other
insertion order. -/
theorem insert_insert_leaf_lt (a av b bv k0 v0 : ℕ) (ha0 : k0 ≠ a) (hb0 : k0 ≠ b)
    (hlt : firstDiv a k0 < firstDiv b k0) :
    ∀ fuel d, d + fuel = firstDiv a k0 →
      insertT b bv (pushT a av k0 v0 (firstDiv a k0) d fuel) d
        = insertT a av (pushT b bv k0 v0 (firstDiv b k0) d (firstDiv b k0 - d)) d := by
  have ha0' : a ≠ k0 := fun h => ha0 h.symm
  have hb0' : b ≠ k0 := fun h => hb0 h.symm
  have haspec := firstDiv_spec a k0 ha0'
  have hbspec := firstDiv_spec b k0 hb0'
  have hab_agree : ∀ i, i < firstDiv a k0 → b.testBit i = a.testBit i := by
    intro i hi
    rw [haspec.2 i hi, hbspec.2 i (by omega)]
  have hbja : b.testBit (firstDiv a k0) ≠ a.testBit (firstDiv a k0) := by
    rw [hbspec.2 _ hlt]
    exact fun h => haspec.1 h.symm
  intro fuel
  induction fuel with
  | zero =>
    intro d hd
    have hdj : d = firstDiv a k0 := by omega
    obtain ⟨f, hf⟩ : ∃ f, firstDiv b k0 - d = f + 1 := ⟨firstDiv b k0 - d - 1, by omega⟩
    have hff : firstDiv b k0 - (d + 1) = f := by omega
    have hbja_d : b.testBit d ≠ a.testBit d := by rw [hdj]; exact hbja
    rw [pushT, hf, pushT]
    by_cases hb : a.testBit (firstDiv a k0) = true
    · have had : a.testBit d = true := by rw [hdj]; exact hb
      have hbd : b.testBit d = false := by
        rw [testBit_opp b a d hbja_d, had]
        rfl
      rw [if_pos hb, if_neg (by rw [hbd]; exact Bool.false_ne_true)]
      conv_lhs => rw [insertT, if_neg (by rw [hbd]; exact Bool.false_ne_true),
        insertT, if_neg hb0]
      conv_rhs => rw [insertT, if_pos had, insertT]
      rw [hff]
    · have had : a.testBit d = false := by
        rw [hdj]
        cases h0 : a.testBit (firstDiv a k0)
        · rfl
        · exact absurd h0 hb
      have hbd : b.testBit d = true := by
        rw [testBit_opp b a d hbja_d, had]
        rfl
      rw [if_neg hb, if_pos hbd]
      conv_lhs => rw [insertT, if_pos hbd, insertT, if_neg hb0]
      conv_rhs => rw [insertT, if_neg (by rw [had]; exact Bool.false_ne_true), insertT]
      rw [hff]
  | succ f ih =>
    intro d hd
    obtain ⟨f2, hf2⟩ : ∃ f2, firstDiv b k0 - d = f2 + 1 := ⟨firstDiv b k0 - d - 1, by omega⟩
    have hff : firstDiv b k0 - (d + 1) = f2 := by omega
    have hbd : b.testBit d = a.testBit d := hab_agree d (by omega)
    rw [pushT, hf2, pushT]
    by_cases hb : a.testBit d = true
    · rw [if_pos hb, if_pos (by rw [hbd]; exact hb)]
      conv_lhs => rw [insertT, if_pos (by rw [hbd]; exact hb)]
      conv_rhs => rw [insertT, if_pos hb]
      rw [← hff, ih (d + 1) (by omega)]
    · have hb2 : a.testBit d = false := by
        cases h0 : a.testBit d
        · rfl
        · exact absurd h0 hb
      rw [if_neg hb, if_neg (by rw [hbd]; exact hb)]
      conv_lhs => rw [insertT, if_neg (by rw [hbd]; exact hb)]
      conv_rhs => rw [insertT, if_neg hb]
      rw [← hff, ih (d + 1) (by omega)]

/-- Inserting `a` then `b` when both diverge from the occupying entry
`k0` at the same level: the second new entry follows the first into the
side opposite `k0`, and the two settle their own divergence deeper; the
two insertion orders build the same chain. -/
theorem insert_insert_leaf_eq (a av b bv k0 v0 : ℕ) (ha0 : k0 ≠ a) (hb0 : k0 ≠ b)
    (hab : a ≠ b) (heq : firstDiv a k0 = firstDiv b k0) :
    ∀ fuel d, d + fuel = firstDiv a k0 →
      insertT b bv (pushT a av k0 v0 (firstDiv a k0) d fuel) d
        = insertT a av (pushT b bv k0 v0 (firstDiv b k0) d fuel) d := by
  have ha0' : a ≠ k0 := fun h => ha0 h.symm
  have hb0' : b ≠ k0 := fun h => hb0 h.symm
  have hba : b ≠ a := fun h => hab h.symm
  have haspec := firstDiv_spec a k0 ha0'
  have hbspec := firstDiv_spec b k0 hb0'
  have habspec := firstDiv_spec a b hab
  have hsame : b.testBit (firstDiv a k0) = a.testBit (firstDiv a k0) := by
    have h1 := haspec.1
    have h2 : b.testBit (firstDiv a k0) ≠ k0.testBit (firstDiv a k0) := by
      rw [heq]; exact hbspec.1
    rw [testBit_opp b k0 _ h2, testBit_opp a k0 _ h1]
  have hab_agree : ∀ i, i < firstDiv a k0 → b.testBit i = a.testBit i := by
    intro i hi
    rw [haspec.2 i hi, hbspec.2 i (by omega)]
  have hja : firstDiv a k0 < firstDiv a b := by
    by_contra hcon
    push_neg at hcon
    have hd := habspec.1
    rcases Nat.lt_or_eq_of_le hcon with h2 | h2
    · exact hd (hab_agree _ h2).symm
    · rw [h2] at hd
      exact hd hsame.symm
  intro fuel
  induction fuel with
  | zero =>
    intro d hd
    have hdj : d = firstDiv a k0 := by omega
    rw [pushT, pushT, ← heq]
    by_cases hba2 : a.testBit (firstDiv a k0) = true
    · have hbb : b.testBit (firstDiv a k0) = true := by rw [hsame]; exact hba2
      have had : a.testBit d = true := by rw [hdj]; exact hba2
      have hbd : b.testBit d = true := by rw [hdj]; exact hbb
      rw [if_pos hba2, if_pos hbb]
      conv_lhs => rw [insertT, if_pos hbd, insertT, if_neg hab]
      conv_rhs => rw [insertT, if_pos had, insertT, if_neg hba]
      rw [firstDiv_comm b a]
      rw [pushT_swap a av b bv (firstDiv a b) habspec.1 _ (d + 1) (by omega)
        (fun i hi => habspec.2 i hi)]
    · have hba3 : a.testBit (firstDiv a k0) = false := by
        cases h0 : a.testBit (firstDiv a k0)
        · rfl
        · exact absurd h0 hba2
      have hbb : b.testBit (firstDiv a k0) = false := by rw [hsame]; exact hba3
      have had : a.testBit d = false := by rw [hdj]; exact hba3
      have hbd : b.testBit d = false := by rw [hdj]; exact hbb
      rw [if_neg (by rw [hba3]; exact Bool.false_ne_true),
        if_neg (by rw [hbb]; exact Bool.false_ne_true)]
      conv_lhs => rw [insertT, if_neg (by rw [hbd]; exact Bool.false_ne_true),
        insertT, if_neg hab]
      conv_rhs => rw [insertT, if_neg (by rw [had]; exact Bool.false_ne_true),
        insertT, if_neg hba]
      rw [firstDiv_comm b a]
      rw [pushT_swap a av b bv (firstDiv a b) habspec.1 _ (d + 1) (by omega)
        (fun i hi => habspec.2 i hi)]
  | succ f ih =>
    intro d hd
    have hbd : b.testBit d = a.testBit d := hab_agree d (by omega)
    rw [pushT, pushT]
    by_cases hb : a.testBit d = true
    · rw [if_pos hb, if_pos (by rw [hbd]; exact hb)]
      conv_lhs => rw [insertT, if_pos (by rw [hbd]; exact hb)]
      conv_rhs => rw [insertT, if_pos hb]
      rw [ih (d + 1) (by omega)]
    · rw [if_neg hb, if_neg (by rw [hbd]; exact hb)]
      conv_lhs => rw [insertT, if_neg (by rw [hbd]; exact hb)]
      conv_rhs => rw [insertT, if_neg hb]
      rw [ih (d + 1) (by omega)]

/-- Shape-level insertion of two distinct fresh keys commutes. -/
theorem insertT_comm (a av b bv : ℕ) (hab : a ≠ b) :
    ∀ (T : Tr) (p : List Bool), WfT T p →
      (∀ i, i < p.length → p.getD i false = a.testBit i) →
      (∀ i, i < p.length → p.getD i false = b.testBit i) →
      keyInT a T = false → keyInT b T = false →
      insertT b bv (insertT a av T p.length) p.length
        = insertT a av (insertT b bv T p.length) p.length := by
  have hba : b ≠ a := fun h => hab h.symm
  intro T
  induction T with
  | empty =>
    intro p _ hpa hpb _ _
    have hd1 : p.length ≤ firstDiv b a := le_firstDiv_of_agree b a p.length hba
      (fun i hi => by rw [← hpb i hi, hpa i hi])
    have hd2 : p.length ≤ firstDiv a b := by
      rw [firstDiv_comm]
      exact hd1
    conv_lhs => rw [insertT, insertT, if_neg hab]
    conv_rhs => rw [insertT, insertT, if_neg hba]
    rw [firstDiv_comm b a]
    exact pushT_swap a av b bv (firstDiv a b) (firstDiv_spec a b hab).1
      (firstDiv a b - p.length) p.length (by omega)
      (fun i hi => (firstDiv_spec a b hab).2 i hi)
  | leaf k0 v0 =>
    intro p hwf hpa hpb hia hib
    have hk0a : k0 ≠ a := by rw [keyInT] at hia; simpa using hia
    have hk0b : k0 ≠ b := by rw [keyInT] at hib; simpa using hib
    cases hwf with
    | leaf _ _ _ hk256 hp256 hplace =>
      have hda : p.length ≤ firstDiv a k0 :=
        le_firstDiv_of_agree a k0 p.length (fun h => hk0a h.symm)
          (fun i hi => by rw [← hpa i hi]; exact (hplace i hi).symm)
      have hdb : p.length ≤ firstDiv b k0 :=
        le_firstDiv_of_agree b k0 p.length (fun h => hk0b h.symm)
          (fun i hi => by rw [← hpb i hi]; exact (hplace i hi).symm)
      conv_lhs => rw [insertT, if_neg hk0a]
      conv_rhs => rw [insertT, if_neg hk0b]
      rcases Nat.lt_trichotomy (firstDiv a k0) (firstDiv b k0) with hlt | heq | hgt
      · exact insert_insert_leaf_lt a av b bv k0 v0 hk0a hk0b hlt
          (firstDiv a k0 - p.length) p.length (by omega)
      · have hfe : firstDiv b k0 - p.length = firstDiv a k0 - p.length := by omega
        rw [hfe]
        exact insert_insert_leaf_eq a av b bv k0 v0 hk0a hk0b hab heq
          (firstDiv a k0 - p.length) p.length (by omega)
      · exact (insert_insert_leaf_lt b bv a av k0 v0 hk0b hk0a hgt
          (firstDiv b k0 - p.length) p.length (by omega)).symm
  | node l r ihl ihr =>
    intro p hwf hpa hpb hia hib
    rw [keyInT] at hia hib
    have hial : keyInT a l = false := (Bool.or_eq_false_iff.mp hia).1
    have hiar : keyInT a r = false := (Bool.or_eq_false_iff.mp hia).2
    have hibl : keyInT b l = false := (Bool.or_eq_false_iff.mp hib).1
    have hibr : keyInT b r = false := (Bool.or_eq_false_iff.mp hib).2
    cases hwf with
    | node _ _ _ hdep hwl hwr _ _ =>
      have hext : ∀ (x : ℕ) (c : Bool), x.testBit p.length = c →
          (∀ i, i < p.length → p.getD i false = x.testBit i) →
          ∀ i, i < (p ++ [c]).length → (p ++ [c]).getD i false = x.testBit i := by
        intro x c hc hx i hi
        simp at hi
        rcases Nat.lt_or_ge i p.length with h2 | h2
        · rw [getD_concat_lt _ _ _ h2]
          exact hx i h2
        · have : i = p.length := by omega
          subst this
          rw [getD_concat_length, hc]
      by_cases ha1 : a.testBit p.length = true <;>
        by_cases hb1 : b.testBit p.length = true
      · conv_lhs => rw [insertT, if_pos ha1, insertT, if_pos hb1]
        conv_rhs => rw [insertT, if_pos hb1, insertT, if_pos ha1]
        have h3 := ihr (p ++ [true]) hwr (hext a true ha1 hpa) (hext b true hb1 hpb)
          hiar hibr
        simp only [List.length_append, List.length_cons, List.length_nil] at h3
        rw [h3]
      · have hb2 : b.testBit p.length = false := by
          cases h0 : b.testBit p.length
          · rfl
          · exact absurd h0 hb1
        conv_lhs => rw [insertT, if_pos ha1, insertT,
          if_neg (by rw [hb2]; exact Bool.false_ne_true)]
        conv_rhs => rw [insertT, if_neg (by rw [hb2]; exact Bool.false_ne_true),
          insertT, if_pos ha1]
      · have ha2 : a.testBit p.length = false := by
          cases h0 : a.testBit p.length
          · rfl
          · exact absurd h0 ha1
        conv_lhs => rw [insertT, if_neg (by rw [ha2]; exact Bool.false_ne_true),
          insertT, if_pos hb1]
        conv_rhs => rw [insertT, if_pos hb1, insertT,
          if_neg (by rw [ha2]; exact Bool.false_ne_true)]
      · have ha2 : a.testBit p.length = false := by
          cases h0 : a.testBit p.length
          · rfl
          · exact absurd h0 ha1
        have hb2 : b.testBit p.length = false := by
          cases h0 : b.testBit p.length
          · rfl
          · exact absurd h0 hb1
        conv_lhs => rw [insertT, if_neg (by rw [ha2]; exact Bool.false_ne_true),
          insertT, if_neg (by rw [hb2]; exact Bool.false_ne_true)]
        conv_rhs => rw [insertT, if_neg (by rw [hb2]; exact Bool.false_ne_true),
          insertT, if_neg (by rw [ha2]; exact Bool.false_ne_true)]
        have h3 := ihl (p ++ [false]) hwl (hext a false ha2 hpa) (hext b false hb2 hpb)
          hial hibl
        simp only [List.length_append, List.length_cons, List.length_nil] at h3
        rw [h3]

/-- Folding shape-level insertion over a list of entries. -/
def insertAll (l : List (ℕ × ℕ)) (T : Tr) : Tr :=
  l.foldl (fun T2 kv => insertT kv.1 kv.2 T2 0) T

theorem insertAll_cons (kv : ℕ × ℕ) (l : List (ℕ × ℕ)) (T : Tr) :
    insertAll (kv :: l) T = insertAll l (insertT kv.1 kv.2 T 0) := rfl

theorem WfT_insertT_root (key value : ℕ) (hkey : key < 2 ^ 256) (T : Tr)
    (hwf : WfT T []) (habs : keyInT key T = false) :
    WfT (insertT key value T 0) [] := by
  have := WfT_insertT key value hkey T [] hwf (by simp)
    (fun i hi => absurd hi (by simp)) habs
  simpa using this

/-- Inserting a distinct-key entry list into a well-formed shape is
order independent. -/
theorem insertAll_perm (l1 l2 : List (ℕ × ℕ)) (hperm : l1.Perm l2) :
    ∀ T : Tr, WfT T [] → (∀ kv ∈ l1, kv.1 < 2 ^ 256) →
      (∀ kv ∈ l1, keyInT kv.1 T = false) → (l1.map Prod.fst).Nodup →
      insertAll l1 T = insertAll l2 T := by
  induction hperm with
  | nil => intro T _ _ _ _; rfl
  | cons x h ih =>
    rename_i t1 t2
    intro T hwf hbound habs hnd
    rw [insertAll_cons, insertAll_cons]
    have hx256 : x.1 < 2 ^ 256 := hbound x (by simp)
    have hxabs : keyInT x.1 T = false := habs x (by simp)
    have hwf2 : WfT (insertT x.1 x.2 T 0) [] :=
      WfT_insertT_root x.1 x.2 hx256 T hwf hxabs
    have hndt : (t1.map Prod.fst).Nodup := by
      rw [List.map_cons] at hnd
      exact hnd.of_cons
    have hne : ∀ kv ∈ t1, x.1 ≠ kv.1 := by
      intro kv hkv hcon
      rw [List.map_cons] at hnd
      have := (List.nodup_cons.mp hnd).1
      exact this (hcon ▸ List.mem_map_of_mem Prod.fst hkv)
    apply ih
    · exact hwf2
    · intro kv hkv
      exact hbound kv (by simp [hkv])
    · intro kv hkv
      rw [keyInT_insertT]
      have h1 : decide (x.1 = kv.1) = false := by
        simp
        exact hne kv hkv
      rw [h1]
      simp
      have := habs kv (by simp [hkv])
      simpa using this
    · exact hndt
  | swap x y l =>
    intro T hwf hbound habs hnd
    rw [insertAll_cons, insertAll_cons, insertAll_cons, insertAll_cons]
    have hxy : y.1 ≠ x.1 := by
      rw [List.map_cons, List.map_cons] at hnd
      have h1 := (List.nodup_cons.mp hnd).1
      intro hcon
      exact h1 (by rw [hcon]; exact List.mem_cons_self _ _)
    have hcomm := insertT_comm y.1 y.2 x.1 x.2 hxy T [] hwf
      (fun i hi => absurd hi (by simp)) (fun i hi => absurd hi (by simp))
      (habs y (by simp)) (habs x (by simp))
    simp only [List.length_nil] at hcomm
    rw [hcomm]
  | trans h12 h23 ih12 ih23 =>
    rename_i l1 l2 l3
    intro T hwf hbound habs hnd
    rw [ih12 T hwf hbound habs hnd]
    apply ih23 T hwf
    · intro kv hkv
      exact hbound kv (h12.mem_iff.mpr hkv)
    · intro kv hkv
      exact habs kv (h12.mem_iff.mpr hkv)
    · exact (h12.map Prod.fst).nodup_iff.mp hnd

theorem trStop_node (key : ℕ) (l r : Tr) (d : ℕ) :
    trStop key (.node l r) d
      = if key.testBit d then trStop key r (d + 1) else trStop key l (d + 1) := by
  rw [trStop.eq_def]

theorem trEntry_node (key : ℕ) (l r : Tr) (d : ℕ) :
    trEntry key (.node l r) d
      = if key.testBit d then trEntry key r (d + 1) else trEntry key l (d + 1) := by
  by_cases h : key.testBit d = true
  · rw [trEntry, trStop_node, if_pos h, if_pos h]
    rfl
  · rw [trEntry, trStop_node, if_neg h, if_neg h]
    rfl

theorem trMatch_node (key : ℕ) (l r : Tr) (d : ℕ) :
    trMatch key (.node l r) d
      = if key.testBit d then trMatch key r (d + 1) else trMatch key l (d + 1) := by
  by_cases h : key.testBit d = true
  · rw [trMatch, trStop_node, if_pos h, if_pos h]
    rfl
  · rw [trMatch, trStop_node, if_neg h, if_neg h]
    rfl

/-- The traversal on a stored well-formed shape returns exactly the
shape-level locator result. -/
theorem retrieve_shape (hsh : List ℕ → ℕ) (hnz : ∀ l, hsh l ≠ 0) (nodes : NodeMap)
    (key : ℕ) (hkey : key < 2 ^ 256) :
    ∀ (T : Tr) (d : ℕ), d ≤ 256 → WfT T ((keyToPath key).take d) →
      StoredT hsh nodes T →
      ∀ acc : List ℕ, acc.length = d →
      retrieveEntryAux key nodes ((keyToPath key).drop d) (encodeT hsh T) acc
        = some ⟨trEntry key T d, trMatch key T d, acc ++ trSibs hsh key T d⟩ := by
  have hplen := keyToPath_length key hkey
  intro T
  induction T with
  | empty =>
    intro d _ _ _ acc _
    rw [show encodeT hsh Tr.empty = 0 from rfl, retrieveEntryAux_zero]
    rw [show trEntry key Tr.empty d = [key] from rfl,
      show trMatch key Tr.empty d = none from rfl,
      show trSibs hsh key Tr.empty d = [] from rfl, List.append_nil]
  | leaf k v =>
    intro d _ _ hst acc _
    have hlook : lookupN nodes (hsh [k, v, 1]) = some [k, v, 1] :=
      hst _ (by simp [contentsOf])
    by_cases hk : k = key
    · rw [show encodeT hsh (Tr.leaf k v) = hsh [k, v, 1] from rfl,
        retrieveEntryAux_leaf_found key nodes _ _ acc [k, v, 1] (hnz _) hlook
          (by simp) (by simpa using hk)]
      rw [show trEntry key (Tr.leaf k v) d = (if k = key then [k, v, 1] else [key])
          from rfl,
        show trMatch key (Tr.leaf k v) d = (if k = key then none else some [k, v, 1])
          from rfl,
        show trSibs hsh key (Tr.leaf k v) d = [] from rfl,
        if_pos hk, if_pos hk, List.append_nil]
    · rw [show encodeT hsh (Tr.leaf k v) = hsh [k, v, 1] from rfl,
        retrieveEntryAux_leaf_matching key nodes _ _ acc [k, v, 1] (hnz _) hlook
          (by simp) (by simpa using hk)]
      rw [show trEntry key (Tr.leaf k v) d = (if k = key then [k, v, 1] else [key])
          from rfl,
        show trMatch key (Tr.leaf k v) d = (if k = key then none else some [k, v, 1])
          from rfl,
        show trSibs hsh key (Tr.leaf k v) d = [] from rfl,
        if_neg hk, if_neg hk, List.append_nil]
  | node l r ihl ihr =>
    intro d hd hwf hst acc hlen
    cases hwf with
    | node _ _ _ hdep hwl hwr _ _ =>
      have hdlt : d < 256 := by
        have h2 : ((keyToPath key).take d).length = d := by
          rw [List.length_take, hplen]
          omega
        omega
      have hlook : lookupN nodes (hsh [encodeT hsh l, encodeT hsh r])
          = some [encodeT hsh l, encodeT hsh r] := hst _ (by simp [contentsOf])
      have hstl : StoredT hsh nodes l := fun c hc => hst c (by
        rw [contentsOf]
        simp [hc])
      have hstr : StoredT hsh nodes r := fun c hc => hst c (by
        rw [contentsOf]
        simp [hc])
      have hbit : (keyToPath key).getD d false = key.testBit d := keyToPath_getD key d
      have hdrop : (keyToPath key).drop d
          = (keyToPath key).getD d false :: (keyToPath key).drop (d + 1) := by
        rw [List.drop_eq_getElem_cons (by omega)]
        congr 1
        rw [List.getD_eq_getElem?_getD, List.getElem?_eq_getElem (by omega)]
        rfl
      have htake : (keyToPath key).take (d + 1)
          = (keyToPath key).take d ++ [key.testBit d] := by
        have h1 := List.take_concat_get' (keyToPath key) d (by omega)
        rw [← h1]
        congr 1
        rw [← hbit, List.getD_eq_getElem?_getD, List.getElem?_eq_getElem (by omega)]
        rfl
      rw [show encodeT hsh (Tr.node l r) = hsh [encodeT hsh l, encodeT hsh r] from rfl,
        hdrop, retrieveEntryAux_internal key nodes _ _ _ _ _ (hnz _) hlook rfl, hbit]
      by_cases hdir : key.testBit d = true
      · rw [if_pos hdir, if_pos hdir]
        simp only [List.getD_cons_succ, List.getD_cons_zero]
        have hwr2 : WfT r ((keyToPath key).take (d + 1)) := by
          rw [htake, hdir]
          exact hwr
        have h3 := ihr (d + 1) (by omega) hwr2 hstr (acc ++ [encodeT hsh l])
          (by simp [hlen])
        rw [h3, trEntry_node, if_pos hdir, trMatch_node, if_pos hdir, trSibs,
          if_pos hdir]
        simp [List.append_assoc]
      · have hdir2 : key.testBit d = false := by
          cases h0 : key.testBit d
          · rfl
          · exact absurd h0 hdir
        rw [if_neg hdir, if_neg hdir]
        simp only [List.getD_cons_succ, List.getD_cons_zero]
        have hwl2 : WfT l ((keyToPath key).take (d + 1)) := by
          rw [htake, hdir2]
          exact hwl
        have h3 := ihl (d + 1) (by omega) hwl2 hstl (acc ++ [encodeT hsh r])
          (by simp [hlen])
        rw [h3, trEntry_node, if_neg hdir, trMatch_node, if_neg hdir, trSibs,
          if_neg hdir]
        simp [List.append_assoc]

theorem trSibs_node_pos (hsh : List ℕ → ℕ) (key : ℕ) (l r : Tr) (d : ℕ)
    (h : key.testBit d = true) :
    trSibs hsh key (.node l r) d = encodeT hsh l :: trSibs hsh key r (d + 1) := by
  rw [trSibs, if_pos h]

theorem trSibs_node_neg (hsh : List ℕ → ℕ) (key : ℕ) (l r : Tr) (d : ℕ)
    (h : key.testBit d = false) :
    trSibs hsh key (.node l r) d = encodeT hsh r :: trSibs hsh key l (d + 1) := by
  rw [trSibs, if_neg (by rw [h]; exact Bool.false_ne_true)]

theorem trSpine_node_pos (hsh : List ℕ → ℕ) (key : ℕ) (l r : Tr) (d : ℕ)
    (h : key.testBit d = true) :
    trSpine hsh key (.node l r) d = trSpine hsh key r (d + 1)
      ++ [(encodeT hsh (.node l r), [encodeT hsh l, encodeT hsh r])] := by
  rw [trSpine, if_pos h]

theorem trSpine_node_neg (hsh : List ℕ → ℕ) (key : ℕ) (l r : Tr) (d : ℕ)
    (h : key.testBit d = false) :
    trSpine hsh key (.node l r) d = trSpine hsh key l (d + 1)
      ++ [(encodeT hsh (.node l r), [encodeT hsh l, encodeT hsh r])] := by
  rw [trSpine, if_neg (by rw [h]; exact Bool.false_ne_true)]

/-- Folding the shape-level siblings from the stop node back up
reconstructs the subtree's identifier. -/
theorem calcAux_shape (hsh : List ℕ → ℕ) (key : ℕ) :
    ∀ (T : Tr) (d : ℕ) (acc : List ℕ), acc.length = d →
      calculateRootAux hsh (acc ++ trSibs hsh key T d).length
          (encodeT hsh (trStop key T d)) (keyToPath key) (acc ++ trSibs hsh key T d)
        = calculateRootAux hsh d (encodeT hsh T) (keyToPath key)
            (acc ++ trSibs hsh key T d) := by
  intro T
  induction T with
  | empty =>
    intro d acc hlen
    rw [show trStop key Tr.empty d = Tr.empty from rfl,
      show trSibs hsh key Tr.empty d = [] from rfl, List.append_nil, hlen]
  | leaf k v =>
    intro d acc hlen
    rw [show trStop key (Tr.leaf k v) d = Tr.leaf k v from rfl,
      show trSibs hsh key (Tr.leaf k v) d = [] from rfl, List.append_nil, hlen]
  | node l r ihl ihr =>
    intro d acc hlen
    by_cases hdir : key.testBit d = true
    · rw [trStop_node, if_pos hdir, trSibs_node_pos hsh key l r _ hdir]
      have hS : acc ++ encodeT hsh l :: trSibs hsh key r (d + 1)
          = (acc ++ [encodeT hsh l]) ++ trSibs hsh key r (d + 1) := by
        simp
      rw [hS, ihr (d + 1) (acc ++ [encodeT hsh l]) (by simp [hlen])]
      have hgd : ((acc ++ [encodeT hsh l]) ++ trSibs hsh key r (d + 1)).getD d 0
          = encodeT hsh l := by
        rw [← hlen, List.append_assoc, List.singleton_append, getD_append_self]
      rw [calculateRootAux]
      congr 1
      rw [keyToPath_getD, if_pos hdir, hgd]
      rfl
    · have hdir2 : key.testBit d = false := by
        cases h0 : key.testBit d
        · rfl
        · exact absurd h0 hdir
      rw [trStop_node, if_neg hdir, trSibs_node_neg hsh key l r _ hdir2]
      have hS : acc ++ encodeT hsh r :: trSibs hsh key l (d + 1)
          = (acc ++ [encodeT hsh r]) ++ trSibs hsh key l (d + 1) := by
        simp
      rw [hS, ihl (d + 1) (acc ++ [encodeT hsh r]) (by simp [hlen])]
      have hgd : ((acc ++ [encodeT hsh r]) ++ trSibs hsh key l (d + 1)).getD d 0
          = encodeT hsh r := by
        rw [← hlen, List.append_assoc, List.singleton_append, getD_append_self]
      rw [calculateRootAux]
      congr 1
      rw [keyToPath_getD, if_neg (by rw [hdir2]; exact Bool.false_ne_true), hgd]
      rfl

/-- The chain `deleteOldNodes` recomputes from the locator's result is
exactly the spine of the traversed subtree, deepest node first. -/
theorem foldChain_shape_eq (hsh : List ℕ → ℕ) (key : ℕ) :
    ∀ (T : Tr) (d : ℕ) (acc : List ℕ), acc.length = d →
      foldChain hsh (acc ++ trSibs hsh key T d).length
          (encodeT hsh (trStop key T d)) (keyToPath key) (acc ++ trSibs hsh key T d)
        = trSpine hsh key T d
          ++ foldChain hsh d (encodeT hsh T) (keyToPath key)
              (acc ++ trSibs hsh key T d) := by
  intro T
  induction T with
  | empty =>
    intro d acc hlen
    rw [show trStop key Tr.empty d = Tr.empty from rfl,
      show trSibs hsh key Tr.empty d = [] from rfl,
      show trSpine hsh key Tr.empty d = [] from rfl, List.append_nil,
      List.nil_append, hlen]
  | leaf k v =>
    intro d acc hlen
    rw [show trStop key (Tr.leaf k v) d = Tr.leaf k v from rfl,
      show trSibs hsh key (Tr.leaf k v) d = [] from rfl,
      show trSpine hsh key (Tr.leaf k v) d = [] from rfl, List.append_nil,
      List.nil_append, hlen]
  | node l r ihl ihr =>
    intro d acc hlen
    by_cases hdir : key.testBit d = true
    · rw [trStop_node, if_pos hdir, trSibs_node_pos hsh key l r _ hdir,
        trSpine_node_pos hsh key l r _ hdir]
      have hS : acc ++ encodeT hsh l :: trSibs hsh key r (d + 1)
          = (acc ++ [encodeT hsh l]) ++ trSibs hsh key r (d + 1) := by
        simp
      rw [hS, ihr (d + 1) (acc ++ [encodeT hsh l]) (by simp [hlen])]
      have hgd : ((acc ++ [encodeT hsh l]) ++ trSibs hsh key r (d + 1)).getD d 0
          = encodeT hsh l := by
        rw [← hlen, List.append_assoc, List.singleton_append, getD_append_self]
      rw [foldChain]
      have hcontent : (if (keyToPath key).getD d false
          then [((acc ++ [encodeT hsh l]) ++ trSibs hsh key r (d + 1)).getD d 0,
            encodeT hsh r]
          else [encodeT hsh r,
            ((acc ++ [encodeT hsh l]) ++ trSibs hsh key r (d + 1)).getD d 0])
          = [encodeT hsh l, encodeT hsh r] := by
        rw [keyToPath_getD, if_pos hdir, hgd]
      rw [hcontent, List.append_assoc, List.singleton_append,
        show encodeT hsh (Tr.node l r) = hsh [encodeT hsh l, encodeT hsh r] from rfl]
      simp
    · have hdir2 : key.testBit d = false := by
        cases h0 : key.testBit d
        · rfl
        · exact absurd h0 hdir
      rw [trStop_node, if_neg hdir, trSibs_node_neg hsh key l r _ hdir2,
        trSpine_node_neg hsh key l r _ hdir2]
      have hS : acc ++ encodeT hsh r :: trSibs hsh key l (d + 1)
          = (acc ++ [encodeT hsh r]) ++ trSibs hsh key l (d + 1) := by
        simp
      rw [hS, ihl (d + 1) (acc ++ [encodeT hsh r]) (by simp [hlen])]
      have hgd : ((acc ++ [encodeT hsh r]) ++ trSibs hsh key l (d + 1)).getD d 0
          = encodeT hsh r := by
        rw [← hlen, List.append_assoc, List.singleton_append, getD_append_self]
      rw [foldChain]
      have hcontent : (if (keyToPath key).getD d false
          then [((acc ++ [encodeT hsh r]) ++ trSibs hsh key l (d + 1)).getD d 0,
            encodeT hsh l]
          else [encodeT hsh l,
            ((acc ++ [encodeT hsh r]) ++ trSibs hsh key l (d + 1)).getD d 0])
          = [encodeT hsh l, encodeT hsh r] := by
        rw [keyToPath_getD, if_neg (by rw [hdir2]; exact Bool.false_ne_true), hgd]
      rw [hcontent, List.append_assoc, List.singleton_append,
        show encodeT hsh (Tr.node l r) = hsh [encodeT hsh l, encodeT hsh r] from rfl]
      simp

theorem trStop_pushT (key value k0 v0 : ℕ) :
    ∀ fuel d, d + fuel = firstDiv key k0 →
      trStop key (pushT key value k0 v0 (firstDiv key k0) d fuel) d
        = .leaf key value := by
  intro fuel
  induction fuel with
  | zero =>
    intro d hd
    have hdj : d = firstDiv key k0 := by omega
    rw [pushT]
    by_cases hb : key.testBit (firstDiv key k0) = true
    · rw [if_pos hb, trStop_node, if_pos (by rw [hdj]; exact hb)]
      rfl
    · rw [if_neg hb, trStop_node,
        if_neg (by rw [hdj]; exact hb)]
      rfl
  | succ f ih =>
    intro d hd
    rw [pushT]
    by_cases hb : key.testBit d = true
    · rw [if_pos hb, trStop_node, if_pos hb]
      exact ih (d + 1) (by omega)
    · rw [if_neg hb, trStop_node, if_neg hb]
      exact ih (d + 1) (by omega)

theorem trSibs_pushT (hsh : List ℕ → ℕ) (key value k0 v0 : ℕ) :
    ∀ fuel d, d + fuel = firstDiv key k0 →
      trSibs hsh key (pushT key value k0 v0 (firstDiv key k0) d fuel) d
        = List.replicate fuel 0 ++ [hsh [k0, v0, 1]] := by
  intro fuel
  induction fuel with
  | zero =>
    intro d hd
    have hdj : d = firstDiv key k0 := by omega
    rw [pushT]
    by_cases hb : key.testBit (firstDiv key k0) = true
    · rw [if_pos hb, trSibs_node_pos hsh key _ _ _ (by rw [hdj]; exact hb)]
      rw [show trSibs hsh key (Tr.leaf key value) (d + 1) = [] from rfl]
      rfl
    · have hb2 : key.testBit (firstDiv key k0) = false := by
        cases h0 : key.testBit (firstDiv key k0)
        · rfl
        · exact absurd h0 hb
      rw [if_neg hb, trSibs_node_neg hsh key _ _ _ (by rw [hdj]; exact hb2)]
      rw [show trSibs hsh key (Tr.leaf key value) (d + 1) = [] from rfl]
      rfl
  | succ f ih =>
    intro d hd
    rw [pushT]
    by_cases hb : key.testBit d = true
    · rw [if_pos hb, trSibs_node_pos hsh key _ _ _ hb, ih (d + 1) (by omega)]
      rfl
    · have hb2 : key.testBit d = false := by
        cases h0 : key.testBit d
        · rfl
        · exact absurd h0 hb
      rw [if_neg hb, trSibs_node_neg hsh key _ _ _ hb2, ih (d + 1) (by omega)]
      rfl

/-- When the locator stops at an empty slot, insertion replaces it by
the fresh entry with unchanged siblings. -/
theorem insertT_locator_empty (hsh : List ℕ → ℕ) (key value : ℕ) :
    ∀ (T : Tr) (d : ℕ), keyInT key T = false → trStop key T d = .empty →
      trStop key (insertT key value T d) d = .leaf key value ∧
      trSibs hsh key (insertT key value T d) d = trSibs hsh key T d := by
  intro T
  induction T with
  | empty =>
    intro d _ _
    constructor
    · rfl
    · rfl
  | leaf k0 v0 =>
    intro d _ hstop
    rw [show trStop key (Tr.leaf k0 v0) d = Tr.leaf k0 v0 from rfl] at hstop
    cases hstop
  | node l r ihl ihr =>
    intro d habs hstop
    rw [keyInT] at habs
    rw [trStop_node] at hstop
    by_cases hb : key.testBit d = true
    · rw [if_pos hb] at hstop
      obtain ⟨h1, h2⟩ := ihr (d + 1) (Bool.or_eq_false_iff.mp habs).2 hstop
      rw [insertT, if_pos hb]
      constructor
      · rw [trStop_node, if_pos hb]
        exact h1
      · rw [trSibs_node_pos hsh key _ _ _ hb, trSibs_node_pos hsh key _ _ _ hb, h2]
    · have hb2 : key.testBit d = false := by
        cases h0 : key.testBit d
        · rfl
        · exact absurd h0 hb
      rw [if_neg hb] at hstop
      obtain ⟨h1, h2⟩ := ihl (d + 1) (Bool.or_eq_false_iff.mp habs).1 hstop
      rw [insertT, if_neg hb]
      constructor
      · rw [trStop_node, if_neg hb]
        exact h1
      · rw [trSibs_node_neg hsh key _ _ _ hb2, trSibs_node_neg hsh key _ _ _ hb2, h2]

/-- When the locator stops at another entry, insertion pushes that entry
down to the first divergence: the siblings are extended by zeros and the
pushed entry's identifier. -/
theorem insertT_locator_match (hsh : List ℕ → ℕ) (key value : ℕ) :
    ∀ (T : Tr) (p : List Bool) (k0 v0 : ℕ), WfT T p →
      (∀ i, i < p.length → p.getD i false = key.testBit i) →
      keyInT key T = false → trStop key T p.length = .leaf k0 v0 →
      trStop key (insertT key value T p.length) p.length = .leaf key value ∧
      trSibs hsh key (insertT key value T p.length) p.length
        = trSibs hsh key T p.length
          ++ (List.replicate (firstDiv key k0
                - (p.length + (trSibs hsh key T p.length).length)) 0
              ++ [hsh [k0, v0, 1]]) := by
  intro T
  induction T with
  | empty =>
    intro p k0 v0 _ _ _ hstop
    rw [show trStop key Tr.empty p.length = Tr.empty from rfl] at hstop
    cases hstop
  | leaf k1 v1 =>
    intro p k0 v0 hwf hbits habs hstop
    rw [show trStop key (Tr.leaf k1 v1) p.length = Tr.leaf k1 v1 from rfl] at hstop
    injection hstop with he1 he2
    rw [← he1, ← he2]
    have hk1 : k1 ≠ key := by
      rw [keyInT] at habs
      simpa using habs
    cases hwf with
    | leaf _ _ _ hk256 _ hplace =>
      have hdle : p.length ≤ firstDiv key k1 := by
        apply le_firstDiv_of_agree key k1 p.length (fun h => hk1 h.symm)
        intro i hi
        rw [← hbits i hi]
        exact (hplace i hi).symm
      rw [insertT, if_neg hk1]
      refine ⟨trStop_pushT key value k1 v1 _ p.length (by omega), ?_⟩
      rw [trSibs_pushT hsh key value k1 v1 _ p.length (by omega)]
      rw [show trSibs hsh key (Tr.leaf k1 v1) p.length = [] from rfl]
      rw [List.nil_append, List.length_nil, Nat.add_zero]
  | node l r ihl ihr =>
    intro p k0 v0 hwf hbits habs hstop
    rw [keyInT] at habs
    rw [trStop_node] at hstop
    cases hwf with
    | node _ _ _ hdep hwl hwr _ _ =>
      have hext : ∀ (c : Bool), key.testBit p.length = c →
          ∀ i, i < (p ++ [c]).length → (p ++ [c]).getD i false = key.testBit i := by
        intro c hc i hi
        simp at hi
        rcases Nat.lt_or_ge i p.length with h2 | h2
        · rw [getD_concat_lt _ _ _ h2]
          exact hbits i h2
        · have : i = p.length := by omega
          subst this
          rw [getD_concat_length, hc]
      by_cases hb : key.testBit p.length = true
      · rw [if_pos hb] at hstop
        have h3 := ihr (p ++ [true]) k0 v0 hwr (hext true hb)
          (Bool.or_eq_false_iff.mp habs).2 (by
            simp only [List.length_append, List.length_cons, List.length_nil]
            simpa using hstop)
        simp only [List.length_append, List.length_cons, List.length_nil,
          Nat.add_zero, Nat.zero_add] at h3
        obtain ⟨h1, h2⟩ := h3
        rw [insertT, if_pos hb]
        constructor
        · rw [trStop_node, if_pos hb]
          exact h1
        · rw [trSibs_node_pos hsh key _ _ _ hb, trSibs_node_pos hsh key _ _ _ hb, h2]
          simp only [List.cons_append, List.length_cons]
          rw [show p.length + ((trSibs hsh key r (p.length + 1)).length + 1)
            = p.length + 1 + (trSibs hsh key r (p.length + 1)).length from by omega]
      · have hb2 : key.testBit p.length = false := by
          cases h0 : key.testBit p.length
          · rfl
          · exact absurd h0 hb
        rw [if_neg hb] at hstop
        have h3 := ihl (p ++ [false]) k0 v0 hwl (hext false hb2)
          (Bool.or_eq_false_iff.mp habs).1 (by
            simp only [List.length_append, List.length_cons, List.length_nil]
            simpa using hstop)
        simp only [List.length_append, List.length_cons, List.length_nil,
          Nat.add_zero, Nat.zero_add] at h3
        obtain ⟨h1, h2⟩ := h3
        rw [insertT, if_neg hb]
        constructor
        · rw [trStop_node, if_neg hb]
          exact h1
        · rw [trSibs_node_neg hsh key _ _ _ hb2, trSibs_node_neg hsh key _ _ _ hb2, h2]
          simp only [List.cons_append, List.length_cons]
          rw [show p.length + ((trSibs hsh key l (p.length + 1)).length + 1)
            = p.length + 1 + (trSibs hsh key l (p.length + 1)).length from by omega]

theorem subtreeAt_nil (T : Tr) : subtreeAt T [] = some T := by cases T <;> rfl

theorem subtreeAt_node (l r : Tr) (b : Bool) (w : List Bool) :
    subtreeAt (.node l r) (b :: w) = subtreeAt (if b then r else l) w := rfl

theorem subtreeAt_append (w1 : List Bool) :
    ∀ (T S : Tr) (w2 : List Bool), subtreeAt T w1 = some S →
      subtreeAt T (w1 ++ w2) = subtreeAt S w2 := by
  induction w1 with
  | nil =>
    intro T S w2 h
    rw [subtreeAt_nil] at h
    injection h with h
    rw [h, List.nil_append]
  | cons b w ih =>
    intro T S w2 h
    cases T with
    | empty => rw [show subtreeAt Tr.empty (b :: w) = none from rfl] at h; cases h
    | leaf k v => rw [show subtreeAt (Tr.leaf k v) (b :: w) = none from rfl] at h; cases h
    | node l r =>
      rw [subtreeAt_node] at h
      rw [List.cons_append, subtreeAt_node]
      exact ih _ S w2 h

theorem WfT_subtreeAt : ∀ (w : List Bool) (T : Tr) (p : List Bool) (S : Tr),
    WfT T p → subtreeAt T w = some S → WfT S (p ++ w) := by
  intro w
  induction w with
  | nil =>
    intro T p S hwf h
    rw [subtreeAt_nil] at h
    injection h with h
    rw [← h, List.append_nil]
    exact hwf
  | cons b w ih =>
    intro T p S hwf h
    cases T with
    | empty => rw [show subtreeAt Tr.empty (b :: w) = none from rfl] at h; cases h
    | leaf k v => rw [show subtreeAt (Tr.leaf k v) (b :: w) = none from rfl] at h; cases h
    | node l r =>
      rw [subtreeAt_node] at h
      cases hwf with
      | node _ _ _ hdep hwl hwr _ _ =>
        cases b with
        | true =>
          rw [if_pos rfl] at h
          have := ih r (p ++ [true]) S hwr h
          rw [List.append_assoc] at this
          exact this
        | false =>
          rw [if_neg (by exact Bool.false_ne_true)] at h
          have := ih l (p ++ [false]) S hwl h
          rw [List.append_assoc] at this
          exact this

theorem sizeT_pos (T : Tr) : 0 < sizeT T := by
  cases T <;> simp [sizeT]

theorem sizeT_subtreeAt_lt : ∀ (w : List Bool) (T S : Tr),
    subtreeAt T w = some S → w ≠ [] → sizeT S < sizeT T := by
  intro w
  induction w with
  | nil => intro T S _ h; exact absurd rfl h
  | cons b w ih =>
    intro T S h _
    cases T with
    | empty => rw [show subtreeAt Tr.empty (b :: w) = none from rfl] at h; cases h
    | leaf k v => rw [show subtreeAt (Tr.leaf k v) (b :: w) = none from rfl] at h; cases h
    | node l r =>
      rw [subtreeAt_node] at h
      by_cases hw : w = []
      · subst hw
        rw [subtreeAt_nil] at h
        injection h with h
        subst h
        cases b with
        | true =>
          rw [if_pos rfl]
          have := sizeT_pos l
          simp [sizeT]
          omega
        | false =>
          rw [if_neg (by exact Bool.false_ne_true)]
          have := sizeT_pos r
          simp [sizeT]
          omega
      · have h2 := ih _ S h hw
        have h3 : sizeT (if b then r else l) ≤ sizeT l + sizeT r := by
          cases b with
          | true => rw [if_pos rfl]; omega
          | false => rw [if_neg (by exact Bool.false_ne_true)]; omega
        show sizeT S < sizeT (Tr.node l r)
        rw [sizeT]
        omega

/-- A canonical entry inside a non-empty shape: its relative position and
its key and value. -/
def leafWitness : Tr → List Bool × ℕ × ℕ
  | .empty => ([], 0, 0)
  | .leaf k v => ([], k, v)
  | .node l r =>
      if l = .empty then ((leafWitness r).1.cons true, (leafWitness r).2)
      else ((leafWitness l).1.cons false, (leafWitness l).2)

theorem leafWitness_spec : ∀ (T : Tr) (p : List Bool), WfT T p → T ≠ .empty →
    subtreeAt T (leafWitness T).1 = some (.leaf (leafWitness T).2.1 (leafWitness T).2.2) ∧
    ∀ i, i < (p ++ (leafWitness T).1).length →
      (leafWitness T).2.1.testBit i = (p ++ (leafWitness T).1).getD i false := by
  intro T
  induction T with
  | empty => intro p _ h; exact absurd rfl h
  | leaf k v =>
    intro p hwf _
    cases hwf with
    | leaf _ _ _ _ _ hplace =>
      refine ⟨rfl, ?_⟩
      intro i hi
      simp at hi
      have h2 : (p ++ ([] : List Bool)).getD i false = p.getD i false := by
        rw [List.append_nil]
      rw [show (leafWitness (Tr.leaf k v)).1 = [] from rfl] at hi ⊢
      rw [h2]
      exact hplace i (by simpa using hi)
  | node l r ihl ihr =>
    intro p hwf _
    cases hwf with
    | node _ _ _ hdep hwl hwr hc1 hc2 =>
      rw [leafWitness]
      by_cases hle : l = .empty
      · rw [if_pos hle]
        have hrne : r ≠ .empty := by
          intro hcon
          have := hc1 hle
          rw [hcon] at this
          cases this
        obtain ⟨h1, h2⟩ := ihr (p ++ [true]) hwr hrne
        constructor
        · show subtreeAt (Tr.node l r) (true :: (leafWitness r).1) = _
          rw [subtreeAt_node, if_pos rfl]
          exact h1
        · intro i hi
          show (leafWitness r).2.1.testBit i = (p ++ true :: (leafWitness r).1).getD i false
          have he : p ++ true :: (leafWitness r).1 = (p ++ [true]) ++ (leafWitness r).1 := by
            simp
          rw [he]
          apply h2
          rw [he] at hi
          exact hi
      · rw [if_neg hle]
        obtain ⟨h1, h2⟩ := ihl (p ++ [false]) hwl hle
        constructor
        · show subtreeAt (Tr.node l r) (false :: (leafWitness l).1) = _
          rw [subtreeAt_node, if_neg (by exact Bool.false_ne_true)]
          exact h1
        · intro i hi
          show (leafWitness l).2.1.testBit i = (p ++ false :: (leafWitness l).1).getD i false
          have he : p ++ false :: (leafWitness l).1
              = (p ++ [false]) ++ (leafWitness l).1 := by
            simp
          rw [he]
          apply h2
          rw [he] at hi
          exact hi

theorem getD_concat_lt_any (p q : List Bool) (i : ℕ) (h : i < p.length) :
    (p ++ q).getD i false = p.getD i false :=
  List.getD_append _ _ _ _ h

theorem list_eq_of_getD (p1 p2 : List Bool) (hlen : p1.length = p2.length)
    (h : ∀ i, i < p1.length → p1.getD i false = p2.getD i false) : p1 = p2 := by
  apply List.ext_getElem hlen
  intro i h1 h2
  have h3 := h i h1
  rw [List.getD_eq_getElem?_getD, List.getD_eq_getElem?_getD,
    List.getElem?_eq_getElem h1, List.getElem?_eq_getElem h2] at h3
  simpa using h3

theorem subtreeAt_unique_aux (hsh : List ℕ → ℕ) (hinj : Function.Injective hsh)
    (hnz : ∀ l, hsh l ≠ 0) (T : Tr) (hwf : WfT T [])
    (p1 p2 : List Bool) (S : Tr) (h1 : subtreeAt T p1 = some S)
    (h2 : subtreeAt T p2 = some S) (hne : S ≠ .empty)
    (hlt : p1.length < p2.length) : False := by
  have hwf1 : WfT S p1 := by
    have := WfT_subtreeAt p1 T [] S hwf h1
    simpa using this
  have hwf2 : WfT S p2 := by
    have := WfT_subtreeAt p2 T [] S hwf h2
    simpa using this
  obtain ⟨hsub1, hpl1⟩ := leafWitness_spec S p1 hwf1 hne
  obtain ⟨hsub2, hpl2⟩ := leafWitness_spec S p2 hwf2 hne
  have hpre : p1 = p2.take p1.length := by
    apply list_eq_of_getD
    · rw [List.length_take]
      omega
    · intro i hi
      have e1 : (p1 ++ (leafWitness S).1).getD i false = p1.getD i false :=
        getD_concat_lt_any p1 _ i hi
      have e2 : (p2 ++ (leafWitness S).1).getD i false = p2.getD i false :=
        getD_concat_lt_any p2 _ i (by omega)
      have f1 := hpl1 i (by simp; omega)
      have f2 := hpl2 i (by simp; omega)
      rw [e1] at f1
      rw [e2] at f2
      rw [← f1, f2, getD_take _ _ _ hi]
  have hsplit : p2 = p1 ++ p2.drop p1.length := by
    conv_lhs => rw [← List.take_append_drop p1.length p2]
    rw [← hpre]
  have hrest : p2.drop p1.length ≠ [] := by
    intro hcon
    have := congrArg List.length hcon
    simp at this
    omega
  have h3 : subtreeAt T p2 = subtreeAt S (p2.drop p1.length) := by
    conv_lhs => rw [hsplit]
    exact subtreeAt_append p1 T S _ h1
  rw [h2] at h3
  have h4 := sizeT_subtreeAt_lt (p2.drop p1.length) S S h3.symm hrest
  omega

/-- Distinct positions of a well-formed shape never carry the same
non-zero identifier: each non-empty subtree owns an entry whose key pins
its position. -/
theorem subtreeAt_unique (hsh : List ℕ → ℕ) (hinj : Function.Injective hsh)
    (hnz : ∀ l, hsh l ≠ 0) (T : Tr) (hwf : WfT T [])
    (p1 p2 : List Bool) (S1 S2 : Tr) (h1 : subtreeAt T p1 = some S1)
    (h2 : subtreeAt T p2 = some S2) (hne : S1 ≠ .empty)
    (henc : encodeT hsh S1 = encodeT hsh S2) : p1 = p2 := by
  have hSS : S1 = S2 := encodeT_inj hsh hinj hnz _ _ henc
  subst hSS
  rcases Nat.lt_trichotomy p1.length p2.length with hlt | heq | hgt
  · exact absurd (subtreeAt_unique_aux hsh hinj hnz T hwf p1 p2 S1 h1 h2 hne hlt) id
  · have hwf1 : WfT S1 p1 := by
      have := WfT_subtreeAt p1 T [] S1 hwf h1
      simpa using this
    have hwf2 : WfT S1 p2 := by
      have := WfT_subtreeAt p2 T [] S1 hwf h2
      simpa using this
    obtain ⟨_, hpl1⟩ := leafWitness_spec S1 p1 hwf1 hne
    obtain ⟨_, hpl2⟩ := leafWitness_spec S1 p2 hwf2 hne
    apply list_eq_of_getD p1 p2 heq
    intro i hi
    have e1 : (p1 ++ (leafWitness S1).1).getD i false = p1.getD i false :=
      getD_concat_lt_any p1 _ i hi
    have e2 : (p2 ++ (leafWitness S1).1).getD i false = p2.getD i false :=
      getD_concat_lt_any p2 _ i (by omega)
    have f1 := hpl1 i (by simp; omega)
    have f2 := hpl2 i (by simp; omega)
    rw [e1] at f1
    rw [e2] at f2
    rw [← f1, f2]
  · exact absurd (subtreeAt_unique_aux hsh hinj hnz T hwf p2 p1 S1 h2 h1 hne hgt) id

/-- The run of a key's path bits starting at depth `d`. -/
def bitsSeg (key : ℕ) : ℕ → ℕ → List Bool
  | _, 0 => []
  | d, n + 1 => key.testBit d :: bitsSeg key (d + 1) n

theorem bitsSeg_length (key : ℕ) : ∀ (n d : ℕ), (bitsSeg key d n).length = n := by
  intro n
  induction n with
  | zero => intro d; rfl
  | succ m ih =>
    intro d
    rw [bitsSeg, List.length_cons, ih (d + 1)]

theorem bitsSeg_getD (key : ℕ) : ∀ (n d i : ℕ), i < n →
    (bitsSeg key d n).getD i false = key.testBit (d + i) := by
  intro n
  induction n with
  | zero => intro d i h; omega
  | succ m ih =>
    intro d i h
    rw [bitsSeg]
    cases i with
    | zero => rw [List.getD_cons_zero, Nat.add_zero]
    | succ i2 =>
      rw [List.getD_cons_succ, ih (d + 1) i2 (by omega)]
      congr 1
      omega

theorem trSpine_mem (hsh : List ℕ → ℕ) (key : ℕ) :
    ∀ (T : Tr) (d : ℕ) (e : ℕ × List ℕ), e ∈ trSpine hsh key T d →
      ∃ (i : ℕ) (l r : Tr), d ≤ i ∧
        subtreeAt T (bitsSeg key d (i - d)) = some (.node l r) ∧
        e = (encodeT hsh (.node l r), [encodeT hsh l, encodeT hsh r]) := by
  intro T
  induction T with
  | empty =>
    intro d e h
    rw [show trSpine hsh key Tr.empty d = [] from rfl] at h
    cases h
  | leaf k v =>
    intro d e h
    rw [show trSpine hsh key (Tr.leaf k v) d = [] from rfl] at h
    cases h
  | node l r ihl ihr =>
    intro d e h
    by_cases hb : key.testBit d = true
    · rw [trSpine_node_pos hsh key _ _ _ hb] at h
      rcases List.mem_append.mp h with h2 | h2
      · obtain ⟨i, l2, r2, hdi, hsub, he⟩ := ihr (d + 1) e h2
        refine ⟨i, l2, r2, by omega, ?_, he⟩
        have hseg : bitsSeg key d (i - d)
            = key.testBit d :: bitsSeg key (d + 1) (i - (d + 1)) := by
          rw [show i - d = (i - (d + 1)) + 1 from by omega, bitsSeg]
        rw [hseg, subtreeAt_node, if_pos hb]
        exact hsub
      · have he : e = (encodeT hsh (.node l r),
            [encodeT hsh l, encodeT hsh r]) := by simpa using h2
        refine ⟨d, l, r, le_rfl, ?_, he⟩
        rw [show d - d = 0 from by omega, show bitsSeg key d 0 = [] from rfl,
          subtreeAt_nil]
    · have hb2 : key.testBit d = false := by
        cases h0 : key.testBit d
        · rfl
        · exact absurd h0 hb
      rw [trSpine_node_neg hsh key _ _ _ hb2] at h
      rcases List.mem_append.mp h with h2 | h2
      · obtain ⟨i, l2, r2, hdi, hsub, he⟩ := ihl (d + 1) e h2
        refine ⟨i, l2, r2, by omega, ?_, he⟩
        have hseg : bitsSeg key d (i - d)
            = key.testBit d :: bitsSeg key (d + 1) (i - (d + 1)) := by
          rw [show i - d = (i - (d + 1)) + 1 from by omega, bitsSeg]
        rw [hseg, subtreeAt_node, if_neg (by rw [hb2]; exact Bool.false_ne_true)]
        exact hsub
      · have he : e = (encodeT hsh (.node l r),
            [encodeT hsh l, encodeT hsh r]) := by simpa using h2
        refine ⟨d, l, r, le_rfl, ?_, he⟩
        rw [show d - d = 0 from by omega, show bitsSeg key d 0 = [] from rfl,
          subtreeAt_nil]

theorem contentsOf_to_subtree (hsh : List ℕ → ℕ) :
    ∀ (T : Tr) (c : List ℕ), c ∈ contentsOf hsh T →
      ∃ (w : List Bool) (S : Tr), subtreeAt T w = some S ∧ S ≠ .empty ∧
        c = contentT hsh S := by
  intro T
  induction T with
  | empty =>
    intro c h
    rw [show contentsOf hsh Tr.empty = [] from rfl] at h
    cases h
  | leaf k v =>
    intro c h
    rw [show contentsOf hsh (Tr.leaf k v) = [[k, v, 1]] from rfl] at h
    have h2 : c = [k, v, 1] := by simpa using h
    refine ⟨[], .leaf k v, subtreeAt_nil _, ?_, ?_⟩
    · intro h3; cases h3
    · rw [h2]; rfl
  | node l r ihl ihr =>
    intro c h
    rw [show contentsOf hsh (Tr.node l r) = [encodeT hsh l, encodeT hsh r]
      :: (contentsOf hsh l ++ contentsOf hsh r) from rfl] at h
    rcases List.mem_cons.mp h with h2 | h2
    · refine ⟨[], .node l r, subtreeAt_nil _, ?_, ?_⟩
      · intro h3; cases h3
      · rw [h2]; rfl
    · rcases List.mem_append.mp h2 with h3 | h3
      · obtain ⟨w, S, hsub, hne, hc⟩ := ihl c h3
        refine ⟨false :: w, S, ?_, hne, hc⟩
        rw [subtreeAt_node, if_neg (by exact Bool.false_ne_true)]
        exact hsub
      · obtain ⟨w, S, hsub, hne, hc⟩ := ihr c h3
        refine ⟨true :: w, S, ?_, hne, hc⟩
        rw [subtreeAt_node, if_pos rfl]
        exact hsub

theorem encodeT_content (hsh : List ℕ → ℕ) (S : Tr) (h : S ≠ .empty) :
    encodeT hsh S = hsh (contentT hsh S) := by
  cases S with
  | empty => exact absurd rfl h
  | leaf k v => rfl
  | node l r => rfl

/-- A subtree hanging off the key's path never shares an identifier with
a node on the key's spine. -/
theorem off_path_not_in_spine (hsh : List ℕ → ℕ) (hinj : Function.Injective hsh)
    (hnz : ∀ l, hsh l ≠ 0) (key : ℕ) (T : Tr) (hwf : WfT T [])
    (S2 : Tr) (pos : List Bool) (hsub : subtreeAt T pos = some S2) (hne : S2 ≠ .empty)
    (i0 : ℕ) (hi0 : i0 < pos.length) (hbit : pos.getD i0 false ≠ key.testBit i0) :
    ∀ e ∈ trSpine hsh key T 0, e.1 ≠ hsh (contentT hsh S2) := by
  intro e he hcon
  obtain ⟨i, l2, r2, _, hsub2, he2⟩ := trSpine_mem hsh key T 0 e he
  have hnn : (Tr.node l2 r2) ≠ Tr.empty := by intro h3; cases h3
  have hee : e.1 = encodeT hsh (.node l2 r2) := by rw [he2]
  have henc : encodeT hsh S2 = encodeT hsh (.node l2 r2) := by
    rw [encodeT_content hsh S2 hne, ← hcon, hee]
  have hpos := subtreeAt_unique hsh hinj hnz T hwf pos (bitsSeg key 0 (i - 0))
    S2 (.node l2 r2) hsub hsub2 hne henc
  have hlen : pos.length = i - 0 := by rw [hpos, bitsSeg_length]
  have hgd := bitsSeg_getD key (i - 0) 0 i0 (by omega)
  rw [← hpos] at hgd
  rw [Nat.zero_add] at hgd
  exact hbit hgd

theorem lookupN_mapSet_consistent (hsh : List ℕ → ℕ) (hinj : Function.Injective hsh)
    (m : NodeMap) (c c2 : List ℕ) (h : lookupN m (hsh c) = some c) :
    lookupN (mapSet m (hsh c2) c2) (hsh c) = some c := by
  rw [lookupN_mapSet]
  by_cases hq : hsh c = hsh c2
  · rw [if_pos hq, hinj hq]
  · rw [if_neg hq]
    exact h

/-- Hash-consistent bindings survive the rebuild fold: every write binds
an identifier to exactly the content it hashes. -/
theorem lookupN_addNewNodesAux_consistent (hsh : List ℕ → ℕ)
    (hinj : Function.Injective hsh) :
    ∀ (k : ℕ) (m : NodeMap) (node : ℕ) (path : List Bool) (sibs : List ℕ)
      (c : List ℕ), lookupN m (hsh c) = some c →
      lookupN (addNewNodesAux hsh k m node path sibs).2 (hsh c) = some c := by
  intro k
  induction k with
  | zero => intro m node path sibs c h; exact h
  | succ k ih =>
    intro m node path sibs c h
    exact ih _ _ _ _ c (lookupN_mapSet_consistent hsh hinj m c _ h)

/-- The rebuild fold stores every node of its chain. -/
theorem addNewNodesAux_stores (hsh : List ℕ → ℕ) (hinj : Function.Injective hsh) :
    ∀ (k : ℕ) (m : NodeMap) (node : ℕ) (path : List Bool) (sibs : List ℕ),
      ∀ e ∈ foldChain hsh k node path sibs,
        lookupN (addNewNodesAux hsh k m node path sibs).2 e.1 = some e.2 := by
  intro k
  induction k with
  | zero => intro m node path sibs e h; cases h
  | succ k ih =>
    intro m node path sibs e h
    rcases List.mem_cons.mp h with h2 | h2
    · subst h2
      have hstep : (addNewNodesAux hsh (k + 1) m node path sibs).2
          = (addNewNodesAux hsh k (mapSet m (hsh (if path.getD k false
              then [sibs.getD k 0, node] else [node, sibs.getD k 0]))
              (if path.getD k false then [sibs.getD k 0, node]
                else [node, sibs.getD k 0]))
              (hsh (if path.getD k false then [sibs.getD k 0, node]
                else [node, sibs.getD k 0])) path sibs).2 := rfl
      rw [hstep]
      apply lookupN_addNewNodesAux_consistent hsh hinj
      rw [lookupN_mapSet, if_pos rfl]
    · exact ih _ _ _ _ e h2

theorem trStop_content_mem (hsh : List ℕ → ℕ) (key : ℕ) :
    ∀ (T : Tr) (d k0 v0 : ℕ), trStop key T d = .leaf k0 v0 →
      [k0, v0, 1] ∈ contentsOf hsh T := by
  intro T
  induction T with
  | empty =>
    intro d k0 v0 h
    rw [show trStop key Tr.empty d = Tr.empty from rfl] at h
    cases h
  | leaf k v =>
    intro d k0 v0 h
    rw [show trStop key (Tr.leaf k v) d = Tr.leaf k v from rfl] at h
    injection h with h1 h2
    rw [show contentsOf hsh (Tr.leaf k v) = [[k, v, 1]] from rfl, h1, h2]
    exact List.mem_singleton.mpr rfl
  | node l r ihl ihr =>
    intro d k0 v0 h
    rw [trStop_node] at h
    rw [show contentsOf hsh (Tr.node l r) = [encodeT hsh l, encodeT hsh r]
      :: (contentsOf hsh l ++ contentsOf hsh r) from rfl]
    by_cases hb : key.testBit d = true
    · rw [if_pos hb] at h
      exact List.mem_cons_of_mem _ (List.mem_append_right _ (ihr (d + 1) k0 v0 h))
    · rw [if_neg hb] at h
      exact List.mem_cons_of_mem _ (List.mem_append_left _ (ihl (d + 1) k0 v0 h))

theorem trStop_key_in (key : ℕ) :
    ∀ (T : Tr) (d k0 v0 : ℕ), trStop key T d = .leaf k0 v0 → keyInT k0 T = true := by
  intro T
  induction T with
  | empty =>
    intro d k0 v0 h
    rw [show trStop key Tr.empty d = Tr.empty from rfl] at h
    cases h
  | leaf k v =>
    intro d k0 v0 h
    rw [show trStop key (Tr.leaf k v) d = Tr.leaf k v from rfl] at h
    injection h with h1 _
    rw [keyInT, h1]
    simp
  | node l r ihl ihr =>
    intro d k0 v0 h
    rw [trStop_node] at h
    rw [keyInT]
    by_cases hb : key.testBit d = true
    · rw [if_pos hb] at h
      rw [ihr (d + 1) k0 v0 h]
      simp
    · rw [if_neg hb] at h
      rw [ihl (d + 1) k0 v0 h]
      simp

/-- The entry the locator stops at agrees with the key on all bits above
the stop depth, and its key is mode-valid. -/
theorem trStop_leaf_agrees (hsh : List ℕ → ℕ) (key : ℕ) :
    ∀ (T : Tr) (p : List Bool), WfT T p →
      (∀ i, i < p.length → p.getD i false = key.testBit i) →
      ∀ k0 v0, trStop key T p.length = .leaf k0 v0 →
        k0 < 2 ^ 256 ∧
        ∀ i, i < p.length + (trSibs hsh key T p.length).length →
          k0.testBit i = key.testBit i := by
  intro T
  induction T with
  | empty =>
    intro p _ _ k0 v0 h
    rw [show trStop key Tr.empty p.length = Tr.empty from rfl] at h
    cases h
  | leaf k v =>
    intro p hwf hbits k0 v0 h
    rw [show trStop key (Tr.leaf k v) p.length = Tr.leaf k v from rfl] at h
    injection h with h1 h2
    cases hwf with
    | leaf _ _ _ hk256 _ hplace =>
      rw [← h1]
      refine ⟨hk256, ?_⟩
      intro i hi
      rw [show trSibs hsh key (Tr.leaf k v) p.length = [] from rfl] at hi
      simp at hi
      rw [hplace i hi, hbits i hi]
  | node l r ihl ihr =>
    intro p hwf hbits k0 v0 h
    rw [trStop_node] at h
    cases hwf with
    | node _ _ _ hdep hwl hwr _ _ =>
      have hext : ∀ (c : Bool), key.testBit p.length = c →
          ∀ i, i < (p ++ [c]).length → (p ++ [c]).getD i false = key.testBit i := by
        intro c hc i hi
        simp at hi
        rcases Nat.lt_or_ge i p.length with h2 | h2
        · rw [getD_concat_lt _ _ _ h2]
          exact hbits i h2
        · have : i = p.length := by omega
          subst this
          rw [getD_concat_length, hc]
      by_cases hb : key.testBit p.length = true
      · rw [if_pos hb] at h
        have h3 := ihr (p ++ [true]) hwr (hext true hb) k0 v0 (by
          simp only [List.length_append, List.length_cons, List.length_nil]
          simpa using h)
        simp only [List.length_append, List.length_cons, List.length_nil,
          Nat.add_zero, Nat.zero_add] at h3
        refine ⟨h3.1, ?_⟩
        intro i hi
        apply h3.2
        rw [trSibs_node_pos hsh key _ _ _ hb, List.length_cons] at hi
        omega
      · have hb2 : key.testBit p.length = false := by
          cases h0 : key.testBit p.length
          · rfl
          · exact absurd h0 hb
        rw [if_neg hb] at h
        have h3 := ihl (p ++ [false]) hwl (hext false hb2) k0 v0 (by
          simp only [List.length_append, List.length_cons, List.length_nil]
          simpa using h)
        simp only [List.length_append, List.length_cons, List.length_nil,
          Nat.add_zero, Nat.zero_add] at h3
        refine ⟨h3.1, ?_⟩
        intro i hi
        apply h3.2
        rw [trSibs_node_neg hsh key _ _ _ hb2, List.length_cons] at hi
        omega

theorem firstDivergenceAux_exact (p q : List Bool) :
    ∀ (fuel i j : ℕ), i ≤ j → j < i + fuel →
      (∀ m, i ≤ m → m < j → p.get? m = q.get? m) → p.get? j ≠ q.get? j →
      firstDivergenceAux p q fuel i = some j := by
  intro fuel
  induction fuel with
  | zero => intro i j h1 h2 _ _; omega
  | succ f ih =>
    intro i j h1 h2 hagree hne
    rw [firstDivergenceAux]
    by_cases hij : i = j
    · subst hij
      rw [if_neg hne]
    · rw [if_pos (hagree i le_rfl (by omega))]
      exact ih (i + 1) j (by omega) (by omega)
        (fun m hm1 hm2 => hagree m (by omega) hm2) hne

/-- The source's divergence search from the stop depth finds exactly the
first differing bit of the two keys. -/
theorem firstDivergence_eq_firstDiv (key k0 : ℕ) (hkey : key < 2 ^ 256)
    (hk0 : k0 < 2 ^ 256) (hne : key ≠ k0) (s : ℕ)
    (hs : ∀ i, i < s → key.testBit i = k0.testBit i) :
    firstDivergence (keyToPath key) (keyToPath k0) s = some (firstDiv key k0) := by
  have hj := firstDiv_spec key k0 hne
  have hjlt : firstDiv key k0 < 256 := firstDiv_lt key k0 hkey hk0 hne
  have hsle : s ≤ firstDiv key k0 := le_firstDiv_of_agree key k0 s hne hs
  have hp1 : (keyToPath key).length = 256 := keyToPath_length key hkey
  have hp2 : (keyToPath k0).length = 256 := keyToPath_length k0 hk0
  rw [firstDivergence]
  apply firstDivergenceAux_exact
  · exact hsle
  · rw [hp1, hp2]
    omega
  · intro m _ hm
    rw [get?_eq_some_getD _ m (by omega), get?_eq_some_getD _ m (by omega),
      keyToPath_getD, keyToPath_getD, hj.2 m hm]
  · rw [get?_eq_some_getD _ _ (by omega), get?_eq_some_getD _ _ (by omega),
      keyToPath_getD, keyToPath_getD]
    intro hcon
    simp only [Option.some.injEq] at hcon
    exact hj.1 hcon

theorem pushT_contents (hsh : List ℕ → ℕ) (key value k0 v0 : ℕ) :
    ∀ fuel d, d + fuel = firstDiv key k0 →
      ∀ c ∈ contentsOf hsh (pushT key value k0 v0 (firstDiv key k0) d fuel),
        (hsh c, c) ∈ trSpine hsh key (pushT key value k0 v0 (firstDiv key k0) d fuel) d
          ∨ c = [key, value, 1] ∨ c = [k0, v0, 1] := by
  intro fuel
  induction fuel with
  | zero =>
    intro d hd c hc
    have hdj : d = firstDiv key k0 := by omega
    rw [pushT] at hc ⊢
    by_cases hb : key.testBit (firstDiv key k0) = true
    · rw [if_pos hb] at hc ⊢
      rw [show contentsOf hsh (Tr.node (Tr.leaf k0 v0) (Tr.leaf key value))
        = [encodeT hsh (Tr.leaf k0 v0), encodeT hsh (Tr.leaf key value)]
          :: ([[k0, v0, 1]] ++ [[key, value, 1]]) from rfl] at hc
      rcases List.mem_cons.mp hc with h2 | h2
      · left
        rw [trSpine_node_pos hsh key _ _ _ (by rw [hdj]; exact hb)]
        rw [show trSpine hsh key (Tr.leaf key value) (d + 1) = [] from rfl,
          List.nil_append]
        rw [h2]
        exact List.mem_singleton.mpr rfl
      · rcases List.mem_append.mp h2 with h3 | h3
        · right; right; simpa using h3
        · right; left; simpa using h3
    · rw [if_neg hb] at hc ⊢
      rw [show contentsOf hsh (Tr.node (Tr.leaf key value) (Tr.leaf k0 v0))
        = [encodeT hsh (Tr.leaf key value), encodeT hsh (Tr.leaf k0 v0)]
          :: ([[key, value, 1]] ++ [[k0, v0, 1]]) from rfl] at hc
      have hb2 : key.testBit (firstDiv key k0) = false := by
        cases h0 : key.testBit (firstDiv key k0)
        · rfl
        · exact absurd h0 hb
      rcases List.mem_cons.mp hc with h2 | h2
      · left
        rw [trSpine_node_neg hsh key _ _ _ (by rw [hdj]; exact hb2)]
        rw [show trSpine hsh key (Tr.leaf key value) (d + 1) = [] from rfl,
          List.nil_append]
        rw [h2]
        exact List.mem_singleton.mpr rfl
      · rcases List.mem_append.mp h2 with h3 | h3
        · right; left; simpa using h3
        · right; right; simpa using h3
  | succ f ih =>
    intro d hd c hc
    rw [pushT] at hc ⊢
    by_cases hb : key.testBit d = true
    · rw [if_pos hb] at hc ⊢
      rw [show contentsOf hsh (Tr.node Tr.empty
          (pushT key value k0 v0 (firstDiv key k0) (d + 1) f))
        = [encodeT hsh Tr.empty, encodeT hsh (pushT key value k0 v0
            (firstDiv key k0) (d + 1) f)]
          :: ([] ++ contentsOf hsh (pushT key value k0 v0 (firstDiv key k0) (d + 1) f))
        from rfl] at hc
      rcases List.mem_cons.mp hc with h2 | h2
      · left
        rw [trSpine_node_pos hsh key _ _ _ hb]
        apply List.mem_append_right
        rw [h2]
        exact List.mem_singleton.mpr rfl
      · rw [List.nil_append] at h2
        rcases ih (d + 1) (by omega) c h2 with h3 | h3 | h3
        · left
          rw [trSpine_node_pos hsh key _ _ _ hb]
          exact List.mem_append_left _ h3
        · right; left; exact h3
        · right; right; exact h3
    · have hb2 : key.testBit d = false := by
        cases h0 : key.testBit d
        · rfl
        · exact absurd h0 hb
      rw [if_neg hb] at hc ⊢
      rw [show contentsOf hsh (Tr.node
          (pushT key value k0 v0 (firstDiv key k0) (d + 1) f) Tr.empty)
        = [encodeT hsh (pushT key value k0 v0 (firstDiv key k0) (d + 1) f),
            encodeT hsh Tr.empty]
          :: (contentsOf hsh (pushT key value k0 v0 (firstDiv key k0) (d + 1) f) ++ [])
        from rfl] at hc
      rcases List.mem_cons.mp hc with h2 | h2
      · left
        rw [trSpine_node_neg hsh key _ _ _ hb2]
        apply List.mem_append_right
        rw [h2]
        exact List.mem_singleton.mpr rfl
      · rw [List.append_nil] at h2
        rcases ih (d + 1) (by omega) c h2 with h3 | h3 | h3
        · left
          rw [trSpine_node_neg hsh key _ _ _ hb2]
          exact List.mem_append_left _ h3
        · right; left; exact h3
        · right; right; exact h3

/-- Every binding the inserted shape needs is either on the fresh chain,
the fresh entry, the pushed-down entry, or a binding of an untouched
off-path subtree of the old shape. -/
theorem contentsOf_insertT_classify (hsh : List ℕ → ℕ) (key value : ℕ) :
    ∀ (T : Tr) (p : List Bool), WfT T p →
      (∀ i, i < p.length → p.getD i false = key.testBit i) →
      keyInT key T = false →
      ∀ c ∈ contentsOf hsh (insertT key value T p.length),
        (hsh c, c) ∈ trSpine hsh key (insertT key value T p.length) p.length ∨
        c = [key, value, 1] ∨
        (∃ k0 v0, trStop key T p.length = .leaf k0 v0 ∧ c = [k0, v0, 1]) ∨
        (∃ (S : Tr) (w : List Bool) (i0 : ℕ), subtreeAt T w = some S ∧ S ≠ .empty ∧
          c = contentT hsh S ∧ i0 < w.length ∧
          w.getD i0 false ≠ key.testBit (p.length + i0)) := by
  intro T
  induction T with
  | empty =>
    intro p _ _ _ c hc
    rw [show insertT key value Tr.empty p.length = Tr.leaf key value from rfl,
      show contentsOf hsh (Tr.leaf key value) = [[key, value, 1]] from rfl] at hc
    right; left
    simpa using hc
  | leaf k0 v0 =>
    intro p hwf hbits habs c hc
    have hk0 : k0 ≠ key := by
      rw [keyInT] at habs
      simpa using habs
    cases hwf with
    | leaf _ _ _ hk256 _ hplace =>
      have hdle : p.length ≤ firstDiv key k0 := by
        apply le_firstDiv_of_agree key k0 p.length (fun h => hk0 h.symm)
        intro i hi
        rw [← hbits i hi]
        exact (hplace i hi).symm
      rw [insertT, if_neg hk0] at hc
      rcases pushT_contents hsh key value k0 v0 _ p.length (by omega) c hc
        with h3 | h3 | h3
      · left
        rw [insertT, if_neg hk0]
        exact h3
      · right; left; exact h3
      · right; right; left
        exact ⟨k0, v0, rfl, h3⟩
  | node l r ihl ihr =>
    intro p hwf hbits habs c hc
    rw [keyInT] at habs
    cases hwf with
    | node _ _ _ hdep hwl hwr _ _ =>
      have hext : ∀ (c2 : Bool), key.testBit p.length = c2 →
          ∀ i, i < (p ++ [c2]).length → (p ++ [c2]).getD i false = key.testBit i := by
        intro c2 hc2 i hi
        simp at hi
        rcases Nat.lt_or_ge i p.length with h2 | h2
        · rw [getD_concat_lt _ _ _ h2]
          exact hbits i h2
        · have : i = p.length := by omega
          subst this
          rw [getD_concat_length, hc2]
      by_cases hb : key.testBit p.length = true
      · rw [insertT, if_pos hb] at hc
        rw [show contentsOf hsh (Tr.node l (insertT key value r (p.length + 1)))
          = [encodeT hsh l, encodeT hsh (insertT key value r (p.length + 1))]
            :: (contentsOf hsh l
              ++ contentsOf hsh (insertT key value r (p.length + 1))) from rfl] at hc
        rcases List.mem_cons.mp hc with h2 | h2
        · left
          rw [insertT, if_pos hb, trSpine_node_pos hsh key _ _ _ hb]
          apply List.mem_append_right
          rw [h2]
          exact List.mem_singleton.mpr rfl
        · rcases List.mem_append.mp h2 with h3 | h3
          · obtain ⟨w, S, hsub, hne, hcS⟩ := contentsOf_to_subtree hsh l c h3
            right; right; right
            refine ⟨S, false :: w, 0, ?_, hne, hcS, by simp, ?_⟩
            · rw [subtreeAt_node, if_neg (by exact Bool.false_ne_true)]
              exact hsub
            · rw [List.getD_cons_zero, Nat.add_zero, hb]
              exact Bool.false_ne_true
          · have h4 := ihr (p ++ [true]) hwr (hext true hb)
              (Bool.or_eq_false_iff.mp habs).2 c (by
                simp only [List.length_append, List.length_cons, List.length_nil,
                  Nat.add_zero, Nat.zero_add]
                exact h3)
            simp only [List.length_append, List.length_cons, List.length_nil,
              Nat.add_zero, Nat.zero_add] at h4
            rcases h4 with h5 | h5 | h5 | h5
            · left
              rw [insertT, if_pos hb, trSpine_node_pos hsh key _ _ _ hb]
              exact List.mem_append_left _ h5
            · right; left; exact h5
            · right; right; left
              obtain ⟨k2, v2, hstop, hcc⟩ := h5
              refine ⟨k2, v2, ?_, hcc⟩
              rw [trStop_node, if_pos hb]
              exact hstop
            · right; right; right
              obtain ⟨S, w, i0, hsub, hne, hcS, hi0, hbit⟩ := h5
              refine ⟨S, true :: w, i0 + 1, ?_, hne, hcS, by simp; omega, ?_⟩
              · rw [subtreeAt_node, if_pos rfl]
                exact hsub
              · rw [List.getD_cons_succ,
                  show p.length + (i0 + 1) = p.length + 1 + i0 from by omega]
                exact hbit
      · have hb2 : key.testBit p.length = false := by
          cases h0 : key.testBit p.length
          · rfl
          · exact absurd h0 hb
        rw [insertT, if_neg hb] at hc
        rw [show contentsOf hsh (Tr.node (insertT key value l (p.length + 1)) r)
          = [encodeT hsh (insertT key value l (p.length + 1)), encodeT hsh r]
            :: (contentsOf hsh (insertT key value l (p.length + 1))
              ++ contentsOf hsh r) from rfl] at hc
        rcases List.mem_cons.mp hc with h2 | h2
        · left
          rw [insertT, if_neg hb, trSpine_node_neg hsh key _ _ _ hb2]
          apply List.mem_append_right
          rw [h2]
          exact List.mem_singleton.mpr rfl
        · rcases List.mem_append.mp h2 with h3 | h3
          · have h4 := ihl (p ++ [false]) hwl (hext false hb2)
              (Bool.or_eq_false_iff.mp habs).1 c (by
                simp only [List.length_append, List.length_cons, List.length_nil,
                  Nat.add_zero, Nat.zero_add]
                exact h3)
            simp only [List.length_append, List.length_cons, List.length_nil,
              Nat.add_zero, Nat.zero_add] at h4
            rcases h4 with h5 | h5 | h5 | h5
            · left
              rw [insertT, if_neg hb, trSpine_node_neg hsh key _ _ _ hb2]
              exact List.mem_append_left _ h5
            · right; left; exact h5
            · right; right; left
              obtain ⟨k2, v2, hstop, hcc⟩ := h5
              refine ⟨k2, v2, ?_, hcc⟩
              rw [trStop_node, if_neg hb]
              exact hstop
            · right; right; right
              obtain ⟨S, w, i0, hsub, hne, hcS, hi0, hbit⟩ := h5
              refine ⟨S, false :: w, i0 + 1, ?_, hne, hcS, by simp; omega, ?_⟩
              · rw [subtreeAt_node, if_neg (by exact Bool.false_ne_true)]
                exact hsub
              · rw [List.getD_cons_succ,
                  show p.length + (i0 + 1) = p.length + 1 + i0 from by omega]
                exact hbit
          · obtain ⟨w, S, hsub, hne, hcS⟩ := contentsOf_to_subtree hsh r c h3
            right; right; right
            refine ⟨S, true :: w, 0, ?_, hne, hcS, by simp, ?_⟩
            · rw [subtreeAt_node, if_pos rfl]
              exact hsub
            · rw [List.getD_cons_zero, Nat.add_zero, hb2]
              exact fun h => Bool.false_ne_true h.symm

theorem subtree_content_mem (hsh : List ℕ → ℕ) : ∀ (w : List Bool) (T S : Tr),
    subtreeAt T w = some S → S ≠ .empty → contentT hsh S ∈ contentsOf hsh T := by
  intro w
  induction w with
  | nil =>
    intro T S h hne
    rw [subtreeAt_nil] at h
    injection h with h
    subst h
    cases T with
    | empty => exact absurd rfl hne
    | leaf k v =>
      rw [show contentT hsh (Tr.leaf k v) = [k, v, 1] from rfl,
        show contentsOf hsh (Tr.leaf k v) = [[k, v, 1]] from rfl]
      exact List.mem_singleton.mpr rfl
    | node l r =>
      rw [show contentT hsh (Tr.node l r) = [encodeT hsh l, encodeT hsh r] from rfl,
        show contentsOf hsh (Tr.node l r) = [encodeT hsh l, encodeT hsh r]
          :: (contentsOf hsh l ++ contentsOf hsh r) from rfl]
      exact List.mem_cons_self _ _
  | cons b w ih =>
    intro T S h hne
    cases T with
    | empty => rw [show subtreeAt Tr.empty (b :: w) = none from rfl] at h; cases h
    | leaf k v => rw [show subtreeAt (Tr.leaf k v) (b :: w) = none from rfl] at h; cases h
    | node l r =>
      rw [subtreeAt_node] at h
      rw [show contentsOf hsh (Tr.node l r) = [encodeT hsh l, encodeT hsh r]
        :: (contentsOf hsh l ++ contentsOf hsh r) from rfl]
      apply List.mem_cons_of_mem
      cases b with
      | true =>
        rw [if_pos rfl] at h
        exact List.mem_append_right _ (ih r S h hne)
      | false =>
        rw [if_neg (by exact Bool.false_ne_true)] at h
        exact List.mem_append_left _ (ih l S h hne)

theorem trSpine_id_ne_len3 (hsh : List ℕ → ℕ) (hinj : Function.Injective hsh)
    (key : ℕ) (T : Tr) (d : ℕ) (me : List ℕ) (hlen : me.length = 3) :
    ∀ e ∈ trSpine hsh key T d, e.1 ≠ hsh me := by
  intro e he hcon
  obtain ⟨i, l2, r2, _, _, he2⟩ := trSpine_mem hsh key T d e he
  rw [he2] at hcon
  have h2 : encodeT hsh (Tr.node l2 r2) = hsh me := hcon
  rw [show encodeT hsh (Tr.node l2 r2)
    = hsh [encodeT hsh l2, encodeT hsh r2] from rfl] at h2
  have h3 := hinj h2
  have h4 := congrArg List.length h3
  rw [hlen] at h4
  simp at h4

theorem trStop_not_node (key : ℕ) :
    ∀ (T : Tr) (d : ℕ), isNodeB (trStop key T d) = false := by
  intro T
  induction T with
  | empty => intro d; rfl
  | leaf k v => intro d; rfl
  | node l r ihl ihr =>
    intro d
    rw [trStop_node]
    by_cases hb : key.testBit d = true
    · rw [if_pos hb]; exact ihr (d + 1)
    · rw [if_neg hb]; exact ihl (d + 1)

/-- `add` over an empty slot realises shape-level insertion: no error,
the new store carries every binding of the inserted shape, and the new
root is its encoding. -/
theorem add_shape_empty (hsh : List ℕ → ℕ) (hinj : Function.Injective hsh)
    (hnz : ∀ l, hsh l ≠ 0) (t : SMT) (T : Tr) (key value : ℕ)
    (hkey : key < 2 ^ 256) (hwf : WfT T []) (hst : StoredT hsh t.nodes T)
    (habs : keyInT key T = false)
    (hret2 : t.retrieveEntry key = some ⟨[key], none, trSibs hsh key T 0⟩)
    (hstopE : trStop key T 0 = .empty) :
    (SMT.add hsh t key value).err = none ∧
    StoredT hsh (SMT.add hsh t key value).state.nodes (insertT key value T 0) ∧
    (SMT.add hsh t key value).state.root = encodeT hsh (insertT key value T 0) := by
  have herr : (SMT.add hsh t key value).err = none := by
    simp [SMT.add, hret2, -List.getD_eq_getElem?_getD]
  obtain ⟨t2, hadd⟩ : ∃ t2, SMT.add hsh t key value = ⟨none, t2⟩ :=
    ⟨(SMT.add hsh t key value).state, by
      have heta : SMT.add hsh t key value
          = ⟨(SMT.add hsh t key value).err, (SMT.add hsh t key value).state⟩ := rfl
      rw [heta, herr]⟩
  have hadd2 : t2 = ⟨(addNewNodes hsh
      (mapSet (if 0 < (trSibs hsh key T 0).length
        then deleteOldNodes hsh t.nodes 0 (keyToPath key) (trSibs hsh key T 0)
        else t.nodes)
        (hsh [key, value, 1]) [key, value, 1])
      (hsh [key, value, 1]) (keyToPath key) (trSibs hsh key T 0)
      (((trSibs hsh key T 0).length : ℤ) - 1)).2,
    (addNewNodes hsh
      (mapSet (if 0 < (trSibs hsh key T 0).length
        then deleteOldNodes hsh t.nodes 0 (keyToPath key) (trSibs hsh key T 0)
        else t.nodes)
        (hsh [key, value, 1]) [key, value, 1])
      (hsh [key, value, 1]) (keyToPath key) (trSibs hsh key T 0)
      (((trSibs hsh key T 0).length : ℤ) - 1)).1⟩ := by
    simp [SMT.add, hret2, -List.getD_eq_getElem?_getD] at hadd
    exact hadd.symm
  rw [addNewNodes_toAux] at hadd2
  obtain ⟨hstopN, hsibsN⟩ := insertT_locator_empty hsh key value T 0 habs hstopE
  have hfoldN := foldChain_shape_eq hsh key (insertT key value T 0) 0 [] rfl
  simp only [List.nil_append] at hfoldN
  rw [hstopN, hsibsN, show encodeT hsh (Tr.leaf key value) = hsh [key, value, 1]
      from rfl,
    show foldChain hsh 0 (encodeT hsh (insertT key value T 0)) (keyToPath key)
      (trSibs hsh key T 0) = [] from rfl, List.append_nil] at hfoldN
  have hcalcN := calcAux_shape hsh key (insertT key value T 0) 0 [] rfl
  simp only [List.nil_append] at hcalcN
  rw [hstopN, hsibsN, show encodeT hsh (Tr.leaf key value) = hsh [key, value, 1]
      from rfl,
    show calculateRootAux hsh 0 (encodeT hsh (insertT key value T 0)) (keyToPath key)
      (trSibs hsh key T 0) = encodeT hsh (insertT key value T 0) from rfl] at hcalcN
  have hfoldO := foldChain_shape_eq hsh key T 0 [] rfl
  simp only [List.nil_append] at hfoldO
  rw [hstopE, show encodeT hsh Tr.empty = 0 from rfl,
    show foldChain hsh 0 (encodeT hsh T) (keyToPath key) (trSibs hsh key T 0) = []
      from rfl, List.append_nil] at hfoldO
  rw [hadd]
  refine ⟨rfl, ?_, ?_⟩
  · show StoredT hsh t2.nodes (insertT key value T 0)
    intro c hc
    have hclass := contentsOf_insertT_classify hsh key value T [] hwf
      (fun i hi => absurd hi (by simp)) habs c hc
    simp only [List.length_nil, Nat.zero_add] at hclass
    simp only [hadd2]
    rcases hclass with h5 | h5 | h5 | h5
    · rw [← hfoldN] at h5
      exact addNewNodesAux_stores hsh hinj _ _ _ _ _ (hsh c, c) h5
    · rw [h5]
      apply lookupN_addNewNodesAux_consistent hsh hinj
      rw [lookupN_mapSet, if_pos rfl]
    · obtain ⟨k0, v0, hstop5, _⟩ := h5
      rw [hstopE] at hstop5
      cases hstop5
    · obtain ⟨S, w, i0, hsub, hneS, hcS, hi0, hbit⟩ := h5
      have hpres : lookupN t.nodes (hsh c) = some c := by
        rw [hcS]
        exact hst _ (subtree_content_mem hsh w T S hsub hneS)
      have hD : lookupN (if 0 < (trSibs hsh key T 0).length
          then deleteOldNodes hsh t.nodes 0 (keyToPath key) (trSibs hsh key T 0)
          else t.nodes) (hsh c) = some c := by
        by_cases hsp : 0 < (trSibs hsh key T 0).length
        · rw [if_pos hsp, deleteOldNodes]
          have hq : ∀ e ∈ foldChain hsh (trSibs hsh key T 0).length 0 (keyToPath key)
              (trSibs hsh key T 0), e.1 ≠ hsh c := by
            intro e he hcon
            rw [hfoldO] at he
            rw [hcS] at hcon
            exact off_path_not_in_spine hsh hinj hnz key T hwf S w hsub hneS i0 hi0
              hbit e he hcon
          rw [lookupN_deleteOldNodesAux hsh _ _ _ _ _ _ hq]
          exact hpres
        · rw [if_neg hsp]
          exact hpres
      exact lookupN_addNewNodesAux_consistent hsh hinj _ _ _ _ _ c
        (lookupN_mapSet_consistent hsh hinj _ c _ hD)
  · show t2.root = encodeT hsh (insertT key value T 0)
    simp only [hadd2]
    rw [addNewNodesAux_fst]
    exact hcalcN

/-- `add` over an occupied slot realises shape-level insertion: the
occupying entry is pushed down to the first divergence, the new store
carries every binding of the inserted shape, and the new root is its
encoding. -/
theorem add_shape_match (hsh : List ℕ → ℕ) (hinj : Function.Injective hsh)
    (hnz : ∀ l, hsh l ≠ 0) (t : SMT) (T : Tr) (key value : ℕ)
    (hkey : key < 2 ^ 256) (hwf : WfT T []) (hst : StoredT hsh t.nodes T)
    (habs : keyInT key T = false) (k0 v0 : ℕ)
    (hret2 : t.retrieveEntry key
      = some ⟨[key], some [k0, v0, 1], trSibs hsh key T 0⟩)
    (hstopE : trStop key T 0 = .leaf k0 v0) :
    (SMT.add hsh t key value).err = none ∧
    StoredT hsh (SMT.add hsh t key value).state.nodes (insertT key value T 0) ∧
    (SMT.add hsh t key value).state.root = encodeT hsh (insertT key value T 0) := by
  have hk0in : keyInT k0 T = true := trStop_key_in key T 0 k0 v0 hstopE
  have hk0ne : k0 ≠ key := by
    intro hcon
    rw [hcon, habs] at hk0in
    cases hk0in
  have hagree := trStop_leaf_agrees hsh key T [] hwf
    (fun i hi => absurd hi (by simp)) k0 v0
    (by simp only [List.length_nil]; exact hstopE)
  simp only [List.length_nil, Nat.zero_add] at hagree
  have hk0256 := hagree.1
  have hdiv : firstDivergence (keyToPath key) (keyToPath k0)
      (trSibs hsh key T 0).length = some (firstDiv key k0) :=
    firstDivergence_eq_firstDiv key k0 hkey hk0256 (fun h => hk0ne h.symm) _
      (fun i hi => (hagree.2 i hi).symm)
  have hjge : (trSibs hsh key T 0).length ≤ firstDiv key k0 :=
    le_firstDiv_of_agree key k0 _ (fun h => hk0ne h.symm)
      (fun i hi => (hagree.2 i hi).symm)
  have herr : (SMT.add hsh t key value).err = none := by
    simp [SMT.add, hret2, hdiv, -List.getD_eq_getElem?_getD]
  obtain ⟨t2, hadd⟩ : ∃ t2, SMT.add hsh t key value = ⟨none, t2⟩ :=
    ⟨(SMT.add hsh t key value).state, by
      have heta : SMT.add hsh t key value
          = ⟨(SMT.add hsh t key value).err, (SMT.add hsh t key value).state⟩ := rfl
      rw [heta, herr]⟩
  have hadd2 : t2 = ⟨(addNewNodes hsh
      (mapSet (if 0 < (trSibs hsh key T 0).length
        then deleteOldNodes hsh t.nodes (hsh [k0, v0, 1]) (keyToPath key)
          (trSibs hsh key T 0)
        else t.nodes)
        (hsh [key, value, 1]) [key, value, 1])
      (hsh [key, value, 1]) (keyToPath key)
      (trSibs hsh key T 0 ++ (List.replicate (firstDiv key k0
        - (trSibs hsh key T 0).length) 0 ++ [hsh [k0, v0, 1]]))
      (((trSibs hsh key T 0 ++ (List.replicate (firstDiv key k0
        - (trSibs hsh key T 0).length) 0 ++ [hsh [k0, v0, 1]])).length : ℤ) - 1)).2,
    (addNewNodes hsh
      (mapSet (if 0 < (trSibs hsh key T 0).length
        then deleteOldNodes hsh t.nodes (hsh [k0, v0, 1]) (keyToPath key)
          (trSibs hsh key T 0)
        else t.nodes)
        (hsh [key, value, 1]) [key, value, 1])
      (hsh [key, value, 1]) (keyToPath key)
      (trSibs hsh key T 0 ++ (List.replicate (firstDiv key k0
        - (trSibs hsh key T 0).length) 0 ++ [hsh [k0, v0, 1]]))
      (((trSibs hsh key T 0 ++ (List.replicate (firstDiv key k0
        - (trSibs hsh key T 0).length) 0 ++ [hsh [k0, v0, 1]])).length : ℤ) - 1)).1⟩ := by
    simp [SMT.add, hret2, hdiv, -List.getD_eq_getElem?_getD] at hadd
    rw [← hadd]
    have harith : (((trSibs hsh key T 0).length : ℤ)
        + ((firstDiv key k0 - (trSibs hsh key T 0).length : ℕ) + 1) - 1)
        = (((trSibs hsh key T 0 ++ (List.replicate (firstDiv key k0
          - (trSibs hsh key T 0).length) 0 ++ [hsh [k0, v0, 1]])).length : ℤ) - 1) := by
      simp
    rw [← harith]
  rw [addNewNodes_toAux] at hadd2
  have hlocm := insertT_locator_match hsh key value T [] k0 v0 hwf
    (fun i hi => absurd hi (by simp)) habs
    (by simp only [List.length_nil]; exact hstopE)
  simp only [List.length_nil, Nat.zero_add] at hlocm
  obtain ⟨hstopN, hsibsN⟩ := hlocm
  have hfoldN := foldChain_shape_eq hsh key (insertT key value T 0) 0 [] rfl
  simp only [List.nil_append] at hfoldN
  rw [hstopN, hsibsN, show encodeT hsh (Tr.leaf key value) = hsh [key, value, 1]
      from rfl,
    show foldChain hsh 0 (encodeT hsh (insertT key value T 0)) (keyToPath key)
      (trSibs hsh key T 0 ++ (List.replicate (firstDiv key k0
        - (trSibs hsh key T 0).length) 0 ++ [hsh [k0, v0, 1]])) = [] from rfl,
    List.append_nil] at hfoldN
  have hcalcN := calcAux_shape hsh key (insertT key value T 0) 0 [] rfl
  simp only [List.nil_append] at hcalcN
  rw [hstopN, hsibsN, show encodeT hsh (Tr.leaf key value) = hsh [key, value, 1]
      from rfl,
    show calculateRootAux hsh 0 (encodeT hsh (insertT key value T 0)) (keyToPath key)
      (trSibs hsh key T 0 ++ (List.replicate (firstDiv key k0
        - (trSibs hsh key T 0).length) 0 ++ [hsh [k0, v0, 1]]))
      = encodeT hsh (insertT key value T 0) from rfl] at hcalcN
  have hfoldO := foldChain_shape_eq hsh key T 0 [] rfl
  simp only [List.nil_append] at hfoldO
  rw [hstopE, show encodeT hsh (Tr.leaf k0 v0) = hsh [k0, v0, 1] from rfl,
    show foldChain hsh 0 (encodeT hsh T) (keyToPath key) (trSibs hsh key T 0) = []
      from rfl, List.append_nil] at hfoldO
  rw [hadd]
  refine ⟨rfl, ?_, ?_⟩
  · show StoredT hsh t2.nodes (insertT key value T 0)
    intro c hc
    have hclass := contentsOf_insertT_classify hsh key value T [] hwf
      (fun i hi => absurd hi (by simp)) habs c hc
    simp only [List.length_nil, Nat.zero_add] at hclass
    simp only [hadd2]
    rcases hclass with h5 | h5 | h5 | h5
    · rw [← hfoldN] at h5
      exact addNewNodesAux_stores hsh hinj _ _ _ _ _ (hsh c, c) h5
    · rw [h5]
      apply lookupN_addNewNodesAux_consistent hsh hinj
      rw [lookupN_mapSet, if_pos rfl]
    · obtain ⟨k2, v2, hstop5, hc5⟩ := h5
      rw [hstopE] at hstop5
      injection hstop5 with he1 he2
      rw [← he1, ← he2] at hc5
      have hpres : lookupN t.nodes (hsh c) = some c := by
        rw [hc5]
        exact hst _ (trStop_content_mem hsh key T 0 k0 v0 hstopE)
      have hD : lookupN (if 0 < (trSibs hsh key T 0).length
          then deleteOldNodes hsh t.nodes (hsh [k0, v0, 1]) (keyToPath key)
            (trSibs hsh key T 0)
          else t.nodes) (hsh c) = some c := by
        by_cases hsp : 0 < (trSibs hsh key T 0).length
        · rw [if_pos hsp, deleteOldNodes]
          have hq : ∀ e ∈ foldChain hsh (trSibs hsh key T 0).length (hsh [k0, v0, 1])
              (keyToPath key) (trSibs hsh key T 0), e.1 ≠ hsh c := by
            intro e he
            rw [hfoldO] at he
            rw [hc5]
            exact trSpine_id_ne_len3 hsh hinj key T 0 [k0, v0, 1] rfl e he
          rw [lookupN_deleteOldNodesAux hsh _ _ _ _ _ _ hq]
          exact hpres
        · rw [if_neg hsp]
          exact hpres
      exact lookupN_addNewNodesAux_consistent hsh hinj _ _ _ _ _ c
        (lookupN_mapSet_consistent hsh hinj _ c _ hD)
    · obtain ⟨S, w, i0, hsub, hneS, hcS, hi0, hbit⟩ := h5
      have hpres : lookupN t.nodes (hsh c) = some c := by
        rw [hcS]
        exact hst _ (subtree_content_mem hsh w T S hsub hneS)
      have hD : lookupN (if 0 < (trSibs hsh key T 0).length
          then deleteOldNodes hsh t.nodes (hsh [k0, v0, 1]) (keyToPath key)
            (trSibs hsh key T 0)
          else t.nodes) (hsh c) = some c := by
        by_cases hsp : 0 < (trSibs hsh key T 0).length
        · rw [if_pos hsp, deleteOldNodes]
          have hq : ∀ e ∈ foldChain hsh (trSibs hsh key T 0).length (hsh [k0, v0, 1])
              (keyToPath key) (trSibs hsh key T 0), e.1 ≠ hsh c := by
            intro e he hcon
            rw [hfoldO] at he
            rw [hcS] at hcon
            exact off_path_not_in_spine hsh hinj hnz key T hwf S w hsub hneS i0 hi0
              hbit e he hcon
          rw [lookupN_deleteOldNodesAux hsh _ _ _ _ _ _ hq]
          exact hpres
        · rw [if_neg hsp]
          exact hpres
      exact lookupN_addNewNodesAux_consistent hsh hinj _ _ _ _ _ c
        (lookupN_mapSet_consistent hsh hinj _ c _ hD)
  · show t2.root = encodeT hsh (insertT key value T 0)
    simp only [hadd2]
    rw [addNewNodesAux_fst]
    exact hcalcN

/-- `add` on a stored well-formed shape with a fresh mode-valid key
succeeds and realises shape-level insertion, preserving the invariant. -/
theorem add_shape (hsh : List ℕ → ℕ) (hinj : Function.Injective hsh)
    (hnz : ∀ l, hsh l ≠ 0) (t : SMT) (T : Tr) (key value : ℕ)
    (hkey : key < 2 ^ 256) (hwf : WfT T []) (hst : StoredT hsh t.nodes T)
    (hroot : t.root = encodeT hsh T) (habs : keyInT key T = false) :
    (SMT.add hsh t key value).err = none ∧
    StoredT hsh (SMT.add hsh t key value).state.nodes (insertT key value T 0) ∧
    (SMT.add hsh t key value).state.root = encodeT hsh (insertT key value T 0) := by
  have hre := retrieve_shape hsh hnz t.nodes key hkey T 0 (by omega)
    (by rw [show (keyToPath key).take 0 = [] from rfl]; exact hwf) hst [] rfl
  have hret0 : t.retrieveEntry key
      = some ⟨trEntry key T 0, trMatch key T 0, trSibs hsh key T 0⟩ := by
    rw [SMT.retrieveEntry, hroot]
    simpa using hre
  rcases hstopE : trStop key T 0 with _ | ⟨k0, v0⟩ | ⟨l0, r0⟩
  · have hentry : trEntry key T 0 = [key] := by
      rw [trEntry, hstopE]
    have hmatch : trMatch key T 0 = none := by
      rw [trMatch, hstopE]
    rw [hentry, hmatch] at hret0
    exact add_shape_empty hsh hinj hnz t T key value hkey hwf hst habs hret0 hstopE
  · have hk0in : keyInT k0 T = true := trStop_key_in key T 0 k0 v0 hstopE
    have hk0ne : k0 ≠ key := fun hcon => by
      rw [hcon, habs] at hk0in
      cases hk0in
    have hentry : trEntry key T 0 = [key] := by
      rw [trEntry, hstopE]
      show (if k0 = key then [k0, v0, 1] else [key]) = [key]
      rw [if_neg hk0ne]
    have hmatch : trMatch key T 0 = some [k0, v0, 1] := by
      rw [trMatch, hstopE]
      show (if k0 = key then none else some [k0, v0, 1]) = some [k0, v0, 1]
      rw [if_neg hk0ne]
    rw [hentry, hmatch] at hret0
    exact add_shape_match hsh hinj hnz t T key value hkey hwf hst habs k0 v0
      hret0 hstopE
  · have h2 := trStop_not_node key T 0
    rw [hstopE] at h2
    cases h2

/-- Folding `add` over a list of entries (keeping the resulting state of
each step). -/
def addAll (hsh : List ℕ → ℕ) (t : SMT) (l : List (ℕ × ℕ)) : SMT :=
  l.foldl (fun s kv => (SMT.add hsh s kv.1 kv.2).state) t

/-- The fold of `add` over distinct fresh keys computes the encoding of
the fold of shape-level insertion. -/
theorem addAll_shape (hsh : List ℕ → ℕ) (hinj : Function.Injective hsh)
    (hnz : ∀ l, hsh l ≠ 0) :
    ∀ (l : List (ℕ × ℕ)) (t : SMT) (T : Tr), WfT T [] → StoredT hsh t.nodes T →
      t.root = encodeT hsh T → (∀ kv ∈ l, kv.1 < 2 ^ 256) →
      (∀ kv ∈ l, keyInT kv.1 T = false) → (l.map Prod.fst).Nodup →
      (addAll hsh t l).root = encodeT hsh (insertAll l T) := by
  intro l
  induction l with
  | nil =>
    intro t T _ _ hroot _ _ _
    exact hroot
  | cons kv rest ih =>
    intro t T hwf hst hroot hbound habs hnd
    rw [show addAll hsh t (kv :: rest)
        = addAll hsh (SMT.add hsh t kv.1 kv.2).state rest from rfl, insertAll_cons]
    obtain ⟨_, hst2, hroot2⟩ := add_shape hsh hinj hnz t T kv.1 kv.2
      (hbound kv (by simp)) hwf hst hroot (habs kv (by simp))
    apply ih
    · exact WfT_insertT_root kv.1 kv.2 (hbound kv (by simp)) T hwf (habs kv (by simp))
    · exact hst2
    · exact hroot2
    · intro kv2 h2
      exact hbound kv2 (by simp [h2])
    · intro kv2 h2
      rw [keyInT_insertT]
      have h3 : decide (kv.1 = kv2.1) = false := by
        simp
        intro hcon
        rw [List.map_cons] at hnd
        exact (List.nodup_cons.mp hnd).1 (hcon ▸ List.mem_map_of_mem Prod.fst h2)
      rw [h3]
      simp
      have h4 := habs kv2 (by simp [h2])
      simpa using h4
    · rw [List.map_cons] at hnd
      exact hnd.of_cons

/-- C6: inserting a set of entries with distinct mode-valid keys into
the empty tree yields the same root in any order — the root is the
encoding of the shape-level fold, and shape-level insertion of distinct
fresh keys commutes. -/
theorem C6_insertion_order_independent (hsh : List ℕ → ℕ)
    (hinj : Function.Injective hsh) (hnz : ∀ l, hsh l ≠ 0)
    (l1 l2 : List (ℕ × ℕ)) (hperm : l1.Perm l2)
    (hbound : ∀ kv ∈ l1, kv.1 < 2 ^ 256) (hnd : (l1.map Prod.fst).Nodup) :
    (addAll hsh (⟨[], 0⟩ : SMT) l1).root = (addAll hsh (⟨[], 0⟩ : SMT) l2).root := by
  have hwf : WfT Tr.empty [] := WfT.empty []
  have hst : StoredT hsh (([] : NodeMap)) Tr.empty := by
    intro c hc
    rw [show contentsOf hsh Tr.empty = [] from rfl] at hc
    cases hc
  have h1 := addAll_shape hsh hinj hnz l1 ⟨[], 0⟩ Tr.empty hwf hst rfl hbound
    (fun kv _ => rfl) hnd
  have h2 := addAll_shape hsh hinj hnz l2 ⟨[], 0⟩ Tr.empty hwf hst rfl
    (fun kv h => hbound kv (hperm.mem_iff.mpr h)) (fun kv _ => rfl)
    ((hperm.map Prod.fst).nodup_iff.mp hnd)
  rw [h1, h2,
    insertAll_perm l1 l2 hperm Tr.empty hwf hbound (fun kv _ => rfl) hnd]

/-- Witness for C6: the entry sets {(1, 2), (3, 4)} inserted in both
orders into the empty tree. -/
theorem C6_witness :
    (addAll hashC (⟨[], 0⟩ : SMT) [(1, 2), (3, 4)]).root
      = (addAll hashC (⟨[], 0⟩ : SMT) [(3, 4), (1, 2)]).root :=
  C6_insertion_order_independent hashC hashC_injective hashC_ne_zero
    [(1, 2), (3, 4)] [(3, 4), (1, 2)] (by decide)
    (by intro kv h; fin_cases h <;> norm_num) (by decide)

end ZkKitSmt
